import Mathlib

/-! dude_suite: step resolver and task execution engine.

A shallow embedding of the step resolver (`steps.go`) and of the task
execution engine (`runner.go`), followed by theorems about them.

Conventions of the embedding.

* Go `int` is `Int`; Go `string` is `String`; a slice is a `List` (a nil slice
  and an empty slice are both `[]`, the code only ever takes their `len`).
* Go `error` is `Option Err`, `none` being `nil`.
* What the engine does that can be seen from outside, sending a message on
  `msgCh` and launching a process, is recorded in one trace, oldest first; the
  contents of the channel are the messages of the trace.
* Everything the engine cannot decide by itself (what a spawned shell does,
  whether the context is cancelled, which parallel branch finishes next) is
  asked of an `Env`, which threads a state of the outside world.
-/

namespace DudeSuite

/-! ## strings -/

/-- Go `unicode.IsSpace`: the Latin-1 spaces and the code points with the
Unicode White_Space property. -/
def isSpace (c : Char) : Bool :=
  let n := c.toNat
  n == 0x09 || n == 0x0A || n == 0x0B || n == 0x0C || n == 0x0D || n == 0x20
    || n == 0x85 || n == 0xA0 || n == 0x1680 || (0x2000 ≤ n && n ≤ 0x200A)
    || n == 0x2028 || n == 0x2029 || n == 0x202F || n == 0x205F || n == 0x3000

/-- Go `strings.TrimSpace`: the string without its leading and trailing white space. -/
def TrimSpace (s : String) : String :=
  ⟨((s.data.dropWhile isSpace).reverse.dropWhile isSpace).reverse⟩

/-- Go `strings.Join`. -/
def Join : List String → String → String
  | [], _ => ""
  | [a], _ => a
  | a :: b :: rest, sep => a ++ sep ++ Join (b :: rest) sep

/-! ## step_list.go, config.go: the data model -/

/-- `type StepKind int`. -/
abbrev StepKind := Int

/-- `StepAuto StepKind = iota`. -/
def StepAuto : StepKind := 0
/-- Second constant of the `StepKind` block. -/
def StepCommand : StepKind := 1
/-- Third constant of the `StepKind` block. -/
def StepTask : StepKind := 2

/-- `type Step struct`. -/
structure Step where
  Value : String
  Name : String
  Kind : StepKind
  deriving DecidableEq, Repr

/-- `type StepList []Step`. -/
abbrev StepList := List Step

/-- `type CommandList []string`. -/
abbrev CommandList := List String

/-- `type TaskDef struct`. -/
structure TaskDef where
  Name : String
  Key : String
  Hidden : Bool
  Cmd : StepList
  Parallel : StepList
  Seq : StepList
  deriving DecidableEq, Repr

/-- `type TaskResolver func(name string) (TaskDef, bool)`; `none` is the nil func. -/
abbrev TaskResolver := Option (String → TaskDef × Bool)

/-! ## steps.go -/

/-- `type StepMode int`. -/
abbrev StepMode := Int

/-- `StepModeNone StepMode = iota`. -/
def StepModeNone : StepMode := 0
/-- Second constant of the `StepMode` block. -/
def StepModeSeq : StepMode := 1
/-- Third constant of the `StepMode` block. -/
def StepModeParallel : StepMode := 2

/-- `func resolveStepKind(step Step, resolve TaskResolver) (StepKind, string)`. -/
def resolveStepKind (step : Step) (resolve : TaskResolver) : StepKind × String :=
  let value := TrimSpace step.Value
  if step.Kind = StepCommand then (StepCommand, value)
  else if step.Kind = StepTask then (StepTask, value)
  else if step.Kind = StepAuto then
    match resolve with
    | some r => if (r value).2 then (StepTask, value) else (StepCommand, value)
    | none => (StepCommand, value)
  else (StepCommand, value)

/-- `func taskSteps(taskName string, def TaskDef, resolve TaskResolver) (StepMode, StepList, bool)`. -/
def taskSteps (_taskName : String) (tdef : TaskDef) (resolve : TaskResolver) :
    StepMode × StepList × Bool :=
  if tdef.Parallel.length > 0 then (StepModeParallel, tdef.Parallel, true)
  else if tdef.Seq.length > 0 then (StepModeSeq, tdef.Seq, true)
  else if tdef.Cmd.length = 0 then (StepModeNone, [], false)
  else if tdef.Cmd.length > 1 then (StepModeSeq, tdef.Cmd, true)
  else if tdef.Cmd.length = 1 then
    match tdef.Cmd.head? with
    | some step0 =>
      if (resolveStepKind step0 resolve).1 = StepTask then (StepModeSeq, tdef.Cmd, true)
      else (StepModeNone, tdef.Cmd, false)
    | none => (StepModeNone, tdef.Cmd, false)
  else (StepModeNone, tdef.Cmd, false)

/-- `func stepModeName(mode StepMode) string`. -/
def stepModeName (mode : StepMode) : String :=
  if mode = StepModeParallel then "par"
  else if mode = StepModeSeq then "seq"
  else "step"

/-- `func stepID(taskName string, mode StepMode, index int) string`, that is
`fmt.Sprintf("%s::%s::%d", taskName, stepModeName(mode), index)`. -/
def stepID (taskName : String) (mode : StepMode) (index : Int) : String :=
  taskName ++ "::" ++ stepModeName mode ++ "::" ++ toString index

/-! ## runner.go: messages, errors and the outside world -/

/-- Go `error` values the engine meets. `Errorf format args` is the value of
`fmt.Errorf(format, args...)`, `ExitError code` is an `*exec.ExitError` whose
`ExitCode()` is `code`, and `other` is any other error of `os/exec`. -/
inductive Err where
  | Errorf (format : String) (args : List String)
  | ExitError (code : Int)
  | other (msg : String)
  deriving DecidableEq, Repr

/-- The `tea.Msg` values the engine sends: `TaskOutputMsg`, `TaskStartedMsg`,
`TaskFinishedMsg`, `StepStartedMsg` and `StepFinishedMsg`. -/
inductive Msg where
  | TaskOutputMsg (Target Line : String)
  | TaskStartedMsg (TaskName : String)
  | TaskFinishedMsg (TaskID : String) (ExitCode : Int) (Err : Option Err) (Canceled : Bool)
  | StepStartedMsg (StepID : String)
  | StepFinishedMsg (StepID : String) (ExitCode : Int) (Err : Option Err) (Canceled : Bool)
  deriving DecidableEq, Repr

/-- One call of `runSingle`: the process `shell -c fullCommand` whose output
is attributed to `target`. -/
structure Launch where
  shell : String
  fullCommand : String
  target : String
  deriving DecidableEq, Repr

/-- What `os/exec` did with one `Launch`: either `StdoutPipe`, `StderrPipe` or
`Start` returned an error, or the process ran, `streamLines` got `lines` onto
the channel and `cmd.Wait()` returned `err`. -/
inductive ProcResult where
  | notStarted (err : Err)
  | waited (lines : List String) (err : Option Err)
  deriving DecidableEq, Repr

/-- The outside world, with state `σ`: what a launched process does, whether
`ctx.Err() != nil` at the moment it is read, and which of `n` pending parallel
branches is the next to finish (taken modulo `n`). Every question may change
the state, so two answers to the same question may differ. -/
structure Env (σ : Type) where
  exec : σ → Launch → σ × ProcResult
  ctxErr : σ → σ × Bool
  pick : σ → Nat → σ × Nat

/-- What the engine does that can be seen from outside: it sends a message on
`msgCh`, or `runSingle` launches a process. -/
inductive Event where
  | msg (m : Msg)
  | launch (l : Launch)
  deriving DecidableEq, Repr

/-- State threaded through the engine: the outside world and the trace of
the sends and launches so far, oldest first. -/
structure World (σ : Type) where
  env : σ
  trace : List Event

/-- The messages sent on `msgCh` so far, oldest first. -/
def World.msgCh {σ : Type} (w : World σ) : List Msg :=
  w.trace.filterMap (fun e => match e with | .msg m => some m | .launch _ => none)

/-- The `runSingle` calls made so far, oldest first. -/
def World.launched {σ : Type} (w : World σ) : List Launch :=
  w.trace.filterMap (fun e => match e with | .msg _ => none | .launch l => some l)

/-- The state `runTask` starts from: nothing sent, nothing launched. -/
def World.init {σ : Type} (s0 : σ) : World σ := ⟨s0, []⟩

/-- The statement `msgCh <- m`. -/
def World.send {σ : Type} (w : World σ) (m : Msg) : World σ :=
  { w with trace := w.trace ++ [.msg m] }

/-- Reads `ctx.Err() != nil`. -/
def World.canceled {σ : Type} (E : Env σ) (w : World σ) : World σ × Bool :=
  ({ w with env := (E.ctxErr w.env).1 }, (E.ctxErr w.env).2)

/-- What the engine's functions return: the new state and Go's `(int, error)`. -/
abbrev Ret (σ : Type) := World σ × Int × Option Err

/-- The call `runTaskInternal(ctx, name, def, shell, init, resolve, msgCh, stack)`
as the step functions see it: state, `name`, `def`, `stack`. `none` means the
nesting budget ran out. -/
abbrev Invoke (σ : Type) := World σ → String → TaskDef → List String → Option (Ret σ)

/-- `func cloneStack(stack map[string]bool) map[string]bool`. A stack is the
list of the keys of the Go map (every value stored in it is `true`). -/
def cloneStack (stack : List String) : List String := stack

/-- `func buildShellCommand(init CommandList, command string) string`. -/
def buildShellCommand (init : CommandList) (command : String) : String :=
  let command := TrimSpace command
  if init.length = 0 then command
  else
    let parts := init.filter (fun cmd => TrimSpace cmd ≠ "")
    let parts := if command ≠ "" then parts ++ [command] else parts
    Join parts "; "

/-- `func runSingle(ctx, command, shell string, init CommandList, msgCh, target string) (int, error)`. -/
def runSingle {σ : Type} (E : Env σ) (w : World σ) (command shell : String)
    (init : CommandList) (target : String) : Ret σ :=
  let fullCommand := buildShellCommand init command
  let shell := if shell = "" then "/bin/sh" else shell
  let call : Launch := ⟨shell, fullCommand, target⟩
  let w1 : World σ := { env := (E.exec w.env call).1, trace := w.trace ++ [.launch call] }
  match (E.exec w.env call).2 with
  | .notStarted err => (w1, -1, some err)
  | .waited lines err =>
    let w2 : World σ :=
      { w1 with trace := w1.trace ++ lines.map (fun line => .msg (.TaskOutputMsg target line)) }
    let exitCode : Int :=
      match err with
      | none => 0
      | some (.ExitError code) => code
      | some _ => -1
    (w2, exitCode, err)

/-! ## runner.go: the engine -/

/-- `func runStep(ctx, taskName, step, mode, index, shell, init, resolve, msgCh, stack) (int, error)`;
`invoke` is the recursive call of `runTaskInternal`. -/
def runStep {σ : Type} (E : Env σ) (invoke : Invoke σ) (w : World σ) (taskName : String)
    (step : Step) (mode : StepMode) (index : Int) (shell : String) (init : CommandList)
    (resolve : String → TaskDef × Bool) (stack : List String) : Option (Ret σ) :=
  let value := TrimSpace step.Value
  if value = "" then some (w, -1, some (.Errorf "empty step" []))
  else
    let kind := (resolveStepKind step (some resolve)).1
    let resolved := (resolveStepKind step (some resolve)).2
    if kind = StepTask then
      let tdef := (resolve resolved).1
      let ok := (resolve resolved).2
      if !ok then some (w, -1, some (.Errorf "unknown task %q" [resolved]))
      else if resolved ∈ stack then
        some (w, -1, some (.Errorf "task cycle detected at %q" [resolved]))
      else
        let id := stepID taskName mode index
        let w1 := w.send (.StepStartedMsg id)
        let next := resolved :: cloneStack stack
        match invoke w1 resolved tdef next with
        | none => none
        | some (w2, exitCode, err) =>
          let (w3, c) := w2.canceled E
          some (w3.send (.StepFinishedMsg id exitCode err c), exitCode, err)
    else if kind = StepCommand then
      let id := stepID taskName mode index
      let w1 := w.send (.StepStartedMsg id)
      let (w2, exitCode, err) := runSingle E w1 value shell init id
      let (w3, c) := w2.canceled E
      some (w3.send (.StepFinishedMsg id exitCode err c), exitCode, err)
    else some (w, -1, some (.Errorf "unknown step kind" []))

/-- The `for idx, step := range steps` loop of `runSequential`, from index `idx` on. -/
def seqLoop {σ : Type} (E : Env σ) (invoke : Invoke σ) (taskName : String) (mode : StepMode)
    (shell : String) (init : CommandList) (resolve : String → TaskDef × Bool)
    (stack : List String) : Nat → StepList → World σ → Option (Ret σ)
  | _, [], w => some (w, 0, none)
  | idx, step :: rest, w =>
    match runStep E invoke w taskName step mode idx shell init resolve stack with
    | none => none
    | some (w1, exitCode, err) =>
      if err.isSome then some (w1, exitCode, err)
      else seqLoop E invoke taskName mode shell init resolve stack (idx + 1) rest w1

/-- `func runSequential(ctx, taskName, steps, mode, shell, init, resolve, msgCh, stack) (int, error)`. -/
def runSequential {σ : Type} (E : Env σ) (invoke : Invoke σ) (w : World σ) (taskName : String)
    (steps : StepList) (mode : StepMode) (shell : String) (init : CommandList)
    (resolve : String → TaskDef × Bool) (stack : List String) : Option (Ret σ) :=
  if steps.length = 0 then some (w, -1, some (.Errorf "no commands to run" []))
  else seqLoop E invoke taskName mode shell init resolve stack 0 steps w

/-- The local `type result struct` of `runParallel`. -/
structure result where
  exitCode : Int
  err : Option Err
  deriving DecidableEq, Repr

/-- The goroutines of `runParallel`, taken one after another: `n` counts the
branches still to run, `pending` holds them with their indices, and the
environment picks which of them finishes next. Each branch runs `runStep` on
its own copy of `stack` and sends its result on `results`; the model keeps,
next to each result received, the index of the branch that sent it. -/
def parLoop {σ : Type} (E : Env σ) (invoke : Invoke σ) (taskName : String) (mode : StepMode)
    (shell : String) (init : CommandList) (resolve : String → TaskDef × Bool)
    (stack : List String) :
    Nat → List (Nat × Step) → World σ → List (Nat × result) →
      Option (World σ × List (Nat × result))
  | 0, _, w, results => some (w, results)
  | n + 1, pending, w, results =>
    let k := (E.pick w.env pending.length).2 % pending.length
    let w0 : World σ := { w with env := (E.pick w.env pending.length).1 }
    match pending.get? k with
    | none => some (w0, results)
    | some (idx, step) =>
      match runStep E invoke w0 taskName step mode idx shell init resolve (cloneStack stack) with
      | none => none
      | some (w1, exitCode, err) =>
        parLoop E invoke taskName mode shell init resolve stack n (pending.eraseIdx k) w1
          (results ++ [(idx, ⟨exitCode, err⟩)])

/-- The `for res := range results` loop of `runParallel`. -/
def drainResults : List result → Int → Option Err → Int × Option Err
  | [], exitCode, err => (exitCode, err)
  | res :: rest, exitCode, err =>
    if res.err.isSome ∧ err.isNone then drainResults rest res.exitCode res.err
    else drainResults rest exitCode err

/-- `func runParallel(ctx, taskName, steps, mode, shell, init, resolve, msgCh, stack) (int, error)`. -/
def runParallel {σ : Type} (E : Env σ) (invoke : Invoke σ) (w : World σ) (taskName : String)
    (steps : StepList) (mode : StepMode) (shell : String) (init : CommandList)
    (resolve : String → TaskDef × Bool) (stack : List String) : Option (Ret σ) :=
  if steps.length = 0 then some (w, -1, some (.Errorf "no commands to run" []))
  else
    match parLoop E invoke taskName mode shell init resolve stack steps.length steps.enum w [] with
    | none => none
    | some (w1, results) => some (w1, drainResults (results.map Prod.snd) 0 none)

/-- `func runTaskSteps(ctx, taskName, def, shell, init, resolve, msgCh, stack) (int, error)`. -/
def runTaskSteps {σ : Type} (E : Env σ) (invoke : Invoke σ) (w : World σ) (taskName : String)
    (tdef : TaskDef) (shell : String) (init : CommandList)
    (resolve : String → TaskDef × Bool) (stack : List String) : Option (Ret σ) :=
  let mode := (taskSteps taskName tdef (some resolve)).1
  let steps := (taskSteps taskName tdef (some resolve)).2.1
  let multi := (taskSteps taskName tdef (some resolve)).2.2
  if !multi then
    match steps with
    | [] => some (w, -1, some (.Errorf "no commands to run" []))
    | step0 :: _ =>
      let kind := (resolveStepKind step0 (some resolve)).1
      let value := (resolveStepKind step0 (some resolve)).2
      if kind = StepTask then
        let child := (resolve value).1
        let ok := (resolve value).2
        if !ok then some (w, -1, some (.Errorf "unknown task %q" [value]))
        else if value ∈ stack then
          some (w, -1, some (.Errorf "task cycle detected at %q" [value]))
        else
          let next := value :: cloneStack stack
          match invoke w value child next with
          | none => none
          | some (w1, exitCode, err) =>
            if err.isSome then some (w1, exitCode, err) else some (w1, 0, none)
      else
        let (w1, exitCode, err) := runSingle E w step0.Value shell init taskName
        if err.isSome then some (w1, exitCode, err) else some (w1, 0, none)
  else if mode = StepModeParallel then
    runParallel E invoke w taskName steps mode shell init resolve stack
  else runSequential E invoke w taskName steps mode shell init resolve stack

/-- The resolver `runTaskInternal` goes on with: `resolve`, or the one that
knows no task when `resolve == nil`. -/
def orNoTasks (resolve : TaskResolver) : String → TaskDef × Bool :=
  match resolve with
  | some r => r
  | none => fun _ => (⟨"", "", false, [], [], []⟩, false)

/-- `func runTaskInternal(ctx, taskName, def, shell, init, resolve, msgCh, stack) (int, error)`.
The first argument bounds how deep invocations may nest: each nested
`runTaskInternal` gets one less, and `none` is returned when none is left. -/
def runTaskInternal {σ : Type} (E : Env σ) :
    Nat → World σ → String → TaskDef → String → CommandList → TaskResolver → List String →
      Option (Ret σ)
  | 0, _, _, _, _, _, _, _ => none
  | depth + 1, w, taskName, tdef, shell, init, resolve, stack =>
    let w1 := w.send (.TaskStartedMsg taskName)
    match runTaskSteps E
        (fun w' name child next =>
          runTaskInternal E depth w' name child shell init (some (orNoTasks resolve)) next)
        w1 taskName tdef shell init (orNoTasks resolve) stack with
    | none => none
    | some (w2, exitCode, err) =>
      let (w3, c) := w2.canceled E
      some (w3.send (.TaskFinishedMsg taskName exitCode err c), exitCode, err)

/-- `func runTask(ctx, taskName, def, shell, init, resolve, msgCh)`: the
messages on the fresh channel `msgCh` when it is closed, with the final state. -/
def runTask {σ : Type} (E : Env σ) (depth : Nat) (s0 : σ) (taskName : String) (tdef : TaskDef)
    (shell : String) (init : CommandList) (resolve : TaskResolver) : Option (World σ) :=
  let stack := [taskName]
  (runTaskInternal E depth (World.init s0) taskName tdef shell init resolve stack).map (fun r => r.1)

/-! ## Predicates used in the statements -/

/-- The steps of a list, run by `runStep` one after another from index `idx`
in state `w`, all return a nil error and leave state `w'`. -/
inductive RunsClean {σ : Type} (E : Env σ) (invoke : Invoke σ) (taskName : String)
    (mode : StepMode) (shell : String) (init : CommandList) (resolve : String → TaskDef × Bool)
    (stack : List String) : Nat → StepList → World σ → World σ → Prop where
  | nil (idx : Nat) (w : World σ) :
      RunsClean E invoke taskName mode shell init resolve stack idx [] w w
  | cons (idx : Nat) (step : Step) (rest : StepList) (w w1 w2 : World σ) (exitCode : Int)
      (hstep : runStep E invoke w taskName step mode idx shell init resolve stack =
        some (w1, exitCode, none))
      (hrest : RunsClean E invoke taskName mode shell init resolve stack (idx + 1) rest w1 w2) :
      RunsClean E invoke taskName mode shell init resolve stack idx (step :: rest) w w2

/-- The error of `fmt.Errorf("task cycle detected at %q", name)`. -/
def cycleError (name : String) : Err := .Errorf "task cycle detected at %q" [name]

/-- The recursive call as `runTaskInternal` with nesting budget `depth + 1`
hands it to its steps: an invocation with budget `depth`. -/
def nested {σ : Type} (E : Env σ) (depth : Nat) (shell : String) (init : CommandList)
    (resolve : String → TaskDef × Bool) : Invoke σ :=
  fun w name child next => runTaskInternal E depth w name child shell init (some resolve) next

/-- The step is a reference to the task `name`: it classifies as `Task`, its
trimmed value is `name`, which is not blank, and the registry knows `name`. -/
def IsTaskRef (resolve : String → TaskDef × Bool) (step : Step) (name : String) : Prop :=
  (resolveStepKind step (some resolve)).1 = StepTask ∧ TrimSpace step.Value = name ∧
    name ≠ "" ∧ (resolve name).2 = true

/-- The invocation of `taskName` started in state `w` with budget `depth + 1`
runs a sequential step list `pre ++ step :: post` whose steps before `step`
all return a nil error, leaving state `w1`. -/
def ReachesStep {σ : Type} (E : Env σ) (shell : String) (init : CommandList)
    (resolve : String → TaskDef × Bool) (depth : Nat) (w : World σ) (taskName : String)
    (tdef : TaskDef) (stack : List String) (mode : StepMode) (pre : StepList) (step : Step)
    (post : StepList) (w1 : World σ) : Prop :=
  taskSteps taskName tdef (some resolve) = (mode, pre ++ step :: post, true) ∧
    mode ≠ StepModeParallel ∧
    RunsClean E (nested E depth shell init resolve) taskName mode shell init resolve stack 0 pre
      (w.send (.TaskStartedMsg taskName)) w1

/-- A purely sequential chain from an invocation to a cycle: the invocation of
`taskName` (budget, state, definition, stack) reaches, in a sequential step
list, a reference to the task `name` that is on the stack (`found`), or a
reference to a task that is not on the stack and whose own invocation has
such a chain (`through`). -/
inductive SeqChainToCycle {σ : Type} (E : Env σ) (shell : String) (init : CommandList)
    (resolve : String → TaskDef × Bool) :
    Nat → World σ → String → TaskDef → List String → String → Prop where
  | found (depth : Nat) (w w1 : World σ) (taskName : String) (tdef : TaskDef)
      (stack : List String) (mode : StepMode) (pre : StepList) (step : Step) (post : StepList)
      (name : String)
      (hreach : ReachesStep E shell init resolve depth w taskName tdef stack mode pre step post w1)
      (href : IsTaskRef resolve step name) (hon : name ∈ stack) :
      SeqChainToCycle E shell init resolve (depth + 1) w taskName tdef stack name
  | through (depth : Nat) (w w1 : World σ) (taskName : String) (tdef : TaskDef)
      (stack : List String) (mode : StepMode) (pre : StepList) (step : Step) (post : StepList)
      (child name : String)
      (hreach : ReachesStep E shell init resolve depth w taskName tdef stack mode pre step post w1)
      (href : IsTaskRef resolve step child) (hoff : child ∉ stack)
      (hrec : SeqChainToCycle E shell init resolve depth
        (w1.send (.StepStartedMsg (stepID taskName mode pre.length))) child (resolve child).1
        (child :: stack) name) :
      SeqChainToCycle E shell init resolve (depth + 1) w taskName tdef stack name

/-- The invocations a frame whose stack is `stack` can make: of a task `name`
that the registry knows and that is not on `stack`, with the registry's
definition and with `name` added to the stack. `AgreeOn` says two recursive
calls return the same on all of them. -/
def AgreeOn {σ : Type} (resolve : String → TaskDef × Bool) (stack : List String)
    (invoke invoke' : Invoke σ) : Prop :=
  ∀ (w : World σ) (name : String), name ∉ stack → (resolve name).2 = true →
    invoke w name (resolve name).1 (name :: stack) =
      invoke' w name (resolve name).1 (name :: stack)

/-- The recursive call returns on every invocation a frame whose stack is
`stack` can make. -/
def TotalOn {σ : Type} (resolve : String → TaskDef × Bool) (stack : List String)
    (invoke : Invoke σ) : Prop :=
  ∀ (w : World σ) (name : String), name ∉ stack → (resolve name).2 = true →
    (invoke w name (resolve name).1 (name :: stack)).isSome = true

/-- The number of distinct names of `names` that are not on `stack`. -/
def offStack (names stack : List String) : Nat :=
  (names.dedup.filter (fun n => n ∉ stack)).length

/-- The part of a step's trace between its `StepStarted` and `StepFinished`
when the step is a command with identifier `id`: the launch of the command
with target `id`, then its output lines attributed to `id`. -/
def CommandBody (id : String) (body : List Event) : Prop :=
  ∃ (l : Launch) (lines : List String), l.target = id ∧
    body = Event.launch l :: lines.map (fun line => Event.msg (.TaskOutputMsg id line))

/-- The trace of a whole invocation of the task `child` that returned
`(exitCode, err)`: its `TaskStarted`, what its steps did, and its
`TaskFinished` carrying `(exitCode, err)`. -/
def ChildBody (child : String) (exitCode : Int) (err : Option Err) (body : List Event) : Prop :=
  ∃ (inner : List Event) (canceled : Bool),
    body = Event.msg (.TaskStartedMsg child) :: inner ++
      [Event.msg (.TaskFinishedMsg child exitCode err canceled)]

/-- The trace of the single-step execution of the step with identifier `id`:
empty when the step fails one of the checks made before `StepStarted`, and
otherwise `StepStarted id`, then either a command body or the whole trace of
the child invocation, then `StepFinished id`. -/
def StepTrace (id : String) (seg : List Event) : Prop :=
  seg = [] ∨
    ∃ (body : List Event) (exitCode : Int) (err : Option Err) (canceled : Bool),
      seg = Event.msg (.StepStartedMsg id) :: body ++
        [Event.msg (.StepFinishedMsg id exitCode err canceled)] ∧
      (CommandBody id body ∨ ∃ child, ChildBody child exitCode err body)

/-- Every invocation made through `invoke` that returns leaves the trace of a
whole invocation behind: what was there, then the child's `TaskStarted`, its
steps and its `TaskFinished` carrying what it returned. -/
def ChildShaped {σ : Type} (invoke : Invoke σ) : Prop :=
  ∀ (w : World σ) (name : String) (child : TaskDef) (next : List String) (w' : World σ)
    (exitCode : Int) (err : Option Err),
    invoke w name child next = some (w', exitCode, err) →
    ∃ body, ChildBody name exitCode err body ∧ w'.trace = w.trace ++ body

/-! ## Sample inputs -/

/-- A sample outside world: its state counts the launches, `exit 3` exits
with status 3, `nosuchshell` fails to start, any other command prints its own
text; the context is never cancelled and the last pending branch finishes first. -/
def sampleEnv : Env Nat where
  exec := fun s l =>
    (s + 1,
      if l.fullCommand = "exit 3" then .waited [] (some (.ExitError 3))
      else if l.fullCommand = "nosuchshell" then .notStarted (.other "exec: not found")
      else .waited [l.fullCommand] none)
  ctxErr := fun s => (s, false)
  pick := fun s n => (s, n - 1)

/-- A sample registry: `child` prints, `A` and `B` reference each other, `self`
references itself. -/
def sampleRegistry : String → TaskDef × Bool := fun name =>
  if name = "child" then (⟨"child", "", false, [⟨"echo child", "", StepCommand⟩], [], []⟩, true)
  else if name = "A" then (⟨"A", "", false, [⟨"B", "", StepAuto⟩], [], []⟩, true)
  else if name = "B" then (⟨"B", "", false, [⟨"echo b", "", StepAuto⟩, ⟨"A", "", StepTask⟩], [], []⟩, true)
  else if name = "self" then (⟨"self", "", false, [], [], [⟨"self", "", StepAuto⟩]⟩, true)
  else (⟨"", "", false, [], [], []⟩, false)

/-- A registry that answers every name, the blank one included, with the same
one-command task. -/
def anyNameRegistry : String → TaskDef × Bool := fun _ =>
  (⟨"any", "", false, [⟨"true", "", StepCommand⟩], [], []⟩, true)

/-- The events a frame produces by itself, outside nested invocations: a
launch, an output line, `StepStarted` and `StepFinished`. -/
def IsStepEvent : Event → Prop
  | .launch _ => True
  | .msg (.TaskOutputMsg _ _) => True
  | .msg (.StepStartedMsg _) => True
  | .msg (.StepFinishedMsg _ _ _ _) => True
  | .msg (.TaskStartedMsg _) => False
  | .msg (.TaskFinishedMsg _ _ _ _) => False

/-- From state `w` to state `w'` the trace only grew, and by events that all satisfy `Q`. -/
def EmitsOnly {σ : Type} (Q : Event → Prop) (w w' : World σ) : Prop :=
  ∃ t, w'.trace = w.trace ++ t ∧ ∀ e ∈ t, Q e

/-- Every invocation a frame whose stack is `stack` can make (see `AgreeOn`)
adds, when it returns, only events that satisfy `Q`. -/
def InvokeEmitsOnly {σ : Type} (Q : Event → Prop) (resolve : String → TaskDef × Bool)
    (stack : List String) (invoke : Invoke σ) : Prop :=
  ∀ (w w' : World σ) (name : String) (exitCode : Int) (err : Option Err),
    name ∉ stack → (resolve name).2 = true →
    invoke w name (resolve name).1 (name :: stack) = some (w', exitCode, err) →
    EmitsOnly Q w w'

/-- The event is not the `TaskFinished` of a task whose name is on `stack`. -/
def NotFinishedOf (stack : List String) (e : Event) : Prop :=
  ∀ (id : String) (exitCode : Int) (err : Option Err) (canceled : Bool),
    e = Event.msg (.TaskFinishedMsg id exitCode err canceled) → id ∉ stack

/-! ## config.go, ui.go: the combo scheduler -/

/-- `type ComboDef struct`; `StopOnFail *bool` is `none` when nil. -/
structure ComboDef where
  Name : String
  Key : String
  Mode : String
  Run : List String
  StopOnFail : Option Bool
  deriving DecidableEq, Repr

/-- `type Config struct`. -/
structure Config where
  Title : String
  SidebarWidth : Int
  Shell : String
  Theme : String
  Init : CommandList
  Tasks : List TaskDef
  Combos : List ComboDef
  deriving DecidableEq, Repr

/-- `func stopOnFail(cb ComboDef) bool`. -/
def stopOnFail (cb : ComboDef) : Bool :=
  match cb.StopOnFail with
  | none => true
  | some b => b

/-- `type TaskFinishedMsg struct`, as the scheduler receives it. -/
structure TaskFinishedMsg where
  TaskID : String
  ExitCode : Int
  Err : Option Err
  Canceled : Bool
  deriving DecidableEq, Repr

/-- A Go `map[string]T`: a list of key-value pairs with distinct keys. -/
abbrev GoMap (α : Type) := List (String × α)

/-- The lookup `m[key]`, `none` when the key is absent. -/
def GoMap.get {α : Type} : GoMap α → String → Option α
  | [], _ => none
  | (k, v) :: rest, key => if k = key then some v else GoMap.get rest key

/-- The statement `delete(m, key)`. -/
def GoMap.delete {α : Type} (m : GoMap α) (key : String) : GoMap α :=
  m.filter (fun p => p.1 ≠ key)

/-- The assignment `m[key] = v`. -/
def GoMap.set {α : Type} (m : GoMap α) (key : String) (v : α) : GoMap α :=
  (key, v) :: GoMap.delete m key

/-- `type Task struct`, reduced to what the scheduler reads and writes: the
definition and the `Running` flag. The fields that only feed the display
(`Status`, `Output`, `ExitCode`, `RunSeq`, the step tables, `cancel`, `msgCh`) are left out. -/
structure Task where
  Def : TaskDef
  Running : Bool
  deriving DecidableEq, Repr

/-- `type comboRun struct`. -/
structure comboRun where
  Def : ComboDef
  Index : Int
  WaitingOn : String
  Pending : Int
  deriving DecidableEq, Repr

/-- `type model struct`, reduced to the tables of the scheduler. `taskByName`
holds the tasks themselves (Go holds pointers to them), and `started` records
the task names for which `startTask` spawned `go runTask(...)`, oldest first. -/
structure model where
  taskByName : GoMap Task
  comboByName : GoMap ComboDef
  combosByTask : GoMap (List String)
  comboActive : GoMap comboRun
  started : List String
  deriving DecidableEq, Repr

/-- The loop of `newModel` that fills `combosByTask`: every combo is appended
to the list of each task of its `Run`, once per occurrence. -/
def indexCombos (combos : List ComboDef) : GoMap (List String) :=
  combos.foldl
    (fun acc cb =>
      cb.Run.foldl (fun acc taskID => acc.set taskID ((acc.get taskID).getD [] ++ [cb.Name])) acc)
    []

/-- `func newModel(cfg Config) model`: the scheduler's tables. -/
def newModel (cfg : Config) : model :=
  { taskByName := cfg.Tasks.foldl (fun acc d => acc.set d.Name ⟨d, false⟩) [],
    comboByName := cfg.Combos.foldl (fun acc cb => acc.set cb.Name cb) [],
    combosByTask := indexCombos cfg.Combos,
    comboActive := [],
    started := [] }

/-- `func (m *model) isTaskDisabled(taskName string) bool`. -/
def isTaskDisabled (m : model) (taskName : String) : Bool :=
  ((m.combosByTask.get taskName).getD []).any (fun comboName =>
    (m.comboActive.get comboName).isSome)

/-- `func (m *model) isComboDisabled(comboName string) bool`. -/
def isComboDisabled (m : model) (comboName : String) : Bool :=
  if (m.comboActive.get comboName).isSome then true
  else
    match m.comboByName.get comboName with
    | none => true
    | some cb =>
      cb.Run.any (fun taskName =>
        match m.taskByName.get taskName with
        | some task => task.Running
        | none => false)

/-- `func (m *model) startTask(taskName string, fromCombo bool) tea.Cmd`: the
new tables and, when the task is started, the source the returned command
listens to (`none` is the nil command). -/
def startTask (m : model) (taskName : String) (fromCombo : Bool) : model × Option String :=
  match m.taskByName.get taskName with
  | none => (m, none)
  | some task =>
    if task.Running then (m, none)
    else if !fromCombo && isTaskDisabled m taskName then (m, none)
    else
      ({ m with
          taskByName := m.taskByName.set taskName { task with Running := true },
          started := m.started ++ [taskName] },
        some taskName)

/-- `func (m *model) handleTaskFinished(msg TaskFinishedMsg)`: the task stops running. -/
def handleTaskFinished (m : model) (msg : TaskFinishedMsg) : model :=
  match m.taskByName.get msg.TaskID with
  | none => m
  | some task => { m with taskByName := m.taskByName.set msg.TaskID { task with Running := false } }

/-- `func (m *model) startNextComboTask(run *comboRun) tea.Cmd`: the new
tables, the run as the function leaves it, and the command. `none` is a
run-time panic: an index below zero, or the nil task of an unknown name. -/
def startNextComboTask (m : model) (run : comboRun) :
    Option (model × comboRun × Option String) :=
  if run.Index < run.Def.Run.length then
    if run.Index < 0 then none
    else
      match run.Def.Run.get? run.Index.toNat with
      | none => none
      | some taskName =>
        match m.taskByName.get taskName with
        | none => none
        | some task =>
          if task.Running then some (m, { run with WaitingOn := taskName }, none)
          else
            some ((startTask m taskName true).1, { run with WaitingOn := taskName },
              (startTask m taskName true).2)
  else some (m, { run with WaitingOn := "" }, none)

/-- `func (m *model) triggerCombo(comboName string) tea.Cmd`: the new tables and
the sources of the commands batched (nil commands are dropped by `tea.Batch`). -/
def triggerCombo (m : model) (comboName : String) : Option (model × List String) :=
  match m.comboByName.get comboName with
  | none => some (m, [])
  | some cb =>
    if isComboDisabled m comboName then some (m, [])
    else if cb.Mode = "parallel" then
      let run : comboRun := ⟨cb, 0, "", cb.Run.length⟩
      let m1 : model := { m with comboActive := m.comboActive.set cb.Name run }
      some (cb.Run.foldl
        (fun acc name => ((startTask acc.1 name true).1,
          acc.2 ++ ((startTask acc.1 name true).2).toList))
        (m1, []))
    else
      let run : comboRun := ⟨cb, 0, "", 0⟩
      let m1 : model := { m with comboActive := m.comboActive.set cb.Name run }
      match startNextComboTask m1 run with
      | none => none
      | some (m2, run2, cmd) =>
        some ({ m2 with comboActive := m2.comboActive.set cb.Name run2 }, cmd.toList)

/-- The body of the loop of `advanceCombos` for one combo name. -/
def advanceCombo (m : model) (msg : TaskFinishedMsg) (comboName : String)
    (cmds : List String) : Option (model × List String) :=
  match m.comboActive.get comboName with
  | none => some (m, cmds)
  | some run =>
    if run.Def.Mode = "parallel" then
      let run1 : comboRun := if run.Pending > 0 then { run with Pending := run.Pending - 1 } else run
      if run1.Pending ≤ 0 then
        some ({ m with comboActive := m.comboActive.delete comboName }, cmds)
      else some ({ m with comboActive := m.comboActive.set comboName run1 }, cmds)
    else if run.WaitingOn ≠ msg.TaskID then some (m, cmds)
    else if msg.Err.isSome ∧ stopOnFail run.Def = true then
      some ({ m with comboActive := m.comboActive.delete comboName }, cmds)
    else
      let run1 : comboRun := { run with Index := run.Index + 1 }
      if run1.Index ≥ run1.Def.Run.length then
        some ({ m with comboActive := m.comboActive.delete comboName }, cmds)
      else
        match startNextComboTask m run1 with
        | none => none
        | some (m2, run2, cmd) =>
          some ({ m2 with comboActive := m2.comboActive.set comboName run2 }, cmds ++ cmd.toList)

/-- The loop `for _, comboName := range comboNames` of `advanceCombos`. -/
def advanceLoop (msg : TaskFinishedMsg) : List String → model → List String →
    Option (model × List String)
  | [], m, cmds => some (m, cmds)
  | comboName :: rest, m, cmds =>
    match advanceCombo m msg comboName cmds with
    | none => none
    | some (m1, cmds1) => advanceLoop msg rest m1 cmds1

/-- `func (m *model) advanceCombos(msg TaskFinishedMsg, cmds *[]tea.Cmd)`. -/
def advanceCombos (m : model) (msg : TaskFinishedMsg) (cmds : List String) :
    Option (model × List String) :=
  if m.comboActive.length = 0 then some (m, cmds)
  else advanceLoop msg ((m.combosByTask.get msg.TaskID).getD []) m cmds

/-- The task `t` is in `taskByName` and its `Running` flag is set. -/
def taskRunning (m : model) (t : String) : Bool :=
  match m.taskByName.get t with
  | some task => task.Running
  | none => false

/-- What validated configurations guarantee of the runs in flight: no index is
negative and every name in a combo's `Run` is a task of `taskByName`. -/
def ComboWF (m : model) : Prop :=
  ∀ (name : String) (run : comboRun), m.comboActive.get name = some run →
    0 ≤ run.Index ∧ ∀ t ∈ run.Def.Run, (m.taskByName.get t).isSome = true

/-- A check of `ComboWF` that can be evaluated. -/
def comboWFb (m : model) : Bool :=
  m.comboActive.all (fun p =>
    decide (0 ≤ p.2.Index) && p.2.Def.Run.all (fun t => (m.taskByName.get t).isSome))

/-- A sample configuration: three tasks, the sequential combos `X` (`a` then
`b`) and `D` (`a` twice, then `b`) and the parallel combo `Y` (`b` and `c`). -/
def sampleConfig : Config :=
  ⟨"suite", 32, "/bin/sh", "", [],
    [⟨"a", "", false, [⟨"true", "", StepCommand⟩], [], []⟩,
      ⟨"b", "", false, [⟨"true", "", StepCommand⟩], [], []⟩,
      ⟨"c", "", false, [⟨"true", "", StepCommand⟩], [], []⟩],
    [⟨"X", "x", "sequential", ["a", "b"], none⟩, ⟨"Y", "y", "parallel", ["b", "c"], none⟩,
      ⟨"D", "d", "sequential", ["a", "a", "b"], none⟩]⟩

/-- The tables after the listed combos were triggered one after another on a
fresh model of the sample configuration. -/
def sampleAfter (combos : List String) : model :=
  combos.foldl (fun m name => ((triggerCombo m name).map Prod.fst).getD m)
    (newModel sampleConfig)

/-- The notification that task `a` finished without error. -/
def finishedA : TaskFinishedMsg := ⟨"a", 0, none, false⟩

/-- The notification that task `a` failed with exit status 1. -/
def failedA : TaskFinishedMsg := ⟨"a", 1, some (.ExitError 1), false⟩

/-! ## config.go: validation -/

/-- `func hasEmptyCommand(list CommandList) bool`. -/
def hasEmptyCommand : CommandList → Bool
  | [] => false
  | cmd :: rest => if TrimSpace cmd = "" then true else hasEmptyCommand rest

/-- `func hasEmptyStep(list StepList) bool`. -/
def hasEmptyStep : StepList → Bool
  | [] => false
  | step :: rest => if TrimSpace step.Value = "" then true else hasEmptyStep rest

/-- One of the three loops of `validateTaskStepRefs`, over the list `steps`:
the error of the first explicit task step whose value is not a task name. -/
def stepRefsLoop (t : TaskDef) (taskNames : List String) : StepList → Option Err
  | [] => none
  | step :: rest =>
    if step.Kind = StepTask ∧ step.Value ∉ taskNames then
      some (.Errorf "task %q references unknown task %q" [t.Name, step.Value])
    else stepRefsLoop t taskNames rest

/-- `func validateTaskStepRefs(t TaskDef, taskNames map[string]struct{}) error`;
the set `taskNames` is the list of its keys. -/
def validateTaskStepRefs (t : TaskDef) (taskNames : List String) : Option Err :=
  match stepRefsLoop t taskNames t.Cmd with
  | some err => some err
  | none =>
    match stepRefsLoop t taskNames t.Parallel with
    | some err => some err
    | none => stepRefsLoop t taskNames t.Seq

/-- The loop `for _, t := range c.Tasks` of `Config.validate`, from the sets
`taskNames` and `keyUsed` built so far: the error it returns, or the two sets
when it runs to its end. A value `fmt.Sprintf("task %q", name)` of `keyUsed`
is kept as the pair of its format and `name`. -/
def validateTasks : List TaskDef → List String → GoMap (String × String) →
    Except Err (List String × GoMap (String × String))
  | [], taskNames, keyUsed => .ok (taskNames, keyUsed)
  | t :: rest, taskNames, keyUsed =>
    if t.Key ≠ "" ∧ t.Key.length ≠ 1 then
      .error (.Errorf "task key %q must be a single character" [t.Key])
    else if t.Cmd.length = 0 ∧ t.Parallel.length = 0 ∧ t.Seq.length = 0 then
      .error (.Errorf "task %q is missing cmd" [t.Name])
    else if t.Cmd.length > 0 ∧ t.Parallel.length > 0 ∨ t.Cmd.length > 0 ∧ t.Seq.length > 0 ∨
        t.Parallel.length > 0 ∧ t.Seq.length > 0 then
      .error (.Errorf "task %q cannot define both cmd and parallel" [t.Name])
    else if hasEmptyStep t.Cmd = true ∨ hasEmptyStep t.Parallel = true ∨
        hasEmptyStep t.Seq = true then
      .error (.Errorf "task %q has empty commands" [t.Name])
    else if t.Name = "" then .error (.Errorf "task name is required" [])
    else if t.Name ∈ taskNames then .error (.Errorf "duplicate task name %q" [t.Name])
    else if t.Key ≠ "" then
      match keyUsed.get t.Key with
      | some prev => .error (.Errorf "key %q already assigned to %s" [t.Key, prev.1, prev.2])
      | none => validateTasks rest (t.Name :: taskNames) (keyUsed.set t.Key ("task %q", t.Name))
    else validateTasks rest (t.Name :: taskNames) keyUsed

/-- The loop `for _, name := range cb.Run` of `Config.validate`. -/
def comboRunLoop (cb : ComboDef) (taskNames : List String) : List String → Option Err
  | [] => none
  | name :: rest =>
    if name ∉ taskNames then
      some (.Errorf "combo %q references unknown task %q" [cb.Name, name])
    else comboRunLoop cb taskNames rest

/-- The loop `for _, cb := range c.Combos` of `Config.validate`, from the sets
`comboNames` and `keyUsed` built so far. -/
def validateCombos (taskNames : List String) : List ComboDef → List String →
    GoMap (String × String) → Option Err
  | [], _, _ => none
  | cb :: rest, comboNames, keyUsed =>
    if cb.Key = "" then some (.Errorf "combo %q is missing key" [cb.Name])
    else if cb.Key.length ≠ 1 then
      some (.Errorf "combo %q key must be a single character" [cb.Name])
    else if cb.Run.length = 0 then some (.Errorf "combo %q has no tasks" [cb.Name])
    else if cb.Mode ≠ "parallel" ∧ cb.Mode ≠ "sequential" then
      some (.Errorf "combo %q has invalid mode %q" [cb.Name, cb.Mode])
    else if cb.Name = "" then some (.Errorf "combo name is required" [])
    else if cb.Name ∈ comboNames then some (.Errorf "duplicate combo name %q" [cb.Name])
    else
      match keyUsed.get cb.Key with
      | some prev => some (.Errorf "key %q already assigned to %s" [cb.Key, prev.1, prev.2])
      | none =>
        match comboRunLoop cb taskNames cb.Run with
        | some err => some err
        | none =>
          validateCombos taskNames rest (cb.Name :: comboNames)
            (keyUsed.set cb.Key ("combo %q", cb.Name))

/-- The last loop of `Config.validate`: the first error of `validateTaskStepRefs`. -/
def validateRefs (taskNames : List String) : List TaskDef → Option Err
  | [] => none
  | t :: rest =>
    match validateTaskStepRefs t taskNames with
    | some err => some err
    | none => validateRefs taskNames rest

/-- `func (c Config) validate() error`. -/
def Config.validate (c : Config) : Option Err :=
  if c.Tasks.length = 0 then some (.Errorf "config must define at least one task" [])
  else if hasEmptyCommand c.Init = true then some (.Errorf "init commands must be non-empty" [])
  else if c.Theme ≠ "" ∧ c.Theme ≠ "auto" ∧ c.Theme ≠ "light" ∧ c.Theme ≠ "dark" then
    some (.Errorf "theme must be one of auto, light, or dark" [])
  else
    match validateTasks c.Tasks [] [] with
    | .error err => some err
    | .ok (taskNames, keyUsed) =>
      match validateCombos taskNames c.Combos [] keyUsed with
      | some err => some err
      | none => validateRefs taskNames c.Tasks

/-- The task has exactly one non-empty step specification among `cmd`,
`parallel` and `seq`. -/
def ExactlyOneSpec (t : TaskDef) : Prop :=
  (t.Cmd ≠ [] ∧ t.Parallel = [] ∧ t.Seq = []) ∨ (t.Cmd = [] ∧ t.Parallel ≠ [] ∧ t.Seq = []) ∨
    (t.Cmd = [] ∧ t.Parallel = [] ∧ t.Seq ≠ [])

/-! ## step_list.go: parsing a step -/

/-- `yaml.Node` of `gopkg.in/yaml.v3`, reduced to the fields the parser
reads: `Kind`, `Value` and `Content`. -/
inductive Node where
  | mk (Kind : Int) (Value : String) (Content : List Node)

/-- The field `Kind`. -/
def Node.Kind : Node → Int
  | .mk k _ _ => k

/-- The field `Value`. -/
def Node.Value : Node → String
  | .mk _ v _ => v

/-- The field `Content`. -/
def Node.Content : Node → List Node
  | .mk _ _ c => c

/-- `yaml.SequenceNode`, second constant of the block `DocumentNode Kind = 1 << iota`. -/
def SequenceNode : Int := 2

/-- `yaml.MappingNode`, third constant of that block. -/
def MappingNode : Int := 4

/-- `yaml.ScalarNode`, fourth constant of that block. -/
def ScalarNode : Int := 8

/-- The local variables of the mapping case of `parseStepNode`. -/
structure stepVars where
  name : String
  cmd : String
  task : String
  cmdSet : Bool
  taskSet : Bool
  deriving DecidableEq, Repr

/-- The loop `for i := 0; i < len(node.Content); i += 2` of `parseStepNode`
over the rest of `Content`: the variables at its end, or the error it returns.
`none` is the run-time panic of `node.Content[i+1]` on a list of odd length. -/
def mappingLoop : List Node → stepVars → Option (Except Err stepVars)
  | [], vars => some (.ok vars)
  | [_], _ => none
  | key :: val :: rest, vars =>
    if key.Kind ≠ ScalarNode then mappingLoop rest vars
    else
      let k := TrimSpace key.Value
      if k = "name" then
        if val.Kind ≠ ScalarNode then some (.error (.Errorf "step name must be a string" []))
        else mappingLoop rest { vars with name := TrimSpace val.Value }
      else if k = "cmd" then
        if val.Kind ≠ ScalarNode then some (.error (.Errorf "step cmd must be a string" []))
        else mappingLoop rest { vars with cmd := TrimSpace val.Value, cmdSet := true }
      else if k = "task" then
        if val.Kind ≠ ScalarNode then some (.error (.Errorf "step task must be a string" []))
        else mappingLoop rest { vars with task := TrimSpace val.Value, taskSet := true }
      else mappingLoop rest vars

/-- `func parseStepNode(node *yaml.Node) (Step, error)`; `none` is a run-time panic. -/
def parseStepNode (node : Node) : Option (Step × Option Err) :=
  if node.Kind = ScalarNode then some (⟨TrimSpace node.Value, "", StepAuto⟩, none)
  else if node.Kind = MappingNode then
    match mappingLoop node.Content ⟨"", "", "", false, false⟩ with
    | none => none
    | some (.error err) => some (⟨"", "", StepAuto⟩, some err)
    | some (.ok vars) =>
      if vars.cmdSet ∧ vars.taskSet then
        some (⟨"", "", StepAuto⟩, some (.Errorf "step cannot define both cmd and task" []))
      else if vars.cmdSet then some (⟨vars.cmd, vars.name, StepCommand⟩, none)
      else if vars.taskSet then some (⟨vars.task, vars.name, StepTask⟩, none)
      else
        some (⟨"", "", StepAuto⟩,
          some (.Errorf "step must be a string, \x7bcmd: ...\x7d, or \x7btask: ...\x7d" []))
  else some (⟨"", "", StepAuto⟩, some (.Errorf "step must be a string or map" []))

/-- The `Content` of a mapping node whose entries are `pairs`: each key followed by its value. -/
def pairsContent : List (Node × Node) → List Node
  | [] => []
  | p :: rest => p.1 :: p.2 :: pairsContent rest

/-- The entry sets the field `key`: its key is a scalar whose trimmed text is `key`. -/
def setsKey (key : String) (p : Node × Node) : Bool :=
  p.1.Kind == ScalarNode && TrimSpace p.1.Value == key

/-- The trimmed texts of the values that the entries give to the field `key`, in order. -/
def valuesOf (key : String) (pairs : List (Node × Node)) : List String :=
  (pairs.filter (setsKey key)).map (fun p => TrimSpace p.2.Value)

/-- The values of `name`, `cmd` and `task` entries are scalars. -/
def ScalarValues (pairs : List (Node × Node)) : Prop :=
  ∀ p ∈ pairs, (setsKey "name" p = true ∨ setsKey "cmd" p = true ∨ setsKey "task" p = true) →
    p.2.Kind = ScalarNode

/-- A scalar node with the text `value`. -/
def scalar (value : String) : Node := .mk ScalarNode value []

/-! ## steps.go: from a step identifier back to its task -/

/-- The characters before and after the first occurrence of `sep`, `none` when
`sep` does not occur: the cut that Go `strings.Index` finds. -/
def cutAt (sep : List Char) : List Char → Option (List Char × List Char)
  | [] => if sep = [] then some ([], []) else none
  | c :: rest =>
    if sep.isPrefixOf (c :: rest) then some ([], (c :: rest).drop sep.length)
    else (cutAt sep rest).map (fun p => (c :: p.1, p.2))

/-- Go `strings.SplitN(s, sep, n)` on characters, for a separator that is not
empty and `n ≥ 0`: at most `n` parts, the last one being the rest unsplit. -/
def splitN (sep : List Char) : Nat → List Char → List (List Char)
  | 0, _ => []
  | 1, s => [s]
  | n + 2, s =>
    match cutAt sep s with
    | none => [s]
    | some (a, b) => a :: splitN sep (n + 1) b

/-- Go `strings.SplitN` for a separator that is not empty. -/
def SplitN (s sep : String) (n : Nat) : List String :=
  (splitN sep.data n s.data).map String.mk

/-- `func stepTaskFromID(target string) (string, bool)`. -/
def stepTaskFromID (target : String) : String × Bool :=
  let parts := SplitN target "::" 3
  if parts.length ≠ 3 then ("", false)
  else
    match parts with
    | [] => ("", false)
    | part0 :: _ => if part0 = "" then ("", false) else (part0, true)

/-! ## process_unix.go: the descendants of a process -/

/-- A Go `map[int]T`: a list of key-value pairs with distinct keys. -/
abbrev PidMap (α : Type) := List (Int × α)

/-- The lookup `m[key]`, `none` when the key is absent. -/
def PidMap.get {α : Type} : PidMap α → Int → Option α
  | [], _ => none
  | (k, v) :: rest, key => if k = key then some v else PidMap.get rest key

/-- The assignment `m[key] = v`. -/
def PidMap.set {α : Type} (m : PidMap α) (key : Int) (v : α) : PidMap α :=
  (key, v) :: m.filter (fun p => p.1 ≠ key)

/-- The map `children` of `descendantPIDs`, built from the rows `(pid, ppid)`
of the process table in the order of its lines:
`children[ppid] = append(children[ppid], pid)`. -/
def childrenOf (rows : List (Int × Int)) : PidMap (List Int) :=
  rows.foldl
    (fun children row => children.set row.2 ((children.get row.2).getD [] ++ [row.1])) []

/-- The variables of the walk of `descendantPIDs`: `descendants`, `stack`
(its top is the last element) and the keys of `seen`. -/
structure walkVars where
  descendants : List Int
  stack : List Int
  seen : List Int
  deriving DecidableEq, Repr

/-- The loop `for _, child := range children[pid]` of `descendantPIDs`. -/
def visitChildren : List Int → walkVars → walkVars
  | [], v => v
  | child :: rest, v =>
    if child ∈ v.seen then visitChildren rest v
    else visitChildren rest ⟨v.descendants ++ [child], v.stack ++ [child], child :: v.seen⟩

/-- The loop `for len(stack) > 0` of `descendantPIDs`. The first argument
bounds the number of its turns: `none` is returned when the stack is not
empty after that many turns. -/
def walk (children : PidMap (List Int)) : Nat → walkVars → Option (List Int)
  | 0, v => if v.stack.length > 0 then none else some v.descendants
  | fuel + 1, v =>
    if v.stack.length > 0 then
      match v.stack.getLast? with
      | none => none
      | some pid =>
        walk children fuel
          (visitChildren ((children.get pid).getD []) { v with stack := v.stack.dropLast })
    else some v.descendants

/-- `func descendantPIDs(root int) ([]int, error)` from the point where the
output of `ps` has been read: `rows` are the `(pid, ppid)` pairs of its lines
that parse, in order, and `fuel` bounds the turns of the walk. -/
def descendantPIDs (fuel : Nat) (rows : List (Int × Int)) (root : Int) : Option (List Int) :=
  walk (childrenOf rows) fuel ⟨[], [root], [root]⟩

/-- The process `b` is a child of the process `a` in the table. -/
def IsChild (rows : List (Int × Int)) (a b : Int) : Prop := (b, a) ∈ rows

/-- What holds of the variables of the walk while the children `pending` of
the process `pid`, taken off the stack, are still to be visited. -/
def WalkInv (rows : List (Int × Int)) (root pid : Int) (pending : List Int) (v : walkVars) :
    Prop :=
  (∀ x, x ∈ v.seen ↔ x = root ∨ x ∈ v.descendants) ∧
  v.descendants.Nodup ∧ root ∉ v.descendants ∧
  (∀ x ∈ v.stack, x ∈ v.seen) ∧
  (∀ x ∈ v.descendants, Relation.TransGen (IsChild rows) root x) ∧
  (∀ x ∈ v.seen, x ∉ v.stack → ∀ c, IsChild rows x c → c ∈ v.seen ∨ (x = pid ∧ c ∈ pending))

/-- What bounds the turns still to come: the length of the stack plus the
number of rows whose process has not been seen. -/
def walkMeasure (rows : List (Int × Int)) (v : walkVars) : Nat :=
  v.stack.length + (rows.filter (fun r => decide (r.1 ∉ v.seen))).length

/-- The loop `for _, name := range cb.Run` of the parallel case of
`triggerCombo`: the tables and the commands collected, nil commands dropped. -/
def startAll (run : List String) (m : model) (cmds : List String) : model × List String :=
  run.foldl
    (fun acc name => ((startTask acc.1 name true).1,
      acc.2 ++ ((startTask acc.1 name true).2).toList))
    (m, cmds)

/-- A configuration with two tasks whose parallel combo `P` names task `b` twice. -/
def dupConfig : Config :=
  ⟨"suite", 32, "/bin/sh", "", [],
    [⟨"a", "", false, [⟨"true", "", StepCommand⟩], [], []⟩,
      ⟨"b", "", false, [⟨"true", "", StepCommand⟩], [], []⟩],
    [⟨"P", "p", "parallel", ["b", "b"], none⟩]⟩

/-- The notification that task `b` finished without error. -/
def finishedB : TaskFinishedMsg := ⟨"b", 0, none, false⟩

/-- What the controller does with the scheduler's tables on one finished
notification (`case TaskFinishedMsg` of `Update`): `handleTaskFinished`, then
`advanceCombos`; the commands are dropped. -/
def deliver (m : model) (msg : TaskFinishedMsg) : Option model :=
  (advanceCombos (handleTaskFinished m msg) msg []).map Prod.fst

/-- A sequence of finished notifications delivered to `advanceCombos` one
after another, the commands dropped. -/
def advanceMany : List TaskFinishedMsg → model → Option model
  | [], m => some m
  | msg :: rest, m =>
    match advanceCombos m msg [] with
    | none => none
    | some (m1, _) => advanceMany rest m1

/-- The combo `name` is listed under the task of the notification. -/
def concerns (m : model) (name : String) (msg : TaskFinishedMsg) : Bool :=
  decide (name ∈ (m.combosByTask.get msg.TaskID).getD [])

/-- Every combo of `comboByName` has a run that is not empty and names only
tasks of `taskByName`. -/
def CombosValid (m : model) : Prop :=
  ∀ (name : String) (cb : ComboDef), m.comboByName.get name = some cb →
    cb.Run ≠ [] ∧ ∀ t ∈ cb.Run, (m.taskByName.get t).isSome = true

/-- A check of `CombosValid` that can be evaluated. -/
def combosValidb (m : model) : Bool :=
  m.comboByName.all (fun p =>
    !p.2.Run.isEmpty && p.2.Run.all (fun t => (m.taskByName.get t).isSome))

/-- The invariant of the runs in flight: the tables are well-formed, and every
sequential run has its index inside `Run` and awaits the task at that index. -/
def ComboInv (m : model) : Prop :=
  ComboWF m ∧
  ∀ (name : String) (run : comboRun), m.comboActive.get name = some run →
    run.Def.Mode ≠ "parallel" →
    run.Index < run.Def.Run.length ∧ run.Def.Run.get? run.Index.toNat = some run.WaitingOn

/-! ## Brackets of events -/

/-- Sequences of events in which every `TaskStarted` and every `StepStarted`
is closed, later and at the same level of nesting, by the `TaskFinished` of
the same task or the `StepFinished` of the same step, and nothing else closes:
launches and output lines, brackets around such a sequence, and such sequences
one after another. -/
inductive Balanced : List Event → Prop where
  | nil : Balanced []
  | launch (l : Launch) : Balanced [Event.launch l]
  | output (target line : String) : Balanced [Event.msg (.TaskOutputMsg target line)]
  | task (name : String) (exitCode : Int) (err : Option Err) (canceled : Bool)
      (inner : List Event) (h : Balanced inner) :
      Balanced (Event.msg (.TaskStartedMsg name) :: inner ++
        [Event.msg (.TaskFinishedMsg name exitCode err canceled)])
  | step (id : String) (exitCode : Int) (err : Option Err) (canceled : Bool)
      (inner : List Event) (h : Balanced inner) :
      Balanced (Event.msg (.StepStartedMsg id) :: inner ++
        [Event.msg (.StepFinishedMsg id exitCode err canceled)])
  | append (a b : List Event) (ha : Balanced a) (hb : Balanced b) : Balanced (a ++ b)

/-- From state `w` to state `w'` the trace grew by a balanced sequence. -/
def AddsBalanced {σ : Type} (w w' : World σ) : Prop :=
  ∃ t, w'.trace = w.trace ++ t ∧ Balanced t

/-- Every invocation made through `invoke` that returns adds a balanced sequence. -/
def InvokeBalanced {σ : Type} (invoke : Invoke σ) : Prop :=
  ∀ (w : World σ) (name : String) (child : TaskDef) (next : List String) (w' : World σ)
    (exitCode : Int) (err : Option Err),
    invoke w name child next = some (w', exitCode, err) → AddsBalanced w w'

/-- The bracket an event opens: `(true, name)` for `TaskStarted{name}`,
`(false, id)` for `StepStarted{id}`. -/
def Event.opens : Event → Option (Bool × String)
  | .msg (.TaskStartedMsg name) => some (true, name)
  | .msg (.StepStartedMsg id) => some (false, id)
  | _ => none

/-- The bracket an event closes: `(true, name)` for `TaskFinished{name}`,
`(false, id)` for `StepFinished{id}`. -/
def Event.closes : Event → Option (Bool × String)
  | .msg (.TaskFinishedMsg name _ _ _) => some (true, name)
  | .msg (.StepFinishedMsg id _ _ _) => some (false, id)
  | _ => none

/-- The number of events of the sequence that open the bracket `k`. -/
def openCount (k : Bool × String) (t : List Event) : Nat :=
  t.countP (fun e => decide (e.opens = some k))

/-- The number of events of the sequence that close the bracket `k`. -/
def closeCount (k : Bool × String) (t : List Event) : Nat :=
  t.countP (fun e => decide (e.closes = some k))

/-! ## The stack of a frame -/

/-- The launcher never reports a cycle error: that error value is made by
`fmt.Errorf` in the engine only, never by `os/exec`. -/
def HonestEnv {σ : Type} (E : Env σ) : Prop :=
  ∀ (s : σ) (l : Launch) (n : String),
    (E.exec s l).2 ≠ .notStarted (cycleError n) ∧
      ∀ lines : List String, (E.exec s l).2 ≠ .waited lines (some (cycleError n))

/-- The frame `(name', tdef', stack')` is the frame `(taskName, tdef, stack)`
itself (`here`) or is reached from it by nested invocations (`down`): a step
of the frame references a known task `child` that is not on the frame's stack,
the invocation of `child` gets the stack `child :: stack`, and so on from there. -/
inductive InvokePath (resolve : String → TaskDef × Bool) :
    String → TaskDef → List String → String → TaskDef → List String → Prop where
  | here (taskName : String) (tdef : TaskDef) (stack : List String) :
      InvokePath resolve taskName tdef stack taskName tdef stack
  | down (taskName : String) (tdef : TaskDef) (stack : List String) (step : Step)
      (child name' : String) (tdef' : TaskDef) (stack' : List String)
      (hstep : step ∈ (taskSteps taskName tdef (some resolve)).2.1)
      (href : IsTaskRef resolve step child) (hoff : child ∉ stack)
      (hrest : InvokePath resolve child (resolve child).1 (child :: stack) name' tdef' stack') :
      InvokePath resolve taskName tdef stack name' tdef' stack'

/-- What `runStep` returns once the invocation of a task-reference step has
returned `r`: it sends `StepFinished` with the outcome and returns it. -/
def finishStep {σ : Type} (E : Env σ) (id : String) (r : Ret σ) : Ret σ :=
  ((r.1.canceled E).1.send (.StepFinishedMsg id r.2.1 r.2.2 (r.1.canceled E).2), r.2.1, r.2.2)

/-! ## Step resolver: `resolveStepKind` and `taskSteps` -/

/-- The value returned by `resolveStepKind` is always the trimmed step value. -/
theorem resolveStepKind_snd (step : Step) (resolve : TaskResolver) :
    (resolveStepKind step resolve).2 = TrimSpace step.Value := by
  cases resolve with
  | none => simp only [resolveStepKind]; split_ifs <;> rfl
  | some r => simp only [resolveStepKind]; split_ifs <;> rfl

/-- The kind returned by `resolveStepKind` is `StepTask` exactly for an explicit
task step and for an auto step whose trimmed value the registry knows. -/
theorem resolveStepKind_task_iff (step : Step) (resolve : TaskResolver) :
    (resolveStepKind step resolve).1 = StepTask ↔
      (step.Kind = StepTask ∨
        (step.Kind = StepAuto ∧ ∃ r, resolve = some r ∧ (r (TrimSpace step.Value)).2 = true)) := by
  unfold resolveStepKind
  by_cases h1 : step.Kind = StepCommand
  · simp [h1, StepCommand, StepTask, StepAuto]
  · by_cases h2 : step.Kind = StepTask
    · simp [h2, StepCommand, StepTask]
    · by_cases h3 : step.Kind = StepAuto
      · cases resolve with
        | none => simp [h3, StepCommand, StepTask, StepAuto]
        | some r =>
          by_cases h4 : (r (TrimSpace step.Value)).2 = true
          · simp [h3, h4, StepCommand, StepTask, StepAuto]
          · simp [h3, h4, StepCommand, StepTask, StepAuto]
      · simp [h1, h2, h3]
        simp [StepCommand, StepTask]

/-- The kind returned by `resolveStepKind` is `StepCommand` or `StepTask`. -/
theorem resolveStepKind_fst_cases (step : Step) (resolve : TaskResolver) :
    (resolveStepKind step resolve).1 = StepCommand ∨
      (resolveStepKind step resolve).1 = StepTask := by
  cases resolve with
  | none => simp only [resolveStepKind]; split_ifs <;> simp
  | some r => simp only [resolveStepKind]; split_ifs <;> simp

/-- A nil resolver and the resolver that knows no task classify alike. -/
theorem resolveStepKind_orNoTasks (step : Step) (resolve : TaskResolver) :
    resolveStepKind step (some (orNoTasks resolve)) = resolveStepKind step resolve := by
  cases resolve with
  | some r => rfl
  | none => simp only [resolveStepKind, orNoTasks]; split_ifs <;> first | rfl | contradiction

/-- A single `Cmd` entry that does not classify as `Task` is run directly, not
as a step list. -/
theorem taskSteps_of_command (taskName : String) (tdef : TaskDef) (resolve : TaskResolver)
    (step : Step) (hp : tdef.Parallel = []) (hs : tdef.Seq = []) (hc : tdef.Cmd = [step])
    (hk : (resolveStepKind step resolve).1 ≠ StepTask) :
    taskSteps taskName tdef resolve = (StepModeNone, [step], false) := by
  simp [taskSteps, hp, hs, hc, hk]

/-- C7: `resolveStepKind` returns kind `Command` or `Task` unchanged whatever
the registry is, for kind `Auto` it returns `Task` if and only if the registry
finds the trimmed value and `Command` otherwise (a nil registry finds
nothing), and the value it returns is always the trimmed step value. -/
theorem resolveStepKind_spec (step : Step) (resolve : TaskResolver) :
    (step.Kind = StepCommand →
      ∀ other : TaskResolver,
        resolveStepKind step other = (StepCommand, TrimSpace step.Value)) ∧
    (step.Kind = StepTask →
      ∀ other : TaskResolver,
        resolveStepKind step other = (StepTask, TrimSpace step.Value)) ∧
    (step.Kind = StepAuto →
      ((resolveStepKind step resolve).1 = StepTask ↔
          ∃ r, resolve = some r ∧ (r (TrimSpace step.Value)).2 = true) ∧
      ((resolveStepKind step resolve).1 ≠ StepTask →
          (resolveStepKind step resolve).1 = StepCommand)) ∧
    (resolveStepKind step resolve).2 = TrimSpace step.Value := by
  refine ⟨?_, ?_, ?_, resolveStepKind_snd step resolve⟩
  · intro h other
    simp [resolveStepKind, h]
  · intro h other
    simp [resolveStepKind, h, StepTask, StepCommand]
  · intro h
    refine ⟨?_, ?_⟩
    · rw [resolveStepKind_task_iff]
      simp [h, StepAuto, StepTask]
    · intro hne
      rcases resolveStepKind_fst_cases step resolve with hc | ht
      · exact hc
      · exact absurd ht hne

/-- Witness of `resolveStepKind_spec`: an auto step `" build "` under a
registry that knows `build` resolves to `(StepTask, "build")`. -/
theorem resolveStepKind_spec_witness :
    (resolveStepKind ⟨" build ", "", StepAuto⟩
        (some (fun n => (⟨n, "", false, [], [], []⟩, n == "build")))).1 = StepTask ↔
      ∃ r, some (fun n => ((⟨n, "", false, [], [], []⟩ : TaskDef), n == "build")) = some r ∧
        (r (TrimSpace " build ")).2 = true :=
  ((resolveStepKind_spec ⟨" build ", "", StepAuto⟩
      (some (fun n => (⟨n, "", false, [], [], []⟩, n == "build")))).2.2.1 rfl).1

/-- C5: `taskSteps` follows the precedence parallel, then seq, then cmd: a
non-empty `Parallel` wins whatever `Seq` and `Cmd` hold, then a non-empty
`Seq` whatever `Cmd` holds, then an empty `Cmd` gives `(None, [], false)` and
a `Cmd` of more than one entry gives `(Sequential, Cmd, true)`. -/
theorem taskSteps_precedence (taskName : String) (tdef : TaskDef) (resolve : TaskResolver) :
    (tdef.Parallel ≠ [] →
      taskSteps taskName tdef resolve = (StepModeParallel, tdef.Parallel, true)) ∧
    (tdef.Parallel = [] → tdef.Seq ≠ [] →
      taskSteps taskName tdef resolve = (StepModeSeq, tdef.Seq, true)) ∧
    (tdef.Parallel = [] → tdef.Seq = [] → tdef.Cmd = [] →
      taskSteps taskName tdef resolve = (StepModeNone, [], false)) ∧
    (tdef.Parallel = [] → tdef.Seq = [] → 1 < tdef.Cmd.length →
      taskSteps taskName tdef resolve = (StepModeSeq, tdef.Cmd, true)) := by
  refine ⟨?_, ?_, ?_, ?_⟩
  · intro hp
    have : 0 < tdef.Parallel.length := List.length_pos.mpr hp
    simp [taskSteps, this]
  · intro hp hs
    have : 0 < tdef.Seq.length := List.length_pos.mpr hs
    simp [taskSteps, hp, this]
  · intro hp hs hc
    simp [taskSteps, hp, hs, hc]
  · intro hp hs hc
    have h0 : tdef.Cmd.length ≠ 0 := by omega
    simp [taskSteps, hp, hs, hc, h0]

/-- Witness of `taskSteps_precedence`: a task with all three lists filled runs
its `Parallel` list. -/
theorem taskSteps_precedence_witness :
    taskSteps "t" ⟨"t", "", false, [⟨"a", "", StepAuto⟩], [⟨"b", "", StepAuto⟩],
        [⟨"c", "", StepAuto⟩]⟩ none =
      (StepModeParallel, [⟨"b", "", StepAuto⟩], true) :=
  (taskSteps_precedence "t" ⟨"t", "", false, [⟨"a", "", StepAuto⟩], [⟨"b", "", StepAuto⟩],
    [⟨"c", "", StepAuto⟩]⟩ none).1 (by decide)

/-- C6: for a task whose `Parallel` and `Seq` are empty and whose `Cmd` has
exactly one entry, `taskSteps` returns `(Sequential, Cmd, true)` if and only if
the entry classifies as `Task` (explicit `Task` kind, or `Auto` whose trimmed
value the registry knows), and `(None, Cmd, false)` otherwise. -/
theorem taskSteps_single (taskName : String) (tdef : TaskDef) (resolve : TaskResolver)
    (step : Step) (hp : tdef.Parallel = []) (hs : tdef.Seq = []) (hc : tdef.Cmd = [step]) :
    (taskSteps taskName tdef resolve = (StepModeSeq, tdef.Cmd, true) ↔
      (resolveStepKind step resolve).1 = StepTask) ∧
    ((resolveStepKind step resolve).1 = StepTask ↔
      (step.Kind = StepTask ∨
        (step.Kind = StepAuto ∧ ∃ r, resolve = some r ∧ (r (TrimSpace step.Value)).2 = true))) ∧
    ((resolveStepKind step resolve).1 ≠ StepTask →
      taskSteps taskName tdef resolve = (StepModeNone, tdef.Cmd, false)) := by
  refine ⟨?_, resolveStepKind_task_iff step resolve, ?_⟩
  · by_cases hk : (resolveStepKind step resolve).1 = StepTask
    · simp [taskSteps, hp, hs, hc, hk]
    · simp [taskSteps, hp, hs, hc, hk, StepModeNone, StepModeSeq]
  · intro hk
    simp [taskSteps, hp, hs, hc, hk]

/-- Witness of `taskSteps_single`: the single auto entry `child` of a task is a
sequential list of one step when the registry knows `child`. -/
theorem taskSteps_single_witness :
    taskSteps "parent" ⟨"parent", "", false, [⟨"child", "", StepAuto⟩], [], []⟩
        (some (fun n => (⟨n, "", false, [], [], []⟩, n == "child"))) =
      (StepModeSeq, [⟨"child", "", StepAuto⟩], true) :=
  ((taskSteps_single "parent" ⟨"parent", "", false, [⟨"child", "", StepAuto⟩], [], []⟩
    (some (fun n => (⟨n, "", false, [], [], []⟩, n == "child"))) ⟨"child", "", StepAuto⟩
    rfl rfl rfl).1).2 (by decide)

/-! ## Task execution engine -/

/-- Sending a message appends it to the contents of the channel. -/
theorem msgCh_send {σ : Type} (w : World σ) (m : Msg) : (w.send m).msgCh = w.msgCh ++ [m] := by
  simp [World.msgCh, World.send]

/-- `runSingle` reports exit code 0 whenever it reports no error. -/
theorem runSingle_code_of_no_err {σ : Type} (E : Env σ) (w : World σ) (command shell : String)
    (init : CommandList) (target : String)
    (h : (runSingle E w command shell init target).2.2 = none) :
    (runSingle E w command shell init target).2.1 = 0 := by
  unfold runSingle at h ⊢
  cases hr : (E.exec w.env
      ⟨if shell = "" then "/bin/sh" else shell, buildShellCommand init command, target⟩).2 with
  | notStarted err => simp [hr] at h
  | waited lines err =>
    simp only [hr] at h ⊢
    subst h
    rfl

/-- What `runSingle` does to the trace: it records one launch and then the
output lines it forwards, attributed to its target. -/
theorem runSingle_trace {σ : Type} (E : Env σ) (w : World σ) (command shell : String)
    (init : CommandList) (target : String) :
    ∃ lines : List String,
      (runSingle E w command shell init target).1.trace =
        w.trace ++
          Event.launch ⟨if shell = "" then "/bin/sh" else shell,
            buildShellCommand init command, target⟩ ::
          lines.map (fun line => Event.msg (.TaskOutputMsg target line)) := by
  unfold runSingle
  cases hr : (E.exec w.env
      ⟨if shell = "" then "/bin/sh" else shell, buildShellCommand init command, target⟩).2 with
  | notStarted err => exact ⟨[], by simp [hr]⟩
  | waited lines err => exact ⟨lines, by simp [hr]⟩

/-- C1: a task whose `Parallel` and `Seq` are empty and whose `Cmd` is one entry
that classifies as a command does, whatever the launcher reports, exactly this:
it sends `TaskStarted`, launches the command once with the task as target,
sends the command's output lines attributed to the task, and sends
`TaskFinished` carrying the exit code and error that `runSingle` returned. No
step message is sent, and the invocation returns that same exit code and error. -/
theorem runTaskInternal_single_command {σ : Type} (E : Env σ) (depth : Nat) (w : World σ)
    (taskName : String) (tdef : TaskDef) (shell : String) (init : CommandList)
    (resolve : TaskResolver) (stack : List String) (step : Step)
    (hp : tdef.Parallel = []) (hs : tdef.Seq = []) (hc : tdef.Cmd = [step])
    (hk : (resolveStepKind step resolve).1 = StepCommand) :
    ∃ (w' : World σ) (lines : List String) (canceled : Bool),
      runTaskInternal E (depth + 1) w taskName tdef shell init resolve stack =
        some (w', (runSingle E (w.send (.TaskStartedMsg taskName)) step.Value shell init
          taskName).2) ∧
      w'.trace = w.trace ++
        [Event.msg (.TaskStartedMsg taskName),
          Event.launch ⟨if shell = "" then "/bin/sh" else shell,
            buildShellCommand init step.Value, taskName⟩] ++
        lines.map (fun line => Event.msg (.TaskOutputMsg taskName line)) ++
        [Event.msg (.TaskFinishedMsg taskName
          (runSingle E (w.send (.TaskStartedMsg taskName)) step.Value shell init taskName).2.1
          (runSingle E (w.send (.TaskStartedMsg taskName)) step.Value shell init taskName).2.2
          canceled)] := by
  have hk' : (resolveStepKind step (some (orNoTasks resolve))).1 ≠ StepTask := by
    rw [resolveStepKind_orNoTasks, hk]; decide
  have hts := taskSteps_of_command taskName tdef (some (orNoTasks resolve)) step hp hs hc hk'
  obtain ⟨lines, hm⟩ :=
    runSingle_trace E (w.send (.TaskStartedMsg taskName)) step.Value shell init taskName
  have h0 := runSingle_code_of_no_err E (w.send (.TaskStartedMsg taskName)) step.Value shell init
    taskName
  generalize hrs : runSingle E (w.send (.TaskStartedMsg taskName)) step.Value shell init
    taskName = rs at hm h0
  obtain ⟨w1, code, err⟩ := rs
  refine ⟨((w1.canceled E).1.send (.TaskFinishedMsg taskName code err (w1.canceled E).2)),
    lines, (w1.canceled E).2, ?_, ?_⟩
  · simp only [runTaskInternal, runTaskSteps, hts, hk']
    simp only [hrs]
    cases err with
    | none =>
      simp at h0
      subst h0
      simp
    | some e => simp
  · simp at hm
    simp [World.send, World.canceled, hm]

/-- Witness of `runTaskInternal_single_command`: a task of one command,
`exit 3`, in the sample world. -/
theorem runTaskInternal_single_command_witness :
    ∃ (w' : World Nat) (lines : List String) (canceled : Bool),
      runTaskInternal sampleEnv (0 + 1) (World.init 0) "task"
          ⟨"task", "", false, [⟨"exit 3", "", StepCommand⟩], [], []⟩ "/bin/sh" [] none ["task"] =
        some (w', (runSingle sampleEnv ((World.init 0).send (.TaskStartedMsg "task"))
          (Step.mk "exit 3" "" StepCommand).Value "/bin/sh" [] "task").2) ∧
      w'.trace = (World.init 0).trace ++
        [Event.msg (.TaskStartedMsg "task"),
          Event.launch ⟨if "/bin/sh" = "" then "/bin/sh" else "/bin/sh",
            buildShellCommand [] (Step.mk "exit 3" "" StepCommand).Value, "task"⟩] ++
        lines.map (fun line => Event.msg (.TaskOutputMsg "task" line)) ++
        [Event.msg (.TaskFinishedMsg "task"
          (runSingle sampleEnv ((World.init 0).send (.TaskStartedMsg "task"))
            (Step.mk "exit 3" "" StepCommand).Value "/bin/sh" [] "task").2.1
          (runSingle sampleEnv ((World.init 0).send (.TaskStartedMsg "task"))
            (Step.mk "exit 3" "" StepCommand).Value "/bin/sh" [] "task").2.2
          canceled)] :=
  runTaskInternal_single_command sampleEnv 0 (World.init 0) "task"
    ⟨"task", "", false, [⟨"exit 3", "", StepCommand⟩], [], []⟩ "/bin/sh" [] none ["task"]
    ⟨"exit 3", "", StepCommand⟩ rfl rfl rfl (by decide)

/-! ### Sequential execution -/

/-- After a clean prefix the loop of `runSequential` goes on with the rest of
the list, from the state the prefix left. -/
theorem seqLoop_append_of_clean {σ : Type} (E : Env σ) (invoke : Invoke σ) (taskName : String)
    (mode : StepMode) (shell : String) (init : CommandList) (resolve : String → TaskDef × Bool)
    (stack : List String) (idx : Nat) (pre rest : StepList) (w w1 : World σ)
    (h : RunsClean E invoke taskName mode shell init resolve stack idx pre w w1) :
    seqLoop E invoke taskName mode shell init resolve stack idx (pre ++ rest) w =
      seqLoop E invoke taskName mode shell init resolve stack (idx + pre.length) rest w1 := by
  induction h with
  | nil idx w => simp
  | cons idx step tl w wa wb exitCode hstep _ ih =>
    have hlen : idx + 1 + tl.length = idx + (tl.length + 1) := by omega
    rw [List.cons_append, seqLoop, hstep]
    simp only [Option.isSome_none, Bool.false_eq_true, if_false, List.length_cons]
    rw [ih, hlen]

/-- C2: when the steps before step `k` all return a nil error and step `k`
returns an error, `runSequential` returns exactly step `k`'s exit code and
error in exactly the state step `k` left: whatever steps follow, none of them
is run, so none sends a `StepStarted` or reaches the launcher. -/
theorem runSequential_stops_at_first_error {σ : Type} (E : Env σ) (invoke : Invoke σ)
    (w w1 w2 : World σ) (taskName : String) (pre : StepList) (step : Step) (post : StepList)
    (mode : StepMode) (shell : String) (init : CommandList) (resolve : String → TaskDef × Bool)
    (stack : List String) (exitCode : Int) (e : Err)
    (hpre : RunsClean E invoke taskName mode shell init resolve stack 0 pre w w1)
    (hstep : runStep E invoke w1 taskName step mode pre.length shell init resolve stack =
      some (w2, exitCode, some e)) :
    runSequential E invoke w taskName (pre ++ step :: post) mode shell init resolve stack =
      some (w2, exitCode, some e) := by
  unfold runSequential
  rw [if_neg (by simp)]
  rw [seqLoop_append_of_clean E invoke taskName mode shell init resolve stack 0 pre
    (step :: post) w w1 hpre]
  simp only [Nat.zero_add, seqLoop, hstep, Option.isSome_some, if_true]

/-- Witness of `runSequential_stops_at_first_error`: the list of
`TestRunTaskSequentialStopsOnFail` in the sample world stops after `exit 3`. -/
theorem runSequential_stops_at_first_error_witness :
    runSequential sampleEnv (fun _ _ _ _ => none) (World.init 0) "task"
        ([⟨"printf one", "", StepCommand⟩] ++ ⟨"exit 3", "", StepCommand⟩ ::
          [⟨"printf two", "", StepCommand⟩])
        StepModeSeq "/bin/sh" [] sampleRegistry ["task"] =
      some (⟨2,
          [.msg (.StepStartedMsg "task::seq::0"),
            .launch ⟨"/bin/sh", "printf one", "task::seq::0"⟩,
            .msg (.TaskOutputMsg "task::seq::0" "printf one"),
            .msg (.StepFinishedMsg "task::seq::0" 0 none false),
            .msg (.StepStartedMsg "task::seq::1"),
            .launch ⟨"/bin/sh", "exit 3", "task::seq::1"⟩,
            .msg (.StepFinishedMsg "task::seq::1" 3 (some (.ExitError 3)) false)]⟩,
        3, some (.ExitError 3)) :=
  runSequential_stops_at_first_error sampleEnv (fun _ _ _ _ => none) (World.init 0)
    ⟨1, [.msg (.StepStartedMsg "task::seq::0"),
      .launch ⟨"/bin/sh", "printf one", "task::seq::0"⟩,
      .msg (.TaskOutputMsg "task::seq::0" "printf one"),
      .msg (.StepFinishedMsg "task::seq::0" 0 none false)]⟩
    _ "task" [⟨"printf one", "", StepCommand⟩] ⟨"exit 3", "", StepCommand⟩
    [⟨"printf two", "", StepCommand⟩] StepModeSeq "/bin/sh" [] sampleRegistry ["task"] 3
    (.ExitError 3)
    (RunsClean.cons 0 _ _ _ _ _ 0 rfl (RunsClean.nil 1 _)) rfl

/-! ### Cycle detection -/

/-- A reference to a known task that is on the stack fails with the cycle
error before anything is sent or invoked. -/
theorem runStep_of_on_stack {σ : Type} (E : Env σ) (invoke : Invoke σ) (w : World σ)
    (taskName : String) (step : Step) (mode : StepMode) (index : Int) (shell : String)
    (init : CommandList) (resolve : String → TaskDef × Bool) (stack : List String)
    (name : String) (href : IsTaskRef resolve step name) (hon : name ∈ stack) :
    runStep E invoke w taskName step mode index shell init resolve stack =
      some (w, -1, some (cycleError name)) := by
  obtain ⟨hk, hv, hne, hknown⟩ := href
  have hsnd := resolveStepKind_snd step (some resolve)
  simp only [runStep, hk, hsnd, hv, hne, hknown, hon, cycleError]
  simp

/-- A reference to a known task that is not on the stack sends `StepStarted`,
invokes the task with its name added to the stack, sends `StepFinished` with
the outcome of that invocation and returns it. -/
theorem runStep_of_off_stack {σ : Type} (E : Env σ) (invoke : Invoke σ) (w w2 : World σ)
    (taskName : String) (step : Step) (mode : StepMode) (index : Int) (shell : String)
    (init : CommandList) (resolve : String → TaskDef × Bool) (stack : List String)
    (child : String) (exitCode : Int) (err : Option Err)
    (href : IsTaskRef resolve step child) (hoff : child ∉ stack)
    (hinv : invoke (w.send (.StepStartedMsg (stepID taskName mode index))) child
      (resolve child).1 (child :: stack) = some (w2, exitCode, err)) :
    runStep E invoke w taskName step mode index shell init resolve stack =
      some ((w2.canceled E).1.send
        (.StepFinishedMsg (stepID taskName mode index) exitCode err (w2.canceled E).2),
        exitCode, err) := by
  obtain ⟨hk, hv, hne, hknown⟩ := href
  have hsnd := resolveStepKind_snd step (some resolve)
  simp only [runStep, hk, hsnd, hv, hne, hknown, hoff, cloneStack, hinv]
  simp

/-- An invocation whose sequential step list has a clean prefix followed by a
step that returns an error finishes with that error: its last message is its
own `TaskFinished` carrying the step's exit code and error. -/
theorem runTaskInternal_of_step_error {σ : Type} (E : Env σ) (shell : String)
    (init : CommandList) (resolve : String → TaskDef × Bool) (depth : Nat) (w w1 w2 : World σ)
    (taskName : String) (tdef : TaskDef) (stack : List String) (mode : StepMode)
    (pre : StepList) (step : Step) (post : StepList) (exitCode : Int) (e : Err)
    (hreach : ReachesStep E shell init resolve depth w taskName tdef stack mode pre step post w1)
    (hstep : runStep E (nested E depth shell init resolve) w1 taskName step mode pre.length
      shell init resolve stack = some (w2, exitCode, some e)) :
    runTaskInternal E (depth + 1) w taskName tdef shell init (some resolve) stack =
      some ((w2.canceled E).1.send
        (.TaskFinishedMsg taskName exitCode (some e) (w2.canceled E).2), exitCode, some e) := by
  obtain ⟨hts, hmode, hpre⟩ := hreach
  have hloop := seqLoop_append_of_clean E (nested E depth shell init resolve) taskName mode shell
    init resolve stack 0 pre (step :: post) _ w1 hpre
  simp only [Nat.zero_add, seqLoop, hstep, Option.isSome_some, if_true] at hloop
  have hseq : runSequential E (nested E depth shell init resolve)
      (w.send (.TaskStartedMsg taskName)) taskName (pre ++ step :: post) mode shell init
      resolve stack = some (w2, exitCode, some e) := by
    unfold runSequential
    rw [if_neg (by simp)]
    exact hloop
  have hinv : (fun w' name child next =>
      runTaskInternal E depth w' name child shell init (some (orNoTasks (some resolve))) next) =
      nested E depth shell init resolve := rfl
  have hor : orNoTasks (some resolve) = resolve := rfl
  rw [runTaskInternal, hinv, hor]
  simp only [runTaskSteps, hts, hmode, hseq]
  simp

/-- Along a purely sequential chain to a cycle the invocation returns the cycle
error and its last message is its own `TaskFinished` carrying that error. -/
theorem runTaskInternal_of_chain {σ : Type} (E : Env σ) (shell : String) (init : CommandList)
    (resolve : String → TaskDef × Bool) (depth : Nat) (w : World σ) (taskName : String)
    (tdef : TaskDef) (stack : List String) (name : String)
    (h : SeqChainToCycle E shell init resolve depth w taskName tdef stack name) :
    ∃ (w' : World σ) (canceled : Bool),
      runTaskInternal E depth w taskName tdef shell init (some resolve) stack =
        some (w', -1, some (cycleError name)) ∧
      w'.msgCh.getLast? =
        some (.TaskFinishedMsg taskName (-1) (some (cycleError name)) canceled) := by
  induction h with
  | found depth w w1 taskName tdef stack mode pre step post name hreach href hon =>
    have hstep := runStep_of_on_stack E (nested E depth shell init resolve) w1 taskName step mode
      pre.length shell init resolve stack name href hon
    refine ⟨_, (w1.canceled E).2, runTaskInternal_of_step_error E shell init resolve depth w w1 w1
      taskName tdef stack mode pre step post (-1) (cycleError name) hreach hstep, ?_⟩
    rw [msgCh_send, List.getLast?_concat]
  | through depth w w1 taskName tdef stack mode pre step post child name hreach href hoff _ ih =>
    obtain ⟨w2, c, hrun, _⟩ := ih
    have hstep := runStep_of_off_stack E (nested E depth shell init resolve) w1 w2 taskName step
      mode pre.length shell init resolve stack child (-1) (some (cycleError name)) href hoff hrun
    exact ⟨_, _, runTaskInternal_of_step_error E shell init resolve depth w w1 _ taskName tdef
      stack mode pre step post (-1) (cycleError name) hreach hstep,
      by rw [msgCh_send, List.getLast?_concat]⟩

/-- C3 (amended): a reference to a task whose name is not blank, is known to
the registry and is already on the stack makes `runStep` return exit code -1
with the error `task cycle detected at <name>`, whatever the recursive call
would do and with the state untouched (nothing sent, nothing launched, the
referenced task not invoked); and when such a step is reached from the root
through sequential step lists only, `runTask` returns and the last message on
the channel is the root's `TaskFinished` carrying that cycle error. -/
theorem cycle_detected {σ : Type} (E : Env σ) (shell : String) (init : CommandList)
    (resolve : String → TaskDef × Bool) :
    (∀ (invoke : Invoke σ) (w : World σ) (taskName : String) (step : Step) (mode : StepMode)
        (index : Int) (stack : List String) (name : String),
        IsTaskRef resolve step name → name ∈ stack →
        runStep E invoke w taskName step mode index shell init resolve stack =
          some (w, -1, some (.Errorf "task cycle detected at %q" [name]))) ∧
    (∀ (depth : Nat) (s0 : σ) (taskName : String) (tdef : TaskDef) (name : String),
        SeqChainToCycle E shell init resolve depth (World.init s0) taskName tdef [taskName]
          name →
        ∃ (w' : World σ) (canceled : Bool),
          runTask E depth s0 taskName tdef shell init (some resolve) = some w' ∧
          w'.msgCh.getLast? =
            some (.TaskFinishedMsg taskName (-1)
              (some (.Errorf "task cycle detected at %q" [name])) canceled)) := by
  constructor
  · intro invoke w taskName step mode index stack name href hon
    exact runStep_of_on_stack E invoke w taskName step mode index shell init resolve stack name
      href hon
  · intro depth s0 taskName tdef name hchain
    obtain ⟨w', c, hrun, hlast⟩ := runTaskInternal_of_chain E shell init resolve depth
      (World.init s0) taskName tdef [taskName] name hchain
    refine ⟨w', c, ?_, hlast⟩
    simp [runTask, hrun]

/-- Witness of `cycle_detected`: in the sample registry `A` runs `B`, whose
second step references `A`; the root's `TaskFinished` carries the cycle error. -/
theorem cycle_detected_witness :
    ∃ (w' : World Nat) (canceled : Bool),
      runTask sampleEnv 2 0 "A" (sampleRegistry "A").1 "/bin/sh" [] (some sampleRegistry) =
        some w' ∧
      w'.msgCh.getLast? =
        some (.TaskFinishedMsg "A" (-1) (some (.Errorf "task cycle detected at %q" ["A"]))
          canceled) :=
  (cycle_detected sampleEnv "/bin/sh" [] sampleRegistry).2 2 0 "A" (sampleRegistry "A").1 "A"
    (SeqChainToCycle.through 1 (World.init 0) ((World.init 0).send (.TaskStartedMsg "A")) "A"
      (sampleRegistry "A").1 ["A"] StepModeSeq [] ⟨"B", "", StepAuto⟩ [] "B" "A"
      ⟨rfl, by decide, RunsClean.nil 0 _⟩ ⟨by decide, by decide, by decide, by decide⟩
      (by decide)
      (SeqChainToCycle.found 0 _
        ⟨1, [.msg (.TaskStartedMsg "A"), .msg (.StepStartedMsg "A::seq::0"),
            .msg (.TaskStartedMsg "B"), .msg (.StepStartedMsg "B::seq::0"),
            .launch ⟨"/bin/sh", "echo b", "B::seq::0"⟩,
            .msg (.TaskOutputMsg "B::seq::0" "echo b"),
            .msg (.StepFinishedMsg "B::seq::0" 0 none false)]⟩
        "B" (sampleRegistry "B").1 ["B", "A"] StepModeSeq [⟨"echo b", "", StepAuto⟩]
        ⟨"A", "", StepTask⟩ [] "A"
        ⟨rfl, by decide, RunsClean.cons 0 _ _ _ _ _ 0 rfl (RunsClean.nil 1 _)⟩
        ⟨by decide, by decide, by decide, by decide⟩ (by decide)))

/-- Counterexample to C3 as stated: with a registry that knows no task, the
stack `["task"]` of the root task `task` and the explicit task step `task`,
the referenced name is on the stack, yet `runStep` returns the error
`unknown task`, not the cycle error; and a blank reference fails with
`empty step` even when the registry knows the blank name and it is on the stack. -/
theorem cycle_detected_counterexample :
    ((resolveStepKind ⟨"task", "", StepTask⟩ (some (orNoTasks none))).1 = StepTask ∧
      (resolveStepKind ⟨"task", "", StepTask⟩ (some (orNoTasks none))).2 ∈ ["task"] ∧
      runStep sampleEnv (fun _ _ _ _ => none) (World.init 0) "task" ⟨"task", "", StepTask⟩
          StepModeSeq 0 "/bin/sh" [] (orNoTasks none) ["task"] =
        some (World.init 0, -1, some (.Errorf "unknown task %q" ["task"])) ∧
      Err.Errorf "unknown task %q" ["task"] ≠ .Errorf "task cycle detected at %q" ["task"]) ∧
    ((resolveStepKind ⟨" ", "", StepTask⟩ (some anyNameRegistry)).1 =
        StepTask ∧
      (resolveStepKind ⟨" ", "", StepTask⟩ (some anyNameRegistry)).2 ∈
        [""] ∧
      runStep sampleEnv (fun _ _ _ _ => none) (World.init 0) "" ⟨" ", "", StepTask⟩
          StepModeSeq 0 "/bin/sh" [] anyNameRegistry [""] =
        some (World.init 0, -1, some (.Errorf "empty step" []))) :=
  ⟨⟨by decide, by decide, rfl, by decide⟩, ⟨by decide, by decide, rfl⟩⟩

/-! ### Nesting and termination -/

/-- `runStep` makes no other recursive call than the ones `AgreeOn` lists. -/
theorem runStep_congr {σ : Type} (E : Env σ) (invoke invoke' : Invoke σ) (w : World σ)
    (taskName : String) (step : Step) (mode : StepMode) (index : Int) (shell : String)
    (init : CommandList) (resolve : String → TaskDef × Bool) (stack : List String)
    (h : AgreeOn resolve stack invoke invoke') :
    runStep E invoke w taskName step mode index shell init resolve stack =
      runStep E invoke' w taskName step mode index shell init resolve stack := by
  unfold runStep
  dsimp only
  split_ifs with h1 h2 h3 h4 h5
  · rfl
  · rfl
  · rfl
  · have hok : (resolve (resolveStepKind step (some resolve)).2).2 = true := by simpa using h3
    rw [cloneStack, h _ _ h4 hok]
  · rfl
  · rfl

/-- `runStep` returns when the recursive calls it can make return. -/
theorem runStep_isSome {σ : Type} (E : Env σ) (invoke : Invoke σ) (w : World σ)
    (taskName : String) (step : Step) (mode : StepMode) (index : Int) (shell : String)
    (init : CommandList) (resolve : String → TaskDef × Bool) (stack : List String)
    (h : TotalOn resolve stack invoke) :
    (runStep E invoke w taskName step mode index shell init resolve stack).isSome = true := by
  unfold runStep
  dsimp only
  split_ifs with h1 h2 h3 h4 h5
  · rfl
  · rfl
  · rfl
  · have hok : (resolve (resolveStepKind step (some resolve)).2).2 = true := by simpa using h3
    have := h (w.send (.StepStartedMsg (stepID taskName mode index))) _ h4 hok
    rw [cloneStack]
    cases hinv : invoke (w.send (.StepStartedMsg (stepID taskName mode index)))
        (resolveStepKind step (some resolve)).2
        (resolve (resolveStepKind step (some resolve)).2).1
        ((resolveStepKind step (some resolve)).2 :: stack) with
    | none => rw [hinv] at this; exact absurd this (by simp)
    | some r => rfl
  · rfl
  · rfl

/-- The loop of `runSequential` makes no other recursive call than the ones `AgreeOn` lists. -/
theorem seqLoop_congr {σ : Type} (E : Env σ) (invoke invoke' : Invoke σ) (taskName : String)
    (mode : StepMode) (shell : String) (init : CommandList) (resolve : String → TaskDef × Bool)
    (stack : List String) (h : AgreeOn resolve stack invoke invoke') (idx : Nat)
    (steps : StepList) (w : World σ) :
    seqLoop E invoke taskName mode shell init resolve stack idx steps w =
      seqLoop E invoke' taskName mode shell init resolve stack idx steps w := by
  induction steps generalizing idx w with
  | nil => rfl
  | cons step rest ih =>
    rw [seqLoop, seqLoop, runStep_congr E invoke invoke' w taskName step mode idx shell init
      resolve stack h]
    cases runStep E invoke' w taskName step mode idx shell init resolve stack with
    | none => rfl
    | some r =>
      obtain ⟨w1, exitCode, err⟩ := r
      simp only [ih]

/-- The loop of `runSequential` returns when the recursive calls it can make return. -/
theorem seqLoop_isSome {σ : Type} (E : Env σ) (invoke : Invoke σ) (taskName : String)
    (mode : StepMode) (shell : String) (init : CommandList) (resolve : String → TaskDef × Bool)
    (stack : List String) (h : TotalOn resolve stack invoke) (idx : Nat) (steps : StepList)
    (w : World σ) :
    (seqLoop E invoke taskName mode shell init resolve stack idx steps w).isSome = true := by
  induction steps generalizing idx w with
  | nil => rfl
  | cons step rest ih =>
    rw [seqLoop]
    have hs := runStep_isSome E invoke w taskName step mode idx shell init resolve stack h
    cases hr : runStep E invoke w taskName step mode idx shell init resolve stack with
    | none => rw [hr] at hs; exact absurd hs (by simp)
    | some r =>
      obtain ⟨w1, exitCode, err⟩ := r
      dsimp only
      split_ifs
      · rfl
      · exact ih (idx + 1) w1

/-- The branches of `runParallel` make no other recursive call than the ones `AgreeOn` lists. -/
theorem parLoop_congr {σ : Type} (E : Env σ) (invoke invoke' : Invoke σ) (taskName : String)
    (mode : StepMode) (shell : String) (init : CommandList) (resolve : String → TaskDef × Bool)
    (stack : List String) (h : AgreeOn resolve stack invoke invoke') (n : Nat)
    (pending : List (Nat × Step)) (w : World σ) (results : List (Nat × result)) :
    parLoop E invoke taskName mode shell init resolve stack n pending w results =
      parLoop E invoke' taskName mode shell init resolve stack n pending w results := by
  induction n generalizing pending w results with
  | zero => rfl
  | succ n ih =>
    rw [parLoop, parLoop]
    cases pending.get? ((E.pick w.env pending.length).2 % pending.length) with
    | none => rfl
    | some p =>
      obtain ⟨idx, step⟩ := p
      try dsimp only
      rw [cloneStack, runStep_congr E invoke invoke' _ taskName step mode idx shell init resolve
        stack h]
      cases runStep E invoke' { w with env := (E.pick w.env pending.length).1 } taskName step
          mode idx shell init resolve stack with
      | none => rfl
      | some r =>
        obtain ⟨w1, exitCode, err⟩ := r
        simp only [ih]

/-- The branches of `runParallel` all return when the recursive calls they can make return. -/
theorem parLoop_isSome {σ : Type} (E : Env σ) (invoke : Invoke σ) (taskName : String)
    (mode : StepMode) (shell : String) (init : CommandList) (resolve : String → TaskDef × Bool)
    (stack : List String) (h : TotalOn resolve stack invoke) (n : Nat)
    (pending : List (Nat × Step)) (w : World σ) (results : List (Nat × result)) :
    (parLoop E invoke taskName mode shell init resolve stack n pending w results).isSome =
      true := by
  induction n generalizing pending w results with
  | zero => rfl
  | succ n ih =>
    rw [parLoop]
    cases pending.get? ((E.pick w.env pending.length).2 % pending.length) with
    | none => rfl
    | some p =>
      obtain ⟨idx, step⟩ := p
      try dsimp only
      rw [cloneStack]
      have hs := runStep_isSome E invoke { w with env := (E.pick w.env pending.length).1 }
        taskName step mode idx shell init resolve stack h
      cases hr : runStep E invoke { w with env := (E.pick w.env pending.length).1 } taskName
          step mode idx shell init resolve stack with
      | none => rw [hr] at hs; exact absurd hs (by simp)
      | some r =>
        obtain ⟨w1, exitCode, err⟩ := r
        exact ih _ w1 _

/-- `runTaskSteps` makes no other recursive call than the ones `AgreeOn` lists:
each nested invocation is of a known task whose name was not on the stack and
is added to it. -/
theorem runTaskSteps_congr {σ : Type} (E : Env σ) (invoke invoke' : Invoke σ) (w : World σ)
    (taskName : String) (tdef : TaskDef) (shell : String) (init : CommandList)
    (resolve : String → TaskDef × Bool) (stack : List String)
    (h : AgreeOn resolve stack invoke invoke') :
    runTaskSteps E invoke w taskName tdef shell init resolve stack =
      runTaskSteps E invoke' w taskName tdef shell init resolve stack := by
  unfold runTaskSteps
  dsimp only
  split_ifs with h1 h2
  · cases (taskSteps taskName tdef (some resolve)).2.1 with
    | nil => rfl
    | cons step0 rest =>
      dsimp only
      split_ifs with h3 h4 h5
      any_goals rfl
      have hok : (resolve (resolveStepKind step0 (some resolve)).2).2 = true := by
        simpa using h4
      rw [cloneStack, h _ _ h5 hok]
  · unfold runParallel
    split_ifs
    · rfl
    · rw [parLoop_congr E invoke invoke' taskName _ shell init resolve stack h]
  · unfold runSequential
    split_ifs
    · rfl
    · rw [seqLoop_congr E invoke invoke' taskName _ shell init resolve stack h]

/-- `runTaskSteps` returns when the recursive calls it can make return. -/
theorem runTaskSteps_isSome {σ : Type} (E : Env σ) (invoke : Invoke σ) (w : World σ)
    (taskName : String) (tdef : TaskDef) (shell : String) (init : CommandList)
    (resolve : String → TaskDef × Bool) (stack : List String)
    (h : TotalOn resolve stack invoke) :
    (runTaskSteps E invoke w taskName tdef shell init resolve stack).isSome = true := by
  unfold runTaskSteps
  dsimp only
  split_ifs with h1 h2
  · cases (taskSteps taskName tdef (some resolve)).2.1 with
    | nil => rfl
    | cons step0 rest =>
      dsimp only
      split_ifs with h3 h4 h5
      any_goals rfl
      have hok : (resolve (resolveStepKind step0 (some resolve)).2).2 = true := by
        simpa using h4
      have := h w _ h5 hok
      rw [cloneStack]
      cases hinv : invoke w (resolveStepKind step0 (some resolve)).2
          (resolve (resolveStepKind step0 (some resolve)).2).1
          ((resolveStepKind step0 (some resolve)).2 :: stack) with
      | none => rw [hinv] at this; exact absurd this (by simp)
      | some r =>
        obtain ⟨w1, exitCode, err⟩ := r
        dsimp only
        split_ifs <;> rfl
  · unfold runParallel
    split_ifs
    · rfl
    · have hp := parLoop_isSome E invoke taskName (taskSteps taskName tdef (some resolve)).1
        shell init resolve stack h (taskSteps taskName tdef (some resolve)).2.1.length
        (taskSteps taskName tdef (some resolve)).2.1.enum w []
      cases hr : parLoop E invoke taskName (taskSteps taskName tdef (some resolve)).1 shell init
          resolve stack (taskSteps taskName tdef (some resolve)).2.1.length
          (taskSteps taskName tdef (some resolve)).2.1.enum w [] with
      | none => rw [hr] at hp; exact absurd hp (by simp)
      | some r => rfl
  · unfold runSequential
    split_ifs
    · rfl
    · exact seqLoop_isSome E invoke taskName _ shell init resolve stack h 0 _ w

/-- One unfolding of `runTaskInternal`: `TaskStarted`, the steps with the
recursive call one level down, `TaskFinished`. -/
theorem runTaskInternal_succ {σ : Type} (E : Env σ) (depth : Nat) (w : World σ)
    (taskName : String) (tdef : TaskDef) (shell : String) (init : CommandList)
    (resolve : String → TaskDef × Bool) (stack : List String) :
    runTaskInternal E (depth + 1) w taskName tdef shell init (some resolve) stack =
      (runTaskSteps E (nested E depth shell init resolve) (w.send (.TaskStartedMsg taskName))
        taskName tdef shell init resolve stack).map
        (fun r => ((r.1.canceled E).1.send
          (.TaskFinishedMsg taskName r.2.1 r.2.2 (r.1.canceled E).2), r.2.1, r.2.2)) := by
  have hinv : (fun w' name child next =>
      runTaskInternal E depth w' name child shell init (some (orNoTasks (some resolve))) next) =
      nested E depth shell init resolve := rfl
  have hor : orNoTasks (some resolve) = resolve := rfl
  rw [runTaskInternal, hinv, hor]
  cases runTaskSteps E (nested E depth shell init resolve) (w.send (.TaskStartedMsg taskName))
      taskName tdef shell init resolve stack with
  | none => rfl
  | some r => rfl

/-- A nil resolver behaves as the resolver that knows no task. -/
theorem runTaskInternal_orNoTasks {σ : Type} (E : Env σ) (depth : Nat) (w : World σ)
    (taskName : String) (tdef : TaskDef) (shell : String) (init : CommandList)
    (resolve : TaskResolver) (stack : List String) :
    runTaskInternal E depth w taskName tdef shell init resolve stack =
      runTaskInternal E depth w taskName tdef shell init (some (orNoTasks resolve)) stack := by
  cases depth with
  | zero => rfl
  | succ d =>
    cases resolve with
    | none => rfl
    | some r => rfl

/-- Adding to the stack a listed name that was not on it leaves fewer names off the stack. -/
theorem offStack_cons_lt (names stack : List String) (name : String) (hin : name ∈ names)
    (hoff : name ∉ stack) : offStack names (name :: stack) < offStack names stack := by
  unfold offStack
  have hsub : names.dedup.filter (fun n => n ∉ name :: stack) =
      (names.dedup.filter (fun n => n ∉ stack)).filter (fun n => n ≠ name) := by
    rw [List.filter_filter]
    congr 1
    funext n
    simp [not_or, and_comm]
  rw [hsub]
  apply List.length_filter_lt_length_iff_exists.mpr
  exact ⟨name, List.mem_filter.mpr ⟨List.mem_dedup.mpr hin, by simpa using hoff⟩, by simp⟩

/-- With a nesting budget above the number of listed names off the stack the
invocation returns, and returns the same whatever the budget. -/
theorem runTaskInternal_stable {σ : Type} (E : Env σ) (shell : String) (init : CommandList)
    (resolve : String → TaskDef × Bool) (names : List String)
    (hfin : ∀ n, (resolve n).2 = true → n ∈ names) (d : Nat) :
    ∀ (d' : Nat) (stack : List String) (w : World σ) (taskName : String) (tdef : TaskDef),
      offStack names stack + 1 ≤ d → offStack names stack + 1 ≤ d' →
      runTaskInternal E d w taskName tdef shell init (some resolve) stack =
        runTaskInternal E d' w taskName tdef shell init (some resolve) stack ∧
      (runTaskInternal E d w taskName tdef shell init (some resolve) stack).isSome = true := by
  induction d with
  | zero => intro d' stack w taskName tdef hd; omega
  | succ e ih =>
    intro d' stack w taskName tdef hd hd'
    obtain ⟨e', rfl⟩ : ∃ e', d' = e' + 1 := ⟨d' - 1, by omega⟩
    have hagree : AgreeOn resolve stack (nested E e shell init resolve)
        (nested E e' shell init resolve) := by
      intro w1 name hoff hknown
      have hlt := offStack_cons_lt names stack name (hfin name hknown) hoff
      exact (ih e' (name :: stack) w1 name (resolve name).1 (by omega) (by omega)).1
    have htotal : TotalOn resolve stack (nested E e shell init resolve) := by
      intro w1 name hoff hknown
      have hlt := offStack_cons_lt names stack name (hfin name hknown) hoff
      exact (ih e (name :: stack) w1 name (resolve name).1 (by omega) (by omega)).2
    rw [runTaskInternal_succ, runTaskInternal_succ,
      runTaskSteps_congr E _ _ _ taskName tdef shell init resolve stack hagree]
    refine ⟨rfl, ?_⟩
    rw [← runTaskSteps_congr E _ _ _ taskName tdef shell init resolve stack hagree]
    rw [Option.isSome_map']
    exact runTaskSteps_isSome E _ _ taskName tdef shell init resolve stack htotal

/-- The names the sample registry knows. -/
theorem sampleRegistry_names (n : String)
    (h : (orNoTasks (some sampleRegistry) n).2 = true) : n ∈ ["child", "A", "B", "self"] := by
  simp only [orNoTasks, sampleRegistry] at h
  split_ifs at h with h1 h2 h3 h4
  · simp [h1]
  · simp [h2]
  · simp [h3]
  · simp [h4]

/-- C4: when the registry knows only names of the finite list `names` (its
tasks may reference themselves or each other), `runTaskInternal` returns for
every definition, state and stack as soon as its nesting budget is the number
of distinct names plus one, and a larger budget changes nothing: the nesting
depth never exceeds that number plus one. The reason is the third part: the
steps of a frame use the recursive call only for known tasks whose name is
not on the stack, with that name added to the stack. -/
theorem runTaskInternal_terminates {σ : Type} (E : Env σ) (names : List String)
    (resolve : TaskResolver) (hfin : ∀ n, (orNoTasks resolve n).2 = true → n ∈ names)
    (depth : Nat) (hdepth : names.dedup.length + 1 ≤ depth) (w : World σ) (taskName : String)
    (tdef : TaskDef) (shell : String) (init : CommandList) (stack : List String) :
    (runTaskInternal E depth w taskName tdef shell init resolve stack).isSome = true ∧
    runTaskInternal E depth w taskName tdef shell init resolve stack =
      runTaskInternal E (names.dedup.length + 1) w taskName tdef shell init resolve stack ∧
    (∀ (invoke invoke' : Invoke σ) (w' : World σ),
      (∀ (w1 : World σ) (name : String), name ∉ stack → (orNoTasks resolve name).2 = true →
        invoke w1 name (orNoTasks resolve name).1 (name :: stack) =
          invoke' w1 name (orNoTasks resolve name).1 (name :: stack)) →
      runTaskSteps E invoke w' taskName tdef shell init (orNoTasks resolve) stack =
        runTaskSteps E invoke' w' taskName tdef shell init (orNoTasks resolve) stack) := by
  have hle : offStack names stack ≤ names.dedup.length := by
    unfold offStack
    exact List.length_filter_le _ _
  have hstable := runTaskInternal_stable E shell init (orNoTasks resolve) names hfin depth
    (names.dedup.length + 1) stack w taskName tdef (by omega) (by omega)
  refine ⟨?_, ?_, ?_⟩
  · rw [runTaskInternal_orNoTasks]
    exact hstable.2
  · rw [runTaskInternal_orNoTasks, hstable.1, ← runTaskInternal_orNoTasks]
  · intro invoke invoke' w' hagree
    exact runTaskSteps_congr E invoke invoke' w' taskName tdef shell init (orNoTasks resolve)
      stack hagree

/-- Witness of `runTaskInternal_terminates`: the sample registry knows four
names; the self-referential task `self` returns with budget five. -/
theorem runTaskInternal_terminates_witness :
    (runTaskInternal sampleEnv 5 (World.init 0) "self" (sampleRegistry "self").1 "/bin/sh" []
      (some sampleRegistry) ["self"]).isSome = true :=
  (runTaskInternal_terminates sampleEnv ["child", "A", "B", "self"] (some sampleRegistry)
    sampleRegistry_names 5 (by decide) (World.init 0) "self" (sampleRegistry "self").1 "/bin/sh"
    [] ["self"]).1

/-! ### Order of the events -/

/-- Reading `ctx.Err()` leaves the trace alone. -/
theorem canceled_trace {σ : Type} (E : Env σ) (w : World σ) :
    (w.canceled E).1.trace = w.trace := rfl

/-- The trace of one `runStep`: what was there, then a `StepTrace` of the step. -/
theorem runStep_trace {σ : Type} (E : Env σ) (invoke : Invoke σ) (hinv : ChildShaped invoke)
    (w w' : World σ) (taskName : String) (step : Step) (mode : StepMode) (index : Int)
    (shell : String) (init : CommandList) (resolve : String → TaskDef × Bool)
    (stack : List String) (exitCode : Int) (err : Option Err)
    (hrun : runStep E invoke w taskName step mode index shell init resolve stack =
      some (w', exitCode, err)) :
    ∃ seg, StepTrace (stepID taskName mode index) seg ∧ w'.trace = w.trace ++ seg := by
  unfold runStep at hrun
  dsimp only at hrun
  split_ifs at hrun with h1 h2 h3 h4 h5
  · simp only [Option.some.injEq, Prod.mk.injEq] at hrun
    exact ⟨[], Or.inl rfl, by rw [← hrun.1]; simp⟩
  · simp only [Option.some.injEq, Prod.mk.injEq] at hrun
    exact ⟨[], Or.inl rfl, by rw [← hrun.1]; simp⟩
  · simp only [Option.some.injEq, Prod.mk.injEq] at hrun
    exact ⟨[], Or.inl rfl, by rw [← hrun.1]; simp⟩
  · cases hi : invoke (w.send (.StepStartedMsg (stepID taskName mode index)))
        (resolveStepKind step (some resolve)).2
        (resolve (resolveStepKind step (some resolve)).2).1
        ((resolveStepKind step (some resolve)).2 :: cloneStack stack) with
    | none => rw [hi] at hrun; simp at hrun
    | some r =>
      obtain ⟨w2, c2, e2⟩ := r
      rw [hi] at hrun
      simp only [Option.some.injEq, Prod.mk.injEq] at hrun
      obtain ⟨hw, hc, he⟩ := hrun
      subst hc he
      obtain ⟨body, hbody, htr⟩ := hinv _ _ _ _ _ _ _ hi
      refine ⟨Event.msg (.StepStartedMsg (stepID taskName mode index)) :: body ++
        [Event.msg (.StepFinishedMsg (stepID taskName mode index) c2 e2
          (w2.canceled E).2)], Or.inr ⟨body, c2, e2, _, rfl, Or.inr ⟨_, hbody⟩⟩, ?_⟩
      rw [← hw]
      simp [World.send, canceled_trace, htr]
  · obtain ⟨lines, hl⟩ := runSingle_trace E
      (w.send (.StepStartedMsg (stepID taskName mode index))) (TrimSpace step.Value) shell init
      (stepID taskName mode index)
    generalize runSingle E (w.send (.StepStartedMsg (stepID taskName mode index)))
      (TrimSpace step.Value) shell init (stepID taskName mode index) = rs at hrun hl
    obtain ⟨w2, c2, e2⟩ := rs
    simp only [Option.some.injEq, Prod.mk.injEq] at hrun
    obtain ⟨hw, hc, he⟩ := hrun
    subst hc he
    refine ⟨Event.msg (.StepStartedMsg (stepID taskName mode index)) ::
      (Event.launch ⟨if shell = "" then "/bin/sh" else shell,
          buildShellCommand init (TrimSpace step.Value), stepID taskName mode index⟩ ::
        lines.map (fun line => Event.msg (.TaskOutputMsg (stepID taskName mode index) line))) ++
      [Event.msg (.StepFinishedMsg (stepID taskName mode index) c2 e2 (w2.canceled E).2)],
      Or.inr ⟨_, c2, e2, _, rfl, Or.inl ⟨_, lines, rfl, rfl⟩⟩, ?_⟩
    rw [← hw]
    simp only [World.send] at hl
    simp [World.send, canceled_trace, hl]
  · simp only [Option.some.injEq, Prod.mk.injEq] at hrun
    exact ⟨[], Or.inl rfl, by rw [← hrun.1]; simp⟩

/-- The trace of the loop of `runSequential`: what was there, then one
`StepTrace` for each step run, in the order of the list; every step is run
when no error is returned. -/
theorem seqLoop_trace {σ : Type} (E : Env σ) (invoke : Invoke σ) (hinv : ChildShaped invoke)
    (taskName : String) (mode : StepMode) (shell : String) (init : CommandList)
    (resolve : String → TaskDef × Bool) (stack : List String) (idx : Nat) (steps : StepList)
    (w w' : World σ) (exitCode : Int) (err : Option Err)
    (hrun : seqLoop E invoke taskName mode shell init resolve stack idx steps w =
      some (w', exitCode, err)) :
    ∃ segs : List (List Event),
      segs.length ≤ steps.length ∧ (err = none → segs.length = steps.length) ∧
      w'.trace = w.trace ++ segs.flatten ∧
      ∀ (i : Nat) (seg : List Event), segs.get? i = some seg →
        StepTrace (stepID taskName mode ((idx + i : Nat) : Int)) seg := by
  induction steps generalizing idx w with
  | nil =>
    simp only [seqLoop, Option.some.injEq, Prod.mk.injEq] at hrun
    exact ⟨[], by simp, by simp, by rw [← hrun.1]; simp, by simp⟩
  | cons step rest ih =>
    rw [seqLoop] at hrun
    cases hs : runStep E invoke w taskName step mode idx shell init resolve stack with
    | none => rw [hs] at hrun; simp at hrun
    | some r =>
      obtain ⟨w1, c1, e1⟩ := r
      obtain ⟨seg, hseg, htr⟩ := runStep_trace E invoke hinv w w1 taskName step mode idx shell
        init resolve stack c1 e1 hs
      rw [hs] at hrun
      dsimp only at hrun
      split_ifs at hrun with herr
      · simp only [Option.some.injEq, Prod.mk.injEq] at hrun
        obtain ⟨hw, _, he⟩ := hrun
        refine ⟨[seg], by simp, ?_, by rw [← hw, htr]; simp, ?_⟩
        · intro hnone
          rw [he, hnone] at herr
          simp at herr
        · intro i s hi
          cases i with
          | zero =>
            simp only [List.get?_cons_zero, Option.some.injEq] at hi
            rw [← hi]
            exact hseg
          | succ j => simp at hi
      · obtain ⟨segs, hlen, hall, htr', hshape⟩ := ih (idx + 1) w1 hrun
        refine ⟨seg :: segs, by simp; omega, ?_, by rw [htr', htr]; simp, ?_⟩
        · intro hnone
          simp [hall hnone]
        · intro i s hi
          cases i with
          | zero =>
            simp only [List.get?_cons_zero, Option.some.injEq] at hi
            rw [← hi]
            exact hseg
          | succ j =>
            simp only [List.get?_cons_succ] at hi
            have := hshape j s hi
            have hidx : idx + 1 + j = idx + (j + 1) := by omega
            rw [hidx] at this
            exact this

/-- The branches of `runParallel` only add to the trace. -/
theorem parLoop_extends {σ : Type} (E : Env σ) (invoke : Invoke σ) (hinv : ChildShaped invoke)
    (taskName : String) (mode : StepMode) (shell : String) (init : CommandList)
    (resolve : String → TaskDef × Bool) (stack : List String) (n : Nat)
    (pending : List (Nat × Step)) (w w' : World σ) (results results' : List (Nat × result))
    (hrun : parLoop E invoke taskName mode shell init resolve stack n pending w results =
      some (w', results')) :
    ∃ t, w'.trace = w.trace ++ t := by
  induction n generalizing pending w results with
  | zero =>
    simp only [parLoop, Option.some.injEq, Prod.mk.injEq] at hrun
    exact ⟨[], by rw [← hrun.1]; simp⟩
  | succ n ih =>
    rw [parLoop] at hrun
    cases hp : pending.get? ((E.pick w.env pending.length).2 % pending.length) with
    | none =>
      rw [hp] at hrun
      simp only [Option.some.injEq, Prod.mk.injEq] at hrun
      exact ⟨[], by rw [← hrun.1]; simp⟩
    | some p =>
      obtain ⟨idx, step⟩ := p
      rw [hp] at hrun
      dsimp only at hrun
      cases hs : runStep E invoke { w with env := (E.pick w.env pending.length).1 } taskName step
          mode idx shell init resolve (cloneStack stack) with
      | none => rw [hs] at hrun; simp at hrun
      | some r =>
        obtain ⟨w1, c1, e1⟩ := r
        rw [hs] at hrun
        obtain ⟨seg, _, htr⟩ := runStep_trace E invoke hinv _ w1 taskName step mode idx shell
          init resolve (cloneStack stack) c1 e1 hs
        obtain ⟨t, ht⟩ := ih _ w1 _ hrun
        exact ⟨seg ++ t, by rw [ht, htr]; simp⟩

/-- The steps of an invocation only add to the trace. -/
theorem runTaskSteps_extends {σ : Type} (E : Env σ) (invoke : Invoke σ)
    (hinv : ChildShaped invoke) (w w' : World σ) (taskName : String) (tdef : TaskDef)
    (shell : String) (init : CommandList) (resolve : String → TaskDef × Bool)
    (stack : List String) (exitCode : Int) (err : Option Err)
    (hrun : runTaskSteps E invoke w taskName tdef shell init resolve stack =
      some (w', exitCode, err)) :
    ∃ t, w'.trace = w.trace ++ t := by
  unfold runTaskSteps at hrun
  dsimp only at hrun
  split_ifs at hrun with h1 h2
  · cases hsteps : (taskSteps taskName tdef (some resolve)).2.1 with
    | nil =>
      rw [hsteps] at hrun
      simp only [Option.some.injEq, Prod.mk.injEq] at hrun
      exact ⟨[], by rw [← hrun.1]; simp⟩
    | cons step0 rest =>
      rw [hsteps] at hrun
      dsimp only at hrun
      split_ifs at hrun with h3 h4 h5 h6
      · simp only [Option.some.injEq, Prod.mk.injEq] at hrun
        exact ⟨[], by rw [← hrun.1]; simp⟩
      · simp only [Option.some.injEq, Prod.mk.injEq] at hrun
        exact ⟨[], by rw [← hrun.1]; simp⟩
      · cases hi : invoke w (resolveStepKind step0 (some resolve)).2
            (resolve (resolveStepKind step0 (some resolve)).2).1
            ((resolveStepKind step0 (some resolve)).2 :: cloneStack stack) with
        | none => rw [hi] at hrun; simp at hrun
        | some r =>
          obtain ⟨w2, c2, e2⟩ := r
          obtain ⟨body, _, htr⟩ := hinv _ _ _ _ _ _ _ hi
          rw [hi] at hrun
          dsimp only at hrun
          split_ifs at hrun
          · simp only [Option.some.injEq, Prod.mk.injEq] at hrun
            exact ⟨body, by rw [← hrun.1, htr]⟩
          · simp only [Option.some.injEq, Prod.mk.injEq] at hrun
            exact ⟨body, by rw [← hrun.1, htr]⟩
      · obtain ⟨lines, hl⟩ := runSingle_trace E w step0.Value shell init taskName
        simp only [Option.some.injEq, Prod.mk.injEq] at hrun
        exact ⟨_, by rw [← hrun.1, hl]⟩
      · obtain ⟨lines, hl⟩ := runSingle_trace E w step0.Value shell init taskName
        simp only [Option.some.injEq, Prod.mk.injEq] at hrun
        exact ⟨_, by rw [← hrun.1, hl]⟩
  · unfold runParallel at hrun
    split_ifs at hrun
    · simp only [Option.some.injEq, Prod.mk.injEq] at hrun
      exact ⟨[], by rw [← hrun.1]; simp⟩
    · cases hp : parLoop E invoke taskName (taskSteps taskName tdef (some resolve)).1 shell init
          resolve stack (taskSteps taskName tdef (some resolve)).2.1.length
          (taskSteps taskName tdef (some resolve)).2.1.enum w [] with
      | none => rw [hp] at hrun; simp at hrun
      | some r =>
        obtain ⟨w1, results⟩ := r
        rw [hp] at hrun
        simp only [Option.some.injEq, Prod.mk.injEq] at hrun
        obtain ⟨t, ht⟩ := parLoop_extends E invoke hinv taskName _ shell init resolve stack _ _ w
          w1 [] results hp
        exact ⟨t, by rw [← hrun.1, ht]⟩
  · unfold runSequential at hrun
    split_ifs at hrun
    · simp only [Option.some.injEq, Prod.mk.injEq] at hrun
      exact ⟨[], by rw [← hrun.1]; simp⟩
    · obtain ⟨segs, _, _, htr, _⟩ := seqLoop_trace E invoke hinv taskName _ shell init resolve
        stack 0 _ w w' exitCode err hrun
      exact ⟨_, htr⟩

/-- Every invocation that returns leaves its `TaskStarted`, what its steps
did, and its `TaskFinished` carrying what it returned. -/
theorem nested_childShaped {σ : Type} (E : Env σ) (shell : String) (init : CommandList)
    (resolve : String → TaskDef × Bool) (depth : Nat) :
    ChildShaped (nested E depth shell init resolve) := by
  induction depth with
  | zero =>
    intro w name child next w' exitCode err h
    simp [nested, runTaskInternal] at h
  | succ d ih =>
    intro w name child next w' exitCode err h
    unfold nested at h
    rw [runTaskInternal_succ] at h
    cases hs : runTaskSteps E (nested E d shell init resolve) (w.send (.TaskStartedMsg name))
        name child shell init resolve next with
    | none => rw [hs] at h; simp at h
    | some r =>
      obtain ⟨w1, c1, e1⟩ := r
      rw [hs] at h
      simp only [Option.map_some', Option.some.injEq, Prod.mk.injEq] at h
      obtain ⟨hw, hc, he⟩ := h
      subst hc he
      obtain ⟨t, ht⟩ := runTaskSteps_extends E _ ih _ w1 name child shell init resolve next c1 e1
        hs
      refine ⟨_, ⟨t, (w1.canceled E).2, rfl⟩, ?_⟩
      rw [← hw]
      simp [World.send, canceled_trace, ht]

/-- C8: the trace of a sequential step list is what was there followed by one
segment per step run, in the order of the list. Segment `i` is empty (the step
failed a check) or is `StepStarted` of index `i`, then the step's own events
(the launch and output of its command, or the whole nested invocation of the
task it references, from the child's `TaskStarted` to its `TaskFinished`),
then `StepFinished` of index `i`. So every event of step `i`, the child's
included, precedes the `StepStarted` and the launch of step `i + 1`, and the
`StepStarted` events of the list come in increasing index order. -/
theorem runSequential_in_order {σ : Type} (E : Env σ) (depth : Nat) (w w' : World σ)
    (taskName : String) (steps : StepList) (mode : StepMode) (shell : String)
    (init : CommandList) (resolve : String → TaskDef × Bool) (stack : List String)
    (exitCode : Int) (err : Option Err)
    (hrun : runSequential E (nested E depth shell init resolve) w taskName steps mode shell init
      resolve stack = some (w', exitCode, err)) :
    ∃ segs : List (List Event),
      segs.length ≤ steps.length ∧ (err = none → segs.length = steps.length) ∧
      w'.trace = w.trace ++ segs.flatten ∧
      ∀ (i : Nat) (seg : List Event), segs.get? i = some seg →
        StepTrace (stepID taskName mode (i : Nat)) seg := by
  unfold runSequential at hrun
  split_ifs at hrun with hlen
  · simp only [Option.some.injEq, Prod.mk.injEq] at hrun
    refine ⟨[], by simp, ?_, by rw [← hrun.1]; simp, by simp⟩
    intro hnone
    rw [hnone] at hrun
    simp at hrun
  · obtain ⟨segs, h1, h2, h3, h4⟩ := seqLoop_trace E (nested E depth shell init resolve)
      (nested_childShaped E shell init resolve depth) taskName mode shell init resolve stack 0
      steps w w' exitCode err hrun
    refine ⟨segs, h1, h2, h3, ?_⟩
    intro i seg hi
    have := h4 i seg hi
    rwa [Nat.zero_add] at this

/-- Witness of `runSequential_in_order`: the list of `TestRunTaskWithTaskReference`,
the task `child` then a command, in the sample world; the child's
`TaskFinished` comes before the launch of the command. -/
theorem runSequential_in_order_witness :
    ∃ segs : List (List Event),
      segs.length ≤ [Step.mk "child" "" StepAuto, Step.mk "printf parent" "" StepCommand].length ∧
      ((none : Option Err) = none →
        segs.length =
          [Step.mk "child" "" StepAuto, Step.mk "printf parent" "" StepCommand].length) ∧
      (World.mk 2
        [Event.msg (.StepStartedMsg "parent::seq::0"), .msg (.TaskStartedMsg "child"),
          .launch ⟨"/bin/sh", "echo child", "child"⟩, .msg (.TaskOutputMsg "child" "echo child"),
          .msg (.TaskFinishedMsg "child" 0 none false),
          .msg (.StepFinishedMsg "parent::seq::0" 0 none false),
          .msg (.StepStartedMsg "parent::seq::1"),
          .launch ⟨"/bin/sh", "printf parent", "parent::seq::1"⟩,
          .msg (.TaskOutputMsg "parent::seq::1" "printf parent"),
          .msg (.StepFinishedMsg "parent::seq::1" 0 none false)]).trace =
        (World.init 0).trace ++ segs.flatten ∧
      ∀ (i : Nat) (seg : List Event), segs.get? i = some seg →
        StepTrace (stepID "parent" StepModeSeq (i : Nat)) seg :=
  runSequential_in_order sampleEnv 1 (World.init 0) _ "parent"
    [⟨"child", "", StepAuto⟩, ⟨"printf parent", "", StepCommand⟩] StepModeSeq "/bin/sh" []
    sampleRegistry ["parent"] 0 none rfl

/-! ### Parallel execution -/

/-- Taking one element out of a list and putting it in front permutes the list. -/
theorem perm_cons_eraseIdx_of_get? {α : Type} (l : List α) (k : Nat) (a : α)
    (h : l.get? k = some a) : (a :: l.eraseIdx k).Perm l := by
  induction l generalizing k with
  | nil => simp at h
  | cons b tl ih =>
    cases k with
    | zero =>
      simp only [List.get?_cons_zero, Option.some.injEq] at h
      subst h
      simp
    | succ j =>
      simp only [List.get?_cons_succ] at h
      rw [List.eraseIdx_cons_succ]
      exact (List.Perm.swap b a _).trans ((ih j h).cons b)

/-- The branches of `runParallel`: when the recursive calls return, every
pending branch is run by `runStep` exactly once, whatever the other branches
return, and its result is received. -/
theorem parLoop_spec {σ : Type} (E : Env σ) (invoke : Invoke σ) (taskName : String)
    (mode : StepMode) (shell : String) (init : CommandList) (resolve : String → TaskDef × Bool)
    (stack : List String) (htotal : TotalOn resolve stack invoke) (n : Nat)
    (pending : List (Nat × Step)) (w : World σ) (results : List (Nat × result))
    (hlen : pending.length = n) :
    ∃ (w' : World σ) (received : List (Nat × result)),
      parLoop E invoke taskName mode shell init resolve stack n pending w results =
        some (w', results ++ received) ∧
      (received.map Prod.fst).Perm (pending.map Prod.fst) ∧
      ∀ p ∈ received, ∃ (step : Step) (w0 w1 : World σ), (p.1, step) ∈ pending ∧
        runStep E invoke w0 taskName step mode p.1 shell init resolve (cloneStack stack) =
          some (w1, p.2.exitCode, p.2.err) := by
  induction n generalizing pending w results with
  | zero =>
    have : pending = [] := List.length_eq_zero.mp hlen
    subst this
    exact ⟨w, [], by simp [parLoop], by simp, by simp⟩
  | succ n ih =>
    have hpos : 0 < pending.length := by omega
    have hk : (E.pick w.env pending.length).2 % pending.length < pending.length :=
      Nat.mod_lt _ hpos
    obtain ⟨p, hp⟩ : ∃ p, pending.get? ((E.pick w.env pending.length).2 % pending.length) =
        some p := ⟨_, List.get?_eq_get hk⟩
    obtain ⟨idx, step⟩ := p
    have hs := runStep_isSome E invoke { w with env := (E.pick w.env pending.length).1 } taskName
      step mode idx shell init resolve (cloneStack stack) htotal
    obtain ⟨r, hr⟩ := Option.isSome_iff_exists.mp hs
    obtain ⟨w1, c1, e1⟩ := r
    have hlen' : (pending.eraseIdx ((E.pick w.env pending.length).2 % pending.length)).length =
        n := by
      rw [List.length_eraseIdx_of_lt hk]
      omega
    obtain ⟨w', received, hloop, hperm, hall⟩ := ih
      (pending.eraseIdx ((E.pick w.env pending.length).2 % pending.length)) w1
      (results ++ [(idx, ⟨c1, e1⟩)]) hlen'
    refine ⟨w', (idx, ⟨c1, e1⟩) :: received, ?_, ?_, ?_⟩
    · rw [parLoop]
      simp only [hp, hr]
      rw [hloop]
      simp
    · have := perm_cons_eraseIdx_of_get? pending _ _ hp
      have h2 := this.map Prod.fst
      simp only [List.map_cons] at h2 ⊢
      exact (hperm.cons idx).trans h2
    · intro p hpmem
      rcases List.mem_cons.mp hpmem with rfl | hin
      · exact ⟨step, _, w1, List.get?_mem hp, hr⟩
      · obtain ⟨st, w0, w2, hmem, hrun⟩ := hall p hin
        exact ⟨st, w0, w2, List.mem_of_mem_eraseIdx hmem, hrun⟩

/-- Once an error is recorded the loop over the results keeps it. -/
theorem drainResults_of_err (rs : List result) (exitCode : Int) (e : Err) :
    drainResults rs exitCode (some e) = (exitCode, some e) := by
  induction rs with
  | nil => rfl
  | cons r tl ih => simp [drainResults, ih]

/-- Results without error leave the recorded pair as it is. -/
theorem drainResults_of_all_ok (rs : List result) (exitCode : Int) (err : Option Err)
    (h : ∀ r ∈ rs, r.err = none) : drainResults rs exitCode err = (exitCode, err) := by
  induction rs with
  | nil => rfl
  | cons r tl ih =>
    have hr : r.err = none := h r (List.mem_cons_self _ _)
    rw [drainResults]
    simp only [hr, Option.isSome_none, Bool.false_eq_true, false_and, if_false]
    exact ih (fun x hx => h x (List.mem_cons_of_mem _ hx))

/-- The loop over the results returns the first result that has an error. -/
theorem drainResults_first_error (pre post : List result) (res : result)
    (hpre : ∀ r ∈ pre, r.err = none) (hres : res.err ≠ none) :
    drainResults (pre ++ res :: post) 0 none = (res.exitCode, res.err) := by
  induction pre with
  | nil =>
    obtain ⟨e, he⟩ := Option.ne_none_iff_exists'.mp hres
    rw [List.nil_append, drainResults]
    simp only [he, Option.isSome_some, Option.isNone_none, and_self, if_true]
    exact drainResults_of_err post res.exitCode e
  | cons r tl ih =>
    have hr : r.err = none := hpre r (List.mem_cons_self _ _)
    rw [List.cons_append, drainResults]
    simp only [hr, Option.isSome_none, Bool.false_eq_true, false_and, if_false]
    exact ih (fun x hx => hpre x (List.mem_cons_of_mem _ hx))

/-- C9: for a non-empty parallel step list whose nested invocations return,
`runParallel` returns, and the branches whose results it received are the
step indices `0 .. len-1`, each exactly once: every branch ran `runStep` on
its step and index, whatever the other branches returned (no assumption is
made on any outcome). What is returned is the outcome of the loop over the
received results, and it is `(0, nil)` when no branch returned an error. -/
theorem runParallel_runs_every_branch {σ : Type} (E : Env σ) (invoke : Invoke σ)
    (w : World σ) (taskName : String) (steps : StepList) (mode : StepMode) (shell : String)
    (init : CommandList) (resolve : String → TaskDef × Bool) (stack : List String)
    (hne : steps ≠ []) (htotal : TotalOn resolve stack invoke) :
    ∃ (w' : World σ) (received : List (Nat × result)),
      parLoop E invoke taskName mode shell init resolve stack steps.length steps.enum w [] =
        some (w', received) ∧
      (received.map Prod.fst).Perm (List.range steps.length) ∧
      (∀ p ∈ received, ∃ (step : Step) (w0 w1 : World σ), steps.get? p.1 = some step ∧
        runStep E invoke w0 taskName step mode p.1 shell init resolve (cloneStack stack) =
          some (w1, p.2.exitCode, p.2.err)) ∧
      runParallel E invoke w taskName steps mode shell init resolve stack =
        some (w', drainResults (received.map Prod.snd) 0 none) ∧
      ((∀ p ∈ received, p.2.err = none) →
        runParallel E invoke w taskName steps mode shell init resolve stack =
          some (w', 0, none)) := by
  obtain ⟨w', received, hloop, hperm, hall⟩ := parLoop_spec E invoke taskName mode shell init
    resolve stack htotal steps.length steps.enum w [] (by simp)
  rw [List.nil_append] at hloop
  have hlen : steps.length ≠ 0 := fun h => hne (List.length_eq_zero.mp h)
  have hrun : runParallel E invoke w taskName steps mode shell init resolve stack =
      some (w', drainResults (received.map Prod.snd) 0 none) := by
    unfold runParallel
    rw [if_neg hlen, hloop]
  refine ⟨w', received, hloop, ?_, ?_, hrun, ?_⟩
  · rwa [List.enum_map_fst] at hperm
  · intro p hp
    obtain ⟨step, w0, w1, hmem, hstep⟩ := hall p hp
    refine ⟨step, w0, w1, ?_, hstep⟩
    rw [List.get?_eq_getElem?]
    exact List.mk_mem_enum_iff_getElem?.mp hmem
  · intro hok
    rw [hrun, drainResults_of_all_ok]
    intro r hr
    obtain ⟨p, hp, rfl⟩ := List.mem_map.mp hr
    exact hok p hp

/-- Witness of `runParallel_runs_every_branch`: three commands, two of which
fail, under a registry that knows no task. -/
theorem runParallel_runs_every_branch_witness :
    ∃ (w' : World Nat) (received : List (Nat × result)),
      parLoop sampleEnv (fun _ _ _ _ => none) "task" StepModeParallel "/bin/sh" []
          (orNoTasks none) ["task"]
          [Step.mk "exit 3" "" StepCommand, Step.mk "nosuchshell" "" StepCommand,
            Step.mk "printf a" "" StepCommand].length
          [Step.mk "exit 3" "" StepCommand, Step.mk "nosuchshell" "" StepCommand,
            Step.mk "printf a" "" StepCommand].enum (World.init 0) [] =
        some (w', received) ∧
      (received.map Prod.fst).Perm (List.range
        [Step.mk "exit 3" "" StepCommand, Step.mk "nosuchshell" "" StepCommand,
          Step.mk "printf a" "" StepCommand].length) :=
  let h := runParallel_runs_every_branch sampleEnv (fun _ _ _ _ => none) (World.init 0) "task"
    [⟨"exit 3", "", StepCommand⟩, ⟨"nosuchshell", "", StepCommand⟩,
      ⟨"printf a", "", StepCommand⟩] StepModeParallel "/bin/sh" [] (orNoTasks none) ["task"]
    (by decide) (fun _ _ _ hknown => absurd hknown (by simp [orNoTasks]))
  ⟨h.choose, h.choose_spec.choose, h.choose_spec.choose_spec.1, h.choose_spec.choose_spec.2.1⟩

/-- C10: the pair `runParallel` returns is that of the first received result
whose error is not nil. For any results `pre ++ res :: post` in the order they
are received, with no error in `pre` and an error in `res`, the loop over the
results yields `(res.exitCode, res.err)` whatever `post` holds; and when the
branches' results are received in that order, this is what `runParallel` returns. -/
theorem runParallel_first_error (pre post : List result) (res : result)
    (hpre : ∀ r ∈ pre, r.err = none) (hres : res.err ≠ none) :
    drainResults (pre ++ res :: post) 0 none = (res.exitCode, res.err) ∧
    ∀ {σ : Type} (E : Env σ) (invoke : Invoke σ) (w w' : World σ) (taskName : String)
      (steps : StepList) (mode : StepMode) (shell : String) (init : CommandList)
      (resolve : String → TaskDef × Bool) (stack : List String)
      (received : List (Nat × result)),
      parLoop E invoke taskName mode shell init resolve stack steps.length steps.enum w [] =
        some (w', received) →
      received.map Prod.snd = pre ++ res :: post →
      runParallel E invoke w taskName steps mode shell init resolve stack =
        some (w', res.exitCode, res.err) := by
  have hdrain := drainResults_first_error pre post res hpre hres
  refine ⟨hdrain, ?_⟩
  intro σ E invoke w w' taskName steps mode shell init resolve stack received hloop hsplit
  have hlen : steps.length ≠ 0 := by
    intro h0
    rw [h0] at hloop
    simp only [parLoop, Option.some.injEq, Prod.mk.injEq] at hloop
    rw [← hloop.2] at hsplit
    simp at hsplit
  unfold runParallel
  rw [if_neg hlen, hloop]
  simp only [hsplit, hdrain]

/-- Witness of `runParallel_first_error`: in the sample world the last branch
finishes first; the launch failure of branch 1 is received before the exit
status 3 of branch 0, so `runParallel` returns exit code -1 with that failure. -/
theorem runParallel_first_error_witness :
    runParallel sampleEnv (fun _ _ _ _ => none) (World.init 0) "task"
        [⟨"exit 3", "", StepCommand⟩, ⟨"nosuchshell", "", StepCommand⟩,
          ⟨"printf a", "", StepCommand⟩] StepModeParallel "/bin/sh" [] (orNoTasks none)
        ["task"] =
      some (⟨3,
        [.msg (.StepStartedMsg "task::par::2"),
          .launch ⟨"/bin/sh", "printf a", "task::par::2"⟩,
          .msg (.TaskOutputMsg "task::par::2" "printf a"),
          .msg (.StepFinishedMsg "task::par::2" 0 none false),
          .msg (.StepStartedMsg "task::par::1"),
          .launch ⟨"/bin/sh", "nosuchshell", "task::par::1"⟩,
          .msg (.StepFinishedMsg "task::par::1" (-1) (some (.other "exec: not found")) false),
          .msg (.StepStartedMsg "task::par::0"),
          .launch ⟨"/bin/sh", "exit 3", "task::par::0"⟩,
          .msg (.StepFinishedMsg "task::par::0" 3 (some (.ExitError 3)) false)]⟩,
        (result.mk (-1) (some (.other "exec: not found"))).exitCode,
        (result.mk (-1) (some (.other "exec: not found"))).err) :=
  (runParallel_first_error [⟨0, none⟩] [⟨3, some (.ExitError 3)⟩]
    ⟨-1, some (.other "exec: not found")⟩ (by decide) (by decide)).2 sampleEnv
    (fun _ _ _ _ => none) (World.init 0) _ "task"
    [⟨"exit 3", "", StepCommand⟩, ⟨"nosuchshell", "", StepCommand⟩,
      ⟨"printf a", "", StepCommand⟩] StepModeParallel "/bin/sh" [] (orNoTasks none) ["task"]
    [(2, ⟨0, none⟩), (1, ⟨-1, some (.other "exec: not found")⟩), (0, ⟨3, some (.ExitError 3)⟩)]
    rfl rfl

/-! ### Command line and step identifiers -/

/-- The accumulator loop of the library's `String.intercalate` agrees with `Join`. -/
theorem intercalate_go_eq (sep acc : String) (l : List String) :
    String.intercalate.go acc sep l =
      match l with
      | [] => acc
      | a :: rest => acc ++ sep ++ Join (a :: rest) sep := by
  induction l generalizing acc with
  | nil => rfl
  | cons a rest ih =>
    rw [String.intercalate.go, ih]
    cases rest with
    | nil => rfl
    | cons b tl =>
      simp only [Join]
      simp [String.append_assoc]

/-- `Join` is the library's `String.intercalate`. -/
theorem Join_eq_intercalate (l : List String) (sep : String) :
    Join l sep = sep.intercalate l := by
  cases l with
  | nil => rfl
  | cons a rest =>
    rw [String.intercalate, intercalate_go_eq]
    cases rest with
    | nil => rfl
    | cons b tl => simp only [Join]

/-- C11: for a non-empty init list and a command that is not blank,
`buildShellCommand` joins with `"; "` the init entries that are not blank, in
their order, followed by the trimmed command (a blank init entry adds neither
text nor separator); the init list and command of `TestBuildShellCommand` give
`export FOO=bar; source ~/.zshrc; echo $FOO`. -/
theorem buildShellCommand_spec (init : CommandList) (command : String) (hinit : init ≠ [])
    (hcmd : TrimSpace command ≠ "") :
    buildShellCommand init command =
      "; ".intercalate (init.filter (fun cmd => TrimSpace cmd ≠ "") ++ [TrimSpace command]) ∧
    buildShellCommand ["export FOO=bar", "source ~/.zshrc"] "echo $FOO" =
      "export FOO=bar; source ~/.zshrc; echo $FOO" := by
  constructor
  · have hlen : init.length ≠ 0 := fun h => hinit (List.length_eq_zero.mp h)
    unfold buildShellCommand
    simp only [hlen, if_false, hcmd, ne_eq, not_false_eq_true, if_true]
    exact Join_eq_intercalate _ _
  · decide

/-- Witness of `buildShellCommand_spec`: a blank init entry between two others
leaves no trace in the command line. -/
theorem buildShellCommand_spec_witness :
    buildShellCommand ["cd /srv", "  ", "export A=1"] " make test " =
      "; ".intercalate
        (["cd /srv", "  ", "export A=1"].filter (fun cmd => TrimSpace cmd ≠ "") ++
          [TrimSpace " make test "]) :=
  (buildShellCommand_spec ["cd /srv", "  ", "export A=1"] " make test " (by decide)
    (by decide)).1

/-- C12: `stepID` is the task name, `::`, the mode tag (`par` for Parallel,
`seq` for Sequential, `step` for any other mode), `::`, and the index in
decimal (the digits of `Nat.toDigits 10` for an index that is not negative).
The index the engine passes is the position of the step in its list: after a
clean prefix `pre` the sequential loop runs the next step with index
`pre.length`, and every result the parallel fan-out receives comes from
`runStep` run on the step at position `i` with index `i`. -/
theorem stepID_format (taskName : String) (mode : StepMode) (index : Int) :
    (mode = StepModeParallel →
      stepID taskName mode index = taskName ++ "::" ++ "par" ++ "::" ++ toString index) ∧
    (mode = StepModeSeq →
      stepID taskName mode index = taskName ++ "::" ++ "seq" ++ "::" ++ toString index) ∧
    (mode ≠ StepModeParallel → mode ≠ StepModeSeq →
      stepID taskName mode index = taskName ++ "::" ++ "step" ++ "::" ++ toString index) ∧
    (∀ n : Nat, toString ((n : Nat) : Int) = (Nat.toDigits 10 n).asString) ∧
    (∀ {σ : Type} (E : Env σ) (invoke : Invoke σ) (shell : String) (init : CommandList)
      (resolve : String → TaskDef × Bool) (stack : List String) (pre : StepList) (step : Step)
      (post : StepList) (w w1 : World σ),
      RunsClean E invoke taskName mode shell init resolve stack 0 pre w w1 →
      seqLoop E invoke taskName mode shell init resolve stack 0 (pre ++ step :: post) w =
        match runStep E invoke w1 taskName step mode (pre.length : Nat) shell init resolve
          stack with
        | none => none
        | some (w2, exitCode, err) =>
          if err.isSome then some (w2, exitCode, err)
          else seqLoop E invoke taskName mode shell init resolve stack (pre.length + 1) post
            w2) ∧
    (∀ {σ : Type} (E : Env σ) (invoke : Invoke σ) (shell : String) (init : CommandList)
      (resolve : String → TaskDef × Bool) (stack : List String) (steps : StepList)
      (w : World σ), TotalOn resolve stack invoke →
      ∃ (w' : World σ) (received : List (Nat × result)),
        parLoop E invoke taskName mode shell init resolve stack steps.length steps.enum w [] =
          some (w', received) ∧
        ∀ p ∈ received, ∃ (step : Step) (w0 w1 : World σ), steps.get? p.1 = some step ∧
          runStep E invoke w0 taskName step mode (p.1 : Nat) shell init resolve
            (cloneStack stack) = some (w1, p.2.exitCode, p.2.err)) := by
  refine ⟨?_, ?_, ?_, ?_, ?_, ?_⟩
  · intro h
    simp [stepID, stepModeName, h]
  · intro h
    simp [stepID, stepModeName, h, StepModeSeq, StepModeParallel]
  · intro h1 h2
    simp [stepID, stepModeName, h1, h2]
  · intro n
    rfl
  · intro σ E invoke shell init resolve stack pre step post w w1 hclean
    rw [seqLoop_append_of_clean E invoke taskName mode shell init resolve stack 0 pre
      (step :: post) w w1 hclean, Nat.zero_add, seqLoop]
  · intro σ E invoke shell init resolve stack steps w htotal
    obtain ⟨w', received, hloop, _, hall⟩ := parLoop_spec E invoke taskName mode shell init
      resolve stack htotal steps.length steps.enum w [] (by simp)
    rw [List.nil_append] at hloop
    refine ⟨w', received, hloop, ?_⟩
    intro p hp
    obtain ⟨step, w0, w1, hmem, hstep⟩ := hall p hp
    refine ⟨step, w0, w1, ?_, hstep⟩
    rw [List.get?_eq_getElem?]
    exact List.mk_mem_enum_iff_getElem?.mp hmem

/-- Witness of `stepID_format`: the third step of the sequential list of `build`. -/
theorem stepID_format_witness :
    stepID "build" StepModeSeq 2 = "build" ++ "::" ++ "seq" ++ "::" ++ toString (2 : Int) :=
  (stepID_format "build" StepModeSeq 2).2.1 rfl

/-! ### What a task-reference step reports -/

/-- The loop of `runSequential` returns exit code 0 when it returns no error. -/
theorem seqLoop_code_of_no_err {σ : Type} (E : Env σ) (invoke : Invoke σ) (taskName : String)
    (mode : StepMode) (shell : String) (init : CommandList) (resolve : String → TaskDef × Bool)
    (stack : List String) (idx : Nat) (steps : StepList) (w w' : World σ) (exitCode : Int)
    (h : seqLoop E invoke taskName mode shell init resolve stack idx steps w =
      some (w', exitCode, none)) : exitCode = 0 := by
  induction steps generalizing idx w with
  | nil =>
    simp only [seqLoop, Option.some.injEq, Prod.mk.injEq] at h
    exact h.2.1.symm
  | cons step rest ih =>
    rw [seqLoop] at h
    cases hs : runStep E invoke w taskName step mode idx shell init resolve stack with
    | none => rw [hs] at h; simp at h
    | some r =>
      obtain ⟨w1, c1, e1⟩ := r
      rw [hs] at h
      dsimp only at h
      split_ifs at h with herr
      · simp only [Option.some.injEq, Prod.mk.injEq] at h
        rw [h.2.2] at herr
        simp at herr
      · exact ih (idx + 1) w1 h

/-- The loop over the results keeps `exit code 0 when no error`. -/
theorem drainResults_code_of_no_err (rs : List result) (exitCode : Int) (err : Option Err)
    (hinv : err = none → exitCode = 0) (c : Int)
    (h : drainResults rs exitCode err = (c, none)) : c = 0 := by
  induction rs generalizing exitCode err with
  | nil =>
    simp only [drainResults, Prod.mk.injEq] at h
    rw [← h.1]
    exact hinv h.2
  | cons r tl ih =>
    rw [drainResults] at h
    split_ifs at h with hc
    · refine ih r.exitCode r.err ?_ h
      intro hnone
      rw [hnone] at hc
      simp at hc
    · exact ih exitCode err hinv h

/-- The steps of an invocation return exit code 0 when they return no error,
whatever the nested invocations return. -/
theorem runTaskSteps_code_of_no_err {σ : Type} (E : Env σ) (invoke : Invoke σ) (w w' : World σ)
    (taskName : String) (tdef : TaskDef) (shell : String) (init : CommandList)
    (resolve : String → TaskDef × Bool) (stack : List String) (exitCode : Int)
    (h : runTaskSteps E invoke w taskName tdef shell init resolve stack =
      some (w', exitCode, none)) : exitCode = 0 := by
  unfold runTaskSteps at h
  dsimp only at h
  split_ifs at h with h1 h2
  · cases hsteps : (taskSteps taskName tdef (some resolve)).2.1 with
    | nil => rw [hsteps] at h; simp at h
    | cons step0 rest =>
      rw [hsteps] at h
      dsimp only at h
      split_ifs at h with h3 h4 h5 h6
      · simp at h
      · simp at h
      · cases hi : invoke w (resolveStepKind step0 (some resolve)).2
            (resolve (resolveStepKind step0 (some resolve)).2).1
            ((resolveStepKind step0 (some resolve)).2 :: cloneStack stack) with
        | none => rw [hi] at h; simp at h
        | some r =>
          obtain ⟨w2, c2, e2⟩ := r
          rw [hi] at h
          dsimp only at h
          split_ifs at h with h7
          · simp only [Option.some.injEq, Prod.mk.injEq] at h
            rw [h.2.2] at h7
            simp at h7
          · simp only [Option.some.injEq, Prod.mk.injEq] at h
            exact h.2.1.symm
      · simp only [Option.some.injEq, Prod.mk.injEq] at h
        rw [h.2.2] at h6
        simp at h6
      · simp only [Option.some.injEq, Prod.mk.injEq] at h
        exact h.2.1.symm
  · unfold runParallel at h
    split_ifs at h
    · simp at h
    · cases hp : parLoop E invoke taskName (taskSteps taskName tdef (some resolve)).1 shell init
          resolve stack (taskSteps taskName tdef (some resolve)).2.1.length
          (taskSteps taskName tdef (some resolve)).2.1.enum w [] with
      | none => rw [hp] at h; simp at h
      | some r =>
        obtain ⟨w1, results⟩ := r
        rw [hp] at h
        simp only [Option.some.injEq, Prod.mk.injEq] at h
        exact drainResults_code_of_no_err _ 0 none (fun _ => rfl) exitCode h.2
  · unfold runSequential at h
    split_ifs at h
    · simp at h
    · exact seqLoop_code_of_no_err E invoke taskName _ shell init resolve stack 0 _ w w'
        exitCode h

/-- An invocation returns exit code 0 when it returns no error. -/
theorem runTaskInternal_code_of_no_err {σ : Type} (E : Env σ) (depth : Nat) (w w' : World σ)
    (taskName : String) (tdef : TaskDef) (shell : String) (init : CommandList)
    (resolve : String → TaskDef × Bool) (stack : List String) (exitCode : Int)
    (h : runTaskInternal E depth w taskName tdef shell init (some resolve) stack =
      some (w', exitCode, none)) : exitCode = 0 := by
  cases depth with
  | zero => simp [runTaskInternal] at h
  | succ d =>
    rw [runTaskInternal_succ] at h
    cases hs : runTaskSteps E (nested E d shell init resolve) (w.send (.TaskStartedMsg taskName))
        taskName tdef shell init resolve stack with
    | none => rw [hs] at h; simp at h
    | some r =>
      obtain ⟨w1, c1, e1⟩ := r
      rw [hs] at h
      simp only [Option.map_some', Option.some.injEq, Prod.mk.injEq] at h
      obtain ⟨_, hc, he⟩ := h
      subst hc he
      exact runTaskSteps_code_of_no_err E _ _ w1 taskName tdef shell init resolve stack c1 hs

/-- C13: a step that references the known task `child`, not on the stack, and
whose nested invocation returns `(exitCode, err)`, makes `runStep` return
exactly `(exitCode, err)`; the trace it adds is `StepStarted`, the child's
whole invocation ending in the child's `TaskFinished` with `(exitCode, err)`,
and `StepFinished` with the same `(exitCode, err)`; and when `err` is nil the
exit code is 0. -/
theorem runStep_reports_child {σ : Type} (E : Env σ) (depth : Nat) (w w2 : World σ)
    (taskName : String) (step : Step) (mode : StepMode) (index : Int) (shell : String)
    (init : CommandList) (resolve : String → TaskDef × Bool) (stack : List String)
    (child : String) (exitCode : Int) (err : Option Err)
    (href : IsTaskRef resolve step child) (hoff : child ∉ stack)
    (hinv : runTaskInternal E depth (w.send (.StepStartedMsg (stepID taskName mode index)))
      child (resolve child).1 shell init (some resolve) (child :: stack) =
        some (w2, exitCode, err)) :
    ∃ (w' : World σ) (inner : List Event) (c1 c2 : Bool),
      runStep E (nested E depth shell init resolve) w taskName step mode index shell init
        resolve stack = some (w', exitCode, err) ∧
      w'.trace = w.trace ++
        Event.msg (.StepStartedMsg (stepID taskName mode index)) ::
          (Event.msg (.TaskStartedMsg child) :: inner ++
            [Event.msg (.TaskFinishedMsg child exitCode err c1)]) ++
        [Event.msg (.StepFinishedMsg (stepID taskName mode index) exitCode err c2)] ∧
      (err = none → exitCode = 0) := by
  have hstep := runStep_of_off_stack E (nested E depth shell init resolve) w w2 taskName step
    mode index shell init resolve stack child exitCode err href hoff hinv
  obtain ⟨body, ⟨inner, c1, hbody⟩, htr⟩ := nested_childShaped E shell init resolve depth _ _ _
    _ _ _ _ hinv
  refine ⟨_, inner, c1, (w2.canceled E).2, hstep, ?_, ?_⟩
  · simp [World.send, canceled_trace, htr, hbody]
  · intro hnone
    subst hnone
    exact runTaskInternal_code_of_no_err E depth _ w2 child _ shell init resolve _ exitCode hinv

/-- Witness of `runStep_reports_child`: the step `child` of `parent` in the
sample registry; the child succeeds and the step reports `(0, nil)`. -/
theorem runStep_reports_child_witness :
    ∃ (w' : World Nat) (inner : List Event) (c1 c2 : Bool),
      runStep sampleEnv (nested sampleEnv 1 "/bin/sh" [] sampleRegistry) (World.init 0) "parent"
        ⟨"child", "", StepAuto⟩ StepModeSeq 0 "/bin/sh" [] sampleRegistry ["parent"] =
          some (w', 0, none) ∧
      w'.trace = (World.init 0).trace ++
        Event.msg (.StepStartedMsg (stepID "parent" StepModeSeq 0)) ::
          (Event.msg (.TaskStartedMsg "child") :: inner ++
            [Event.msg (.TaskFinishedMsg "child" 0 none c1)]) ++
        [Event.msg (.StepFinishedMsg (stepID "parent" StepModeSeq 0) 0 none c2)] ∧
      ((none : Option Err) = none → (0 : Int) = 0) :=
  runStep_reports_child sampleEnv 1 (World.init 0)
    ⟨1, [.msg (.StepStartedMsg "parent::seq::0"), .msg (.TaskStartedMsg "child"),
      .launch ⟨"/bin/sh", "echo child", "child"⟩, .msg (.TaskOutputMsg "child" "echo child"),
      .msg (.TaskFinishedMsg "child" 0 none false)]⟩
    "parent" ⟨"child", "", StepAuto⟩ StepModeSeq 0 "/bin/sh" [] sampleRegistry ["parent"]
    "child" 0 none ⟨by decide, by decide, by decide, by decide⟩ (by decide) rfl

/-! ### Which events an invocation adds -/

/-- Nothing added is `EmitsOnly`. -/
theorem EmitsOnly.refl {σ : Type} (Q : Event → Prop) (w : World σ) : EmitsOnly Q w w :=
  ⟨[], by simp, by simp⟩

/-- `EmitsOnly` composes. -/
theorem EmitsOnly.trans {σ : Type} {Q : Event → Prop} {w1 w2 w3 : World σ}
    (h12 : EmitsOnly Q w1 w2) (h23 : EmitsOnly Q w2 w3) : EmitsOnly Q w1 w3 := by
  obtain ⟨t1, ht1, hq1⟩ := h12
  obtain ⟨t2, ht2, hq2⟩ := h23
  refine ⟨t1 ++ t2, by rw [ht2, ht1, List.append_assoc], ?_⟩
  intro e he
  rcases List.mem_append.mp he with h | h
  · exact hq1 e h
  · exact hq2 e h

/-- Sending a message that satisfies `Q` is `EmitsOnly`. -/
theorem EmitsOnly.send {σ : Type} {Q : Event → Prop} (w : World σ) (m : Msg)
    (hm : Q (.msg m)) : EmitsOnly Q w (w.send m) :=
  ⟨[.msg m], rfl, by simpa using hm⟩

/-- Reading the context adds nothing. -/
theorem EmitsOnly.canceled {σ : Type} (Q : Event → Prop) (E : Env σ) (w : World σ) :
    EmitsOnly Q w (w.canceled E).1 :=
  ⟨[], by simp [canceled_trace], by simp⟩

/-- `runSingle` adds only step events. -/
theorem runSingle_emits {σ : Type} (Q : Event → Prop) (hQ : ∀ e, IsStepEvent e → Q e)
    (E : Env σ) (w : World σ) (command shell : String) (init : CommandList) (target : String) :
    EmitsOnly Q w (runSingle E w command shell init target).1 := by
  obtain ⟨lines, hl⟩ := runSingle_trace E w command shell init target
  refine ⟨_, hl, ?_⟩
  intro e he
  rcases List.mem_cons.mp he with rfl | h
  · exact hQ _ trivial
  · obtain ⟨line, _, rfl⟩ := List.mem_map.mp h
    exact hQ _ trivial

/-- `runStep` adds only step events and what its nested invocation adds. -/
theorem runStep_emits {σ : Type} (Q : Event → Prop) (hQ : ∀ e, IsStepEvent e → Q e)
    (E : Env σ) (invoke : Invoke σ) (w w' : World σ) (taskName : String) (step : Step)
    (mode : StepMode) (index : Int) (shell : String) (init : CommandList)
    (resolve : String → TaskDef × Bool) (stack : List String)
    (hinv : InvokeEmitsOnly Q resolve stack invoke) (exitCode : Int) (err : Option Err)
    (hrun : runStep E invoke w taskName step mode index shell init resolve stack =
      some (w', exitCode, err)) :
    EmitsOnly Q w w' := by
  unfold runStep at hrun
  dsimp only at hrun
  split_ifs at hrun with h1 h2 h3 h4 h5
  · simp only [Option.some.injEq, Prod.mk.injEq] at hrun
    rw [← hrun.1]; exact EmitsOnly.refl Q w
  · simp only [Option.some.injEq, Prod.mk.injEq] at hrun
    rw [← hrun.1]; exact EmitsOnly.refl Q w
  · simp only [Option.some.injEq, Prod.mk.injEq] at hrun
    rw [← hrun.1]; exact EmitsOnly.refl Q w
  · have hok : (resolve (resolveStepKind step (some resolve)).2).2 = true := by simpa using h3
    rw [cloneStack] at hrun
    cases hi : invoke (w.send (.StepStartedMsg (stepID taskName mode index)))
        (resolveStepKind step (some resolve)).2
        (resolve (resolveStepKind step (some resolve)).2).1
        ((resolveStepKind step (some resolve)).2 :: stack) with
    | none => rw [hi] at hrun; simp at hrun
    | some r =>
      obtain ⟨w2, c2, e2⟩ := r
      rw [hi] at hrun
      simp only [Option.some.injEq, Prod.mk.injEq] at hrun
      rw [← hrun.1]
      exact ((EmitsOnly.send w (.StepStartedMsg (stepID taskName mode index))
        (hQ _ trivial)).trans (hinv _ _ _ _ _ h4 hok hi)).trans
        ((EmitsOnly.canceled Q E w2).trans
          (EmitsOnly.send _ (.StepFinishedMsg _ _ _ _) (hQ _ trivial)))
  · simp only [Option.some.injEq, Prod.mk.injEq] at hrun
    rw [← hrun.1]
    exact ((EmitsOnly.send w (.StepStartedMsg (stepID taskName mode index))
      (hQ _ trivial)).trans (runSingle_emits Q hQ E _ _ shell init _)).trans
      ((EmitsOnly.canceled Q E _).trans
        (EmitsOnly.send _ (.StepFinishedMsg _ _ _ _) (hQ _ trivial)))
  · simp only [Option.some.injEq, Prod.mk.injEq] at hrun
    rw [← hrun.1]; exact EmitsOnly.refl Q w

/-- The loop of `runSequential` adds only step events and what nested invocations add. -/
theorem seqLoop_emits {σ : Type} (Q : Event → Prop) (hQ : ∀ e, IsStepEvent e → Q e)
    (E : Env σ) (invoke : Invoke σ) (taskName : String) (mode : StepMode) (shell : String)
    (init : CommandList) (resolve : String → TaskDef × Bool) (stack : List String)
    (hinv : InvokeEmitsOnly Q resolve stack invoke) (idx : Nat) (steps : StepList)
    (w w' : World σ) (exitCode : Int) (err : Option Err)
    (hrun : seqLoop E invoke taskName mode shell init resolve stack idx steps w =
      some (w', exitCode, err)) :
    EmitsOnly Q w w' := by
  induction steps generalizing idx w with
  | nil =>
    simp only [seqLoop, Option.some.injEq, Prod.mk.injEq] at hrun
    rw [← hrun.1]; exact EmitsOnly.refl Q w
  | cons step rest ih =>
    rw [seqLoop] at hrun
    cases hs : runStep E invoke w taskName step mode idx shell init resolve stack with
    | none => rw [hs] at hrun; simp at hrun
    | some r =>
      obtain ⟨w1, c1, e1⟩ := r
      have h1 := runStep_emits Q hQ E invoke w w1 taskName step mode idx shell init resolve stack
        hinv c1 e1 hs
      rw [hs] at hrun
      dsimp only at hrun
      split_ifs at hrun
      · simp only [Option.some.injEq, Prod.mk.injEq] at hrun
        rw [← hrun.1]; exact h1
      · exact h1.trans (ih (idx + 1) w1 hrun)

/-- The branches of `runParallel` add only step events and what nested invocations add. -/
theorem parLoop_emits {σ : Type} (Q : Event → Prop) (hQ : ∀ e, IsStepEvent e → Q e)
    (E : Env σ) (invoke : Invoke σ) (taskName : String) (mode : StepMode) (shell : String)
    (init : CommandList) (resolve : String → TaskDef × Bool) (stack : List String)
    (hinv : InvokeEmitsOnly Q resolve stack invoke) (n : Nat) (pending : List (Nat × Step))
    (w w' : World σ) (results results' : List (Nat × result))
    (hrun : parLoop E invoke taskName mode shell init resolve stack n pending w results =
      some (w', results')) :
    EmitsOnly Q w w' := by
  induction n generalizing pending w results with
  | zero =>
    simp only [parLoop, Option.some.injEq, Prod.mk.injEq] at hrun
    rw [← hrun.1]; exact EmitsOnly.refl Q w
  | succ n ih =>
    rw [parLoop] at hrun
    have hpick : EmitsOnly Q w { w with env := (E.pick w.env pending.length).1 } :=
      ⟨[], by simp, by simp⟩
    cases hp : pending.get? ((E.pick w.env pending.length).2 % pending.length) with
    | none =>
      rw [hp] at hrun
      simp only [Option.some.injEq, Prod.mk.injEq] at hrun
      rw [← hrun.1]; exact hpick
    | some p =>
      obtain ⟨idx, step⟩ := p
      rw [hp] at hrun
      dsimp only at hrun
      rw [cloneStack] at hrun
      cases hs : runStep E invoke { w with env := (E.pick w.env pending.length).1 } taskName step
          mode idx shell init resolve stack with
      | none => rw [hs] at hrun; simp at hrun
      | some r =>
        obtain ⟨w1, c1, e1⟩ := r
        rw [hs] at hrun
        have h1 := runStep_emits Q hQ E invoke _ w1 taskName step mode idx shell init resolve
          stack hinv c1 e1 hs
        exact (hpick.trans h1).trans (ih _ w1 _ hrun)

/-- The steps of an invocation add only step events and what nested invocations add. -/
theorem runTaskSteps_emits {σ : Type} (Q : Event → Prop) (hQ : ∀ e, IsStepEvent e → Q e)
    (E : Env σ) (invoke : Invoke σ) (w w' : World σ) (taskName : String) (tdef : TaskDef)
    (shell : String) (init : CommandList) (resolve : String → TaskDef × Bool)
    (stack : List String) (hinv : InvokeEmitsOnly Q resolve stack invoke) (exitCode : Int)
    (err : Option Err)
    (hrun : runTaskSteps E invoke w taskName tdef shell init resolve stack =
      some (w', exitCode, err)) :
    EmitsOnly Q w w' := by
  unfold runTaskSteps at hrun
  dsimp only at hrun
  split_ifs at hrun with h1 h2
  · cases hsteps : (taskSteps taskName tdef (some resolve)).2.1 with
    | nil =>
      rw [hsteps] at hrun
      simp only [Option.some.injEq, Prod.mk.injEq] at hrun
      rw [← hrun.1]; exact EmitsOnly.refl Q w
    | cons step0 rest =>
      rw [hsteps] at hrun
      dsimp only at hrun
      split_ifs at hrun with h3 h4 h5 h6
      · simp only [Option.some.injEq, Prod.mk.injEq] at hrun
        rw [← hrun.1]; exact EmitsOnly.refl Q w
      · simp only [Option.some.injEq, Prod.mk.injEq] at hrun
        rw [← hrun.1]; exact EmitsOnly.refl Q w
      · have hok : (resolve (resolveStepKind step0 (some resolve)).2).2 = true := by
          simpa using h4
        rw [cloneStack] at hrun
        cases hi : invoke w (resolveStepKind step0 (some resolve)).2
            (resolve (resolveStepKind step0 (some resolve)).2).1
            ((resolveStepKind step0 (some resolve)).2 :: stack) with
        | none => rw [hi] at hrun; simp at hrun
        | some r =>
          obtain ⟨w2, c2, e2⟩ := r
          have h7 := hinv _ _ _ _ _ h5 hok hi
          rw [hi] at hrun
          dsimp only at hrun
          split_ifs at hrun
          · simp only [Option.some.injEq, Prod.mk.injEq] at hrun
            rw [← hrun.1]; exact h7
          · simp only [Option.some.injEq, Prod.mk.injEq] at hrun
            rw [← hrun.1]; exact h7
      · simp only [Option.some.injEq, Prod.mk.injEq] at hrun
        rw [← hrun.1]; exact runSingle_emits Q hQ E w _ shell init _
      · simp only [Option.some.injEq, Prod.mk.injEq] at hrun
        rw [← hrun.1]; exact runSingle_emits Q hQ E w _ shell init _
  · unfold runParallel at hrun
    split_ifs at hrun
    · simp only [Option.some.injEq, Prod.mk.injEq] at hrun
      rw [← hrun.1]; exact EmitsOnly.refl Q w
    · cases hp : parLoop E invoke taskName (taskSteps taskName tdef (some resolve)).1 shell init
          resolve stack (taskSteps taskName tdef (some resolve)).2.1.length
          (taskSteps taskName tdef (some resolve)).2.1.enum w [] with
      | none => rw [hp] at hrun; simp at hrun
      | some r =>
        obtain ⟨w1, results⟩ := r
        rw [hp] at hrun
        simp only [Option.some.injEq, Prod.mk.injEq] at hrun
        rw [← hrun.1]
        exact parLoop_emits Q hQ E invoke taskName _ shell init resolve stack hinv _ _ w w1 []
          results hp
  · unfold runSequential at hrun
    split_ifs at hrun
    · simp only [Option.some.injEq, Prod.mk.injEq] at hrun
      rw [← hrun.1]; exact EmitsOnly.refl Q w
    · exact seqLoop_emits Q hQ E invoke taskName _ shell init resolve stack hinv 0 _ w w'
        exitCode err hrun

/-- A step event is not a `TaskFinished`. -/
theorem notFinishedOf_of_stepEvent (stack : List String) (e : Event) (h : IsStepEvent e) :
    NotFinishedOf stack e := by
  intro id exitCode err canceled he
  subst he
  exact absurd h (by simp [IsStepEvent])

/-- An invocation that returns adds its `TaskStarted`, then events among which
no `TaskFinished` carries a name of its stack, then its own `TaskFinished`. -/
theorem runTaskInternal_inner_fresh {σ : Type} (E : Env σ) (shell : String)
    (init : CommandList) (resolve : String → TaskDef × Bool) (depth : Nat) :
    ∀ (stack : List String) (w w' : World σ) (taskName : String) (tdef : TaskDef)
      (exitCode : Int) (err : Option Err),
      runTaskInternal E depth w taskName tdef shell init (some resolve) stack =
        some (w', exitCode, err) →
      ∃ (inner : List Event) (canceled : Bool),
        w'.trace = w.trace ++ Event.msg (.TaskStartedMsg taskName) :: inner ++
          [Event.msg (.TaskFinishedMsg taskName exitCode err canceled)] ∧
        ∀ e ∈ inner, NotFinishedOf stack e := by
  induction depth with
  | zero =>
    intro stack w w' taskName tdef exitCode err h
    simp [runTaskInternal] at h
  | succ d ih =>
    intro stack w w' taskName tdef exitCode err h
    rw [runTaskInternal_succ] at h
    cases hs : runTaskSteps E (nested E d shell init resolve) (w.send (.TaskStartedMsg taskName))
        taskName tdef shell init resolve stack with
    | none => rw [hs] at h; simp at h
    | some r =>
      obtain ⟨w1, c1, e1⟩ := r
      rw [hs] at h
      simp only [Option.map_some', Option.some.injEq, Prod.mk.injEq] at h
      obtain ⟨hw, hc, he⟩ := h
      subst hc he
      have hinv : InvokeEmitsOnly (NotFinishedOf stack) resolve stack
          (nested E d shell init resolve) := by
        intro wa wb name c e hoff _ hcall
        obtain ⟨inner, b, htr, hfresh⟩ := ih (name :: stack) wa wb name _ c e hcall
        refine ⟨_, by rw [htr, List.append_assoc], ?_⟩
        intro ev hev
        rcases List.mem_append.mp hev with h1 | h1
        · rcases List.mem_cons.mp h1 with rfl | h2
          · intro id c' e' b' heq
            simp at heq
          · intro id c' e' b' heq
            exact fun hin => hfresh ev h2 id c' e' b' heq (List.mem_cons_of_mem _ hin)
        · rw [List.mem_singleton] at h1
          subst h1
          intro id c' e' b' heq
          simp only [Event.msg.injEq, Msg.TaskFinishedMsg.injEq] at heq
          rw [← heq.1]
          exact hoff
      obtain ⟨t, ht, hq⟩ := runTaskSteps_emits (NotFinishedOf stack)
        (notFinishedOf_of_stepEvent stack) E _ _ w1 taskName tdef shell init resolve stack hinv
        c1 e1 hs
      refine ⟨t, (w1.canceled E).2, ?_, hq⟩
      rw [← hw]
      simp [World.send, canceled_trace, ht]

/-- C14: when `runTask` returns, the last message on the channel is the
`TaskFinished` of the root task, and no message before it is a `TaskFinished`
carrying the root's name: nested invocations never carry it, so the first
`TaskFinished` whose id is the root's is the last message and a consumer that
stops there loses nothing. With a registry of finitely many names and a
nesting budget above their number, `runTask` does return. -/
theorem runTask_last_event {σ : Type} (E : Env σ) (depth : Nat) (s0 : σ) (taskName : String)
    (tdef : TaskDef) (shell : String) (init : CommandList) (resolve : TaskResolver) :
    (∀ w' : World σ, runTask E depth s0 taskName tdef shell init resolve = some w' →
      ∃ (pre : List Msg) (exitCode : Int) (err : Option Err) (canceled : Bool),
        w'.msgCh = pre ++ [Msg.TaskFinishedMsg taskName exitCode err canceled] ∧
        ∀ (c : Int) (e : Option Err) (b : Bool), Msg.TaskFinishedMsg taskName c e b ∉ pre) ∧
    (∀ names : List String, (∀ n, (orNoTasks resolve n).2 = true → n ∈ names) →
      names.dedup.length + 1 ≤ depth →
      (runTask E depth s0 taskName tdef shell init resolve).isSome = true) := by
  constructor
  · intro w' hrun
    unfold runTask at hrun
    dsimp only at hrun
    rw [runTaskInternal_orNoTasks] at hrun
    cases hr : runTaskInternal E depth (World.init s0) taskName tdef shell init
        (some (orNoTasks resolve)) [taskName] with
    | none => rw [hr] at hrun; simp at hrun
    | some r =>
      obtain ⟨w1, c1, e1⟩ := r
      rw [hr] at hrun
      simp only [Option.map_some', Option.some.injEq] at hrun
      subst hrun
      obtain ⟨inner, b, htr, hfresh⟩ := runTaskInternal_inner_fresh E shell init
        (orNoTasks resolve) depth [taskName] (World.init s0) w1 taskName tdef c1 e1 hr
      refine ⟨Msg.TaskStartedMsg taskName ::
        inner.filterMap (fun e => match e with | .msg m => some m | .launch _ => none),
        c1, e1, b, ?_, ?_⟩
      · simp [World.msgCh, htr, World.init]
      · intro c e b' hmem
        rcases List.mem_cons.mp hmem with h | h
        · simp at h
        · obtain ⟨ev, hev, hm⟩ := List.mem_filterMap.mp h
          cases ev with
          | launch l => simp at hm
          | msg m =>
            simp only [Option.some.injEq] at hm
            subst hm
            exact hfresh _ hev taskName c e b' rfl (List.mem_singleton.mpr rfl)
  · intro names hfin hdepth
    have hle : offStack names [taskName] ≤ names.dedup.length := by
      unfold offStack
      exact List.length_filter_le _ _
    have hsome := (runTaskInternal_stable E shell init (orNoTasks resolve) names hfin depth depth
      [taskName] (World.init s0) taskName tdef (by omega) (by omega)).2
    unfold runTask
    dsimp only
    rw [runTaskInternal_orNoTasks, Option.isSome_map']
    exact hsome

/-- Witness of `runTask_last_event`: the task `child` of the sample registry. -/
theorem runTask_last_event_witness :
    ∃ (pre : List Msg) (exitCode : Int) (err : Option Err) (canceled : Bool),
      (World.mk 1 [Event.msg (.TaskStartedMsg "child"),
          .launch ⟨"/bin/sh", "echo child", "child"⟩,
          .msg (.TaskOutputMsg "child" "echo child"),
          .msg (.TaskFinishedMsg "child" 0 none false)]).msgCh =
        pre ++ [Msg.TaskFinishedMsg "child" exitCode err canceled] ∧
      ∀ (c : Int) (e : Option Err) (b : Bool), Msg.TaskFinishedMsg "child" c e b ∉ pre :=
  (runTask_last_event sampleEnv 1 0 "child" (sampleRegistry "child").1 "/bin/sh" []
    (some sampleRegistry)).1 _ rfl

/-! ### Steps that are missing, blank or rejected -/

/-- C15: a task whose `Cmd`, `Parallel` and `Seq` are all empty sends
`TaskStarted` and then `TaskFinished` with exit code -1 and the error
`no commands to run`, returns that pair, and launches nothing. -/
theorem runTaskInternal_no_commands {σ : Type} (E : Env σ) (depth : Nat) (w : World σ)
    (taskName : String) (tdef : TaskDef) (shell : String) (init : CommandList)
    (resolve : TaskResolver) (stack : List String)
    (hc : tdef.Cmd = []) (hp : tdef.Parallel = []) (hs : tdef.Seq = []) :
    ∃ (w' : World σ) (canceled : Bool),
      runTaskInternal E (depth + 1) w taskName tdef shell init resolve stack =
        some (w', -1, some (.Errorf "no commands to run" [])) ∧
      w'.trace = w.trace ++
        [Event.msg (.TaskStartedMsg taskName),
          Event.msg (.TaskFinishedMsg taskName (-1) (some (.Errorf "no commands to run" []))
            canceled)] ∧
      w'.launched = w.launched := by
  have hts : taskSteps taskName tdef (some (orNoTasks resolve)) = (StepModeNone, [], false) := by
    simp [taskSteps, hc, hp, hs]
  refine ⟨((w.send (.TaskStartedMsg taskName)).canceled E).1.send
    (.TaskFinishedMsg taskName (-1) (some (.Errorf "no commands to run" []))
      ((w.send (.TaskStartedMsg taskName)).canceled E).2),
    ((w.send (.TaskStartedMsg taskName)).canceled E).2, ?_, ?_, ?_⟩
  · simp only [runTaskInternal, runTaskSteps, hts]
    rfl
  · simp [World.send, World.canceled]
  · simp [World.launched, World.send, World.canceled]

/-- Witness of `runTaskInternal_no_commands`: the zero value `TaskDef`. -/
theorem runTaskInternal_no_commands_witness :
    ∃ (w' : World Nat) (canceled : Bool),
      runTaskInternal sampleEnv (0 + 1) (World.init 0) "task" ⟨"task", "", false, [], [], []⟩
          "/bin/sh" [] none ["task"] =
        some (w', -1, some (.Errorf "no commands to run" [])) ∧
      w'.trace = (World.init 0).trace ++
        [Event.msg (.TaskStartedMsg "task"),
          Event.msg (.TaskFinishedMsg "task" (-1) (some (.Errorf "no commands to run" []))
            canceled)] ∧
      w'.launched = (World.init 0).launched :=
  runTaskInternal_no_commands sampleEnv 0 (World.init 0) "task" ⟨"task", "", false, [], [], []⟩
    "/bin/sh" [] none ["task"] rfl rfl rfl

/-- C16, at the failing input: a task whose sole `Cmd` entry is the blank
command `"  "` does not fail with `empty step`; `runTaskSteps` hands it to
`runSingle`, which launches the shell on the empty command line, and the
task finishes with what the shell reports. The same blank entry as the second
element of a list is rejected by `runStep` with `empty step` and exit code -1
before anything is launched for it. -/
theorem blank_sole_command_is_launched :
    runTaskInternal sampleEnv 1 (World.init 0) "task"
        ⟨"task", "", false, [⟨"  ", "", StepCommand⟩], [], []⟩ "/bin/sh" [] none ["task"] =
      some (⟨1, [.msg (.TaskStartedMsg "task"), .launch ⟨"/bin/sh", "", "task"⟩,
          .msg (.TaskOutputMsg "task" ""), .msg (.TaskFinishedMsg "task" 0 none false)]⟩,
        0, none) ∧
    runTaskInternal sampleEnv 1 (World.init 0) "task"
        ⟨"task", "", false, [⟨"printf one", "", StepCommand⟩, ⟨"  ", "", StepCommand⟩], [], []⟩
        "/bin/sh" [] none ["task"] =
      some (⟨1, [.msg (.TaskStartedMsg "task"), .msg (.StepStartedMsg "task::seq::0"),
          .launch ⟨"/bin/sh", "printf one", "task::seq::0"⟩,
          .msg (.TaskOutputMsg "task::seq::0" "printf one"),
          .msg (.StepFinishedMsg "task::seq::0" 0 none false),
          .msg (.TaskFinishedMsg "task" (-1) (some (.Errorf "empty step" [])) false)]⟩,
        -1, some (.Errorf "empty step" [])) :=
  ⟨rfl, rfl⟩

/-- C17 (amended): `runStep` makes its checks first and sends `StepStarted`
only for a step that passes them. A command step that is not blank sends
`StepStarted` with its identifier before anything else; a reference to a known
task that is not on the stack sends it and then invokes the child from that
state. A blank step, a reference to an unknown task, and a reference to a task
on the stack (the cycle error) return with the state untouched: no
`StepStarted` is sent for them. -/
theorem runStep_stepStarted {σ : Type} (E : Env σ) (invoke : Invoke σ) (w : World σ)
    (taskName : String) (step : Step) (mode : StepMode) (index : Int) (shell : String)
    (init : CommandList) (resolve : String → TaskDef × Bool) (stack : List String) :
    (TrimSpace step.Value ≠ "" → (resolveStepKind step (some resolve)).1 = StepCommand →
      ∃ (w' : World σ) (rest : List Event) (exitCode : Int) (err : Option Err),
        runStep E invoke w taskName step mode index shell init resolve stack =
          some (w', exitCode, err) ∧
        w'.trace = w.trace ++ Event.msg (.StepStartedMsg (stepID taskName mode index)) :: rest) ∧
    (∀ child : String, IsTaskRef resolve step child → child ∉ stack →
      runStep E invoke w taskName step mode index shell init resolve stack =
        (invoke (w.send (.StepStartedMsg (stepID taskName mode index))) child (resolve child).1
          (child :: stack)).map
          (fun r => ((r.1.canceled E).1.send
            (.StepFinishedMsg (stepID taskName mode index) r.2.1 r.2.2 (r.1.canceled E).2),
            r.2.1, r.2.2))) ∧
    (TrimSpace step.Value = "" →
      runStep E invoke w taskName step mode index shell init resolve stack =
        some (w, -1, some (.Errorf "empty step" []))) ∧
    (TrimSpace step.Value ≠ "" → (resolveStepKind step (some resolve)).1 = StepTask →
      (resolve (TrimSpace step.Value)).2 = false →
      runStep E invoke w taskName step mode index shell init resolve stack =
        some (w, -1, some (.Errorf "unknown task %q" [TrimSpace step.Value]))) ∧
    (∀ child : String, IsTaskRef resolve step child → child ∈ stack →
      runStep E invoke w taskName step mode index shell init resolve stack =
        some (w, -1, some (.Errorf "task cycle detected at %q" [child]))) := by
  have hsnd := resolveStepKind_snd step (some resolve)
  refine ⟨?_, ?_, ?_, ?_, ?_⟩
  · intro hne hk
    have hk' : (resolveStepKind step (some resolve)).1 ≠ StepTask := by rw [hk]; decide
    obtain ⟨lines, hl⟩ := runSingle_trace E
      (w.send (.StepStartedMsg (stepID taskName mode index))) (TrimSpace step.Value) shell init
      (stepID taskName mode index)
    have hrun : runStep E invoke w taskName step mode index shell init resolve stack =
        some (((runSingle E (w.send (.StepStartedMsg (stepID taskName mode index)))
            (TrimSpace step.Value) shell init (stepID taskName mode index)).1.canceled E).1.send
          (.StepFinishedMsg (stepID taskName mode index)
            (runSingle E (w.send (.StepStartedMsg (stepID taskName mode index)))
              (TrimSpace step.Value) shell init (stepID taskName mode index)).2.1
            (runSingle E (w.send (.StepStartedMsg (stepID taskName mode index)))
              (TrimSpace step.Value) shell init (stepID taskName mode index)).2.2
            ((runSingle E (w.send (.StepStartedMsg (stepID taskName mode index)))
              (TrimSpace step.Value) shell init (stepID taskName mode index)).1.canceled E).2),
          (runSingle E (w.send (.StepStartedMsg (stepID taskName mode index)))
            (TrimSpace step.Value) shell init (stepID taskName mode index)).2.1,
          (runSingle E (w.send (.StepStartedMsg (stepID taskName mode index)))
            (TrimSpace step.Value) shell init (stepID taskName mode index)).2.2) := by
      unfold runStep
      dsimp only
      rw [if_neg hne, if_neg hk', if_pos hk]
    generalize runSingle E (w.send (.StepStartedMsg (stepID taskName mode index)))
      (TrimSpace step.Value) shell init (stepID taskName mode index) = rs at hrun hl
    obtain ⟨w2, c2, e2⟩ := rs
    refine ⟨_, (Event.launch ⟨if shell = "" then "/bin/sh" else shell,
        buildShellCommand init (TrimSpace step.Value), stepID taskName mode index⟩ ::
        lines.map (fun line => Event.msg (.TaskOutputMsg (stepID taskName mode index) line))) ++
      [Event.msg (.StepFinishedMsg (stepID taskName mode index) c2 e2 (w2.canceled E).2)],
      c2, e2, hrun, ?_⟩
    simp only [World.send] at hl
    simp [World.send, canceled_trace, hl]
  · intro child href hoff
    obtain ⟨hk, hv, hne, hknown⟩ := href
    simp only [runStep, hk, hsnd, hv, hne, hknown, hoff, cloneStack]
    cases invoke (w.send (.StepStartedMsg (stepID taskName mode index))) child (resolve child).1
        (child :: stack) with
    | none => simp
    | some r => simp
  · intro hblank
    simp [runStep, hblank]
  · intro hne hk hunknown
    simp [runStep, hne, hk, hsnd, hunknown]
  · intro child href hon
    exact runStep_of_on_stack E invoke w taskName step mode index shell init resolve stack child
      href hon

/-- Witness of `runStep_stepStarted`: the command step `printf one` at index 0
of `task` sends `StepStarted` first. -/
theorem runStep_stepStarted_witness :
    ∃ (w' : World Nat) (rest : List Event) (exitCode : Int) (err : Option Err),
      runStep sampleEnv (fun _ _ _ _ => none) (World.init 0) "task"
          ⟨"printf one", "", StepCommand⟩ StepModeSeq 0 "/bin/sh" [] sampleRegistry ["task"] =
        some (w', exitCode, err) ∧
      w'.trace = (World.init 0).trace ++
        Event.msg (.StepStartedMsg (stepID "task" StepModeSeq 0)) :: rest :=
  (runStep_stepStarted sampleEnv (fun _ _ _ _ => none) (World.init 0) "task"
    ⟨"printf one", "", StepCommand⟩ StepModeSeq 0 "/bin/sh" [] sampleRegistry ["task"]).1
    (by decide) (by decide)

/-- Counterexample to C17 as stated: in the sample registry the second step of
`B` references `A`, which is on the stack `["B", "A"]`; `runStep` returns the
cycle error with the state untouched, and the whole run of `A` has no
`StepStarted` for that step on the channel. -/
theorem runStep_stepStarted_counterexample :
    runStep sampleEnv (nested sampleEnv 2 "/bin/sh" [] sampleRegistry) (World.init 0) "B"
        ⟨"A", "", StepTask⟩ StepModeSeq 1 "/bin/sh" [] sampleRegistry ["B", "A"] =
      some (World.init 0, -1, some (.Errorf "task cycle detected at %q" ["A"])) ∧
    Event.msg (.StepStartedMsg (stepID "B" StepModeSeq 1)) ∉ (World.init (0 : Nat)).trace ∧
    (runTask sampleEnv 2 0 "A" (sampleRegistry "A").1 "/bin/sh" [] (some sampleRegistry)).map
        (fun w => (w.msgCh.getLast?,
          decide (Msg.StepStartedMsg (stepID "B" StepModeSeq 1) ∈ w.msgCh))) =
      some (some (.TaskFinishedMsg "A" (-1) (some (.Errorf "task cycle detected at %q" ["A"]))
        false), false) :=
  ⟨rfl, by simp [World.init], by decide⟩

/-! ## Combo scheduler -/

/-- A deleted key is absent. -/
theorem GoMap.get_delete_self {α : Type} (m : GoMap α) (k : String) :
    (m.delete k).get k = none := by
  induction m with
  | nil => rfl
  | cons p rest ih =>
    obtain ⟨k0, v0⟩ := p
    by_cases h : k0 = k
    · simpa [GoMap.delete, List.filter, h] using ih
    · simp only [GoMap.delete, List.filter, h, ne_eq, not_false_eq_true, decide_True,
        GoMap.get, if_false]
      exact ih

/-- Deleting a key leaves the other keys alone. -/
theorem GoMap.get_delete_of_ne {α : Type} (m : GoMap α) (k k' : String) (hne : k' ≠ k) :
    (m.delete k).get k' = m.get k' := by
  induction m with
  | nil => rfl
  | cons p rest ih =>
    obtain ⟨k0, v0⟩ := p
    by_cases h : k0 = k
    · have h' : ¬k0 = k' := fun e => hne (e.symm.trans h)
      simp only [GoMap.get, h', if_false]
      simpa [GoMap.delete, List.filter, h] using ih
    · simp only [GoMap.delete, List.filter, h, ne_eq, not_false_eq_true, decide_True, GoMap.get]
      by_cases h2 : k0 = k'
      · simp [h2]
      · simp only [h2, if_false]
        exact ih

/-- An assigned key holds the assigned value. -/
theorem GoMap.get_set_self {α : Type} (m : GoMap α) (k : String) (v : α) :
    (m.set k v).get k = some v := by
  simp [GoMap.set, GoMap.get]

/-- Assigning a key leaves the other keys alone. -/
theorem GoMap.get_set_of_ne {α : Type} (m : GoMap α) (k k' : String) (v : α) (hne : k' ≠ k) :
    (m.set k v).get k' = m.get k' := by
  have h : ¬k = k' := fun e => hne e.symm
  simp only [GoMap.set, GoMap.get, h, if_false]
  exact GoMap.get_delete_of_ne m k k' hne

/-- `startTask` leaves the runs in flight alone. -/
theorem startTask_comboActive (m : model) (t : String) (fromCombo : Bool) :
    (startTask m t fromCombo).1.comboActive = m.comboActive := by
  unfold startTask
  cases m.taskByName.get t with
  | none => rfl
  | some task =>
    dsimp only
    split_ifs <;> rfl

/-- `startTask` keeps every task in `taskByName`. -/
theorem startTask_known (m : model) (t : String) (fromCombo : Bool) (t' : String) :
    ((startTask m t fromCombo).1.taskByName.get t').isSome = (m.taskByName.get t').isSome := by
  unfold startTask
  cases hg : m.taskByName.get t with
  | none => rfl
  | some task =>
    dsimp only
    split_ifs
    · rfl
    · rfl
    · by_cases ht : t' = t
      · subst ht
        simp [GoMap.get_set_self, hg]
      · simp [GoMap.get_set_of_ne _ _ _ _ ht]

/-- `startTask` never stops a running task. -/
theorem startTask_running (m : model) (t : String) (fromCombo : Bool) (t' : String)
    (h : taskRunning m t' = true) : taskRunning (startTask m t fromCombo).1 t' = true := by
  unfold startTask
  cases hg : m.taskByName.get t with
  | none => exact h
  | some task =>
    dsimp only
    split_ifs
    · exact h
    · exact h
    · by_cases ht : t' = t
      · subst ht
        simp [taskRunning, GoMap.get_set_self]
      · unfold taskRunning at h ⊢
        simpa [GoMap.get_set_of_ne _ _ _ _ ht] using h

/-- Started from a combo, a known task that is not running is started: its
flag is set, its name is recorded and a command is returned. -/
theorem startTask_from_combo (m : model) (t : String) (task : Task)
    (hg : m.taskByName.get t = some task) (hr : task.Running = false) :
    startTask m t true =
      ({ m with
          taskByName := m.taskByName.set t { task with Running := true },
          started := m.started ++ [t] },
        some t) := by
  simp [startTask, hg, hr]

/-- `startNextComboTask` on a run whose index points at the known task `t`:
the run awaits `t`, and `t` is started unless it is already running. -/
theorem startNextComboTask_at (m : model) (run : comboRun) (t : String) (task : Task)
    (h0 : 0 ≤ run.Index) (hlt : run.Index < run.Def.Run.length)
    (ht : run.Def.Run.get? run.Index.toNat = some t) (hg : m.taskByName.get t = some task) :
    startNextComboTask m run =
      some (if task.Running = true then (m, { run with WaitingOn := t }, none)
        else ({ m with
            taskByName := m.taskByName.set t { task with Running := true },
            started := m.started ++ [t] },
          { run with WaitingOn := t }, some t)) := by
  have hneg : ¬run.Index < 0 := by omega
  unfold startNextComboTask
  rw [if_pos hlt, if_neg hneg]
  simp only [ht, hg]
  by_cases hr : task.Running = true
  · simp [hr]
  · have hr' : task.Running = false := by simpa using hr
    rw [startTask_from_combo m t task hg hr']
    simp [hr']

/-- What `startNextComboTask` can change: no run in flight, no task leaves
`taskByName`, no running task stops, and of the run only `WaitingOn`. -/
theorem startNextComboTask_effect (m m2 : model) (run run2 : comboRun) (cmd : Option String)
    (h : startNextComboTask m run = some (m2, run2, cmd)) :
    m2.comboActive = m.comboActive ∧
    (∀ t, (m2.taskByName.get t).isSome = (m.taskByName.get t).isSome) ∧
    (∀ t, taskRunning m t = true → taskRunning m2 t = true) ∧
    run2.Def = run.Def ∧ run2.Index = run.Index ∧ run2.Pending = run.Pending := by
  unfold startNextComboTask at h
  split_ifs at h with h1 h2
  · cases hg : run.Def.Run.get? run.Index.toNat with
    | none => rw [hg] at h; simp at h
    | some t =>
      rw [hg] at h
      dsimp only at h
      cases hk : m.taskByName.get t with
      | none => rw [hk] at h; simp at h
      | some task =>
        rw [hk] at h
        dsimp only at h
        split_ifs at h with h3
        · simp only [Option.some.injEq, Prod.mk.injEq] at h
          obtain ⟨hm, hr, _⟩ := h
          subst hm hr
          exact ⟨rfl, fun _ => rfl, fun _ ht => ht, rfl, rfl, rfl⟩
        · simp only [Option.some.injEq, Prod.mk.injEq] at h
          obtain ⟨hm, hr, _⟩ := h
          subst hm hr
          exact ⟨startTask_comboActive m t true, startTask_known m t true,
            startTask_running m t true, rfl, rfl, rfl⟩
  · simp only [Option.some.injEq, Prod.mk.injEq] at h
    obtain ⟨hm, hr, _⟩ := h
    subst hm hr
    exact ⟨rfl, fun _ => rfl, fun _ ht => ht, rfl, rfl, rfl⟩

/-- What handling one combo can change: no task leaves `taskByName`, no
running task stops, and `comboActive` is left alone, or loses the combo, or
gets for the combo a run with the same definition and an index that is the
same or one more. -/
theorem advanceCombo_effect (m m' : model) (msg : TaskFinishedMsg) (c : String)
    (cmds cmds' : List String) (h : advanceCombo m msg c cmds = some (m', cmds')) :
    (∀ t, (m'.taskByName.get t).isSome = (m.taskByName.get t).isSome) ∧
    (∀ t, taskRunning m t = true → taskRunning m' t = true) ∧
    (m'.comboActive = m.comboActive ∨ m'.comboActive = m.comboActive.delete c ∨
      ∃ run run', m.comboActive.get c = some run ∧ run'.Def = run.Def ∧
        (run'.Index = run.Index ∨ run'.Index = run.Index + 1) ∧
        m'.comboActive = m.comboActive.set c run') := by
  unfold advanceCombo at h
  cases hg : m.comboActive.get c with
  | none =>
    rw [hg] at h
    simp only [Option.some.injEq, Prod.mk.injEq] at h
    rw [← h.1]
    exact ⟨fun _ => rfl, fun _ ht => ht, Or.inl rfl⟩
  | some run =>
    rw [hg] at h
    dsimp only at h
    by_cases h1 : run.Def.Mode = "parallel"
    · rw [if_pos h1] at h
      by_cases h2 : (if run.Pending > 0 then { run with Pending := run.Pending - 1 }
          else run).Pending ≤ 0
      · rw [if_pos h2] at h
        simp only [Option.some.injEq, Prod.mk.injEq] at h
        rw [← h.1]
        exact ⟨fun _ => rfl, fun _ ht => ht, Or.inr (Or.inl rfl)⟩
      · rw [if_neg h2] at h
        simp only [Option.some.injEq, Prod.mk.injEq] at h
        rw [← h.1]
        refine ⟨fun _ => rfl, fun _ ht => ht, Or.inr (Or.inr ⟨run, _, rfl, ?_, Or.inl ?_, rfl⟩)⟩
        · split_ifs <;> rfl
        · split_ifs <;> rfl
    · rw [if_neg h1] at h
      by_cases h2 : run.WaitingOn ≠ msg.TaskID
      · rw [if_pos h2] at h
        simp only [Option.some.injEq, Prod.mk.injEq] at h
        rw [← h.1]
        exact ⟨fun _ => rfl, fun _ ht => ht, Or.inl rfl⟩
      · rw [if_neg h2] at h
        by_cases h3 : msg.Err.isSome = true ∧ stopOnFail run.Def = true
        · rw [if_pos h3] at h
          simp only [Option.some.injEq, Prod.mk.injEq] at h
          rw [← h.1]
          exact ⟨fun _ => rfl, fun _ ht => ht, Or.inr (Or.inl rfl)⟩
        · rw [if_neg h3] at h
          by_cases h4 : run.Index + 1 ≥ (run.Def.Run.length : Int)
          · rw [if_pos h4] at h
            simp only [Option.some.injEq, Prod.mk.injEq] at h
            rw [← h.1]
            exact ⟨fun _ => rfl, fun _ ht => ht, Or.inr (Or.inl rfl)⟩
          · rw [if_neg h4] at h
            cases hs : startNextComboTask m { run with Index := run.Index + 1 } with
            | none => rw [hs] at h; simp at h
            | some r =>
              obtain ⟨m2, run2, cmd⟩ := r
              rw [hs] at h
              simp only [Option.some.injEq, Prod.mk.injEq] at h
              rw [← h.1]
              have heff := startNextComboTask_effect m m2 _ run2 cmd hs
              refine ⟨heff.2.1, heff.2.2.1,
                Or.inr (Or.inr ⟨run, run2, rfl, heff.2.2.2.1, Or.inr heff.2.2.2.2.1, ?_⟩)⟩
              simp only [heff.1]

/-- Handling one combo leaves the runs of the other combos alone. -/
theorem advanceCombo_frame (m m' : model) (msg : TaskFinishedMsg) (c name : String)
    (cmds cmds' : List String) (hne : name ≠ c)
    (h : advanceCombo m msg c cmds = some (m', cmds')) :
    m'.comboActive.get name = m.comboActive.get name := by
  rcases (advanceCombo_effect m m' msg c cmds cmds' h).2.2 with h1 | h1 | ⟨_, run', _, _, _, h1⟩
  · rw [h1]
  · rw [h1, GoMap.get_delete_of_ne _ _ _ hne]
  · rw [h1, GoMap.get_set_of_ne _ _ _ _ hne]

/-- A combo that is not in flight is skipped. -/
theorem advanceCombo_of_absent (m : model) (msg : TaskFinishedMsg) (name : String)
    (cmds : List String) (hg : m.comboActive.get name = none) :
    advanceCombo m msg name cmds = some (m, cmds) := by
  simp [advanceCombo, hg]

/-- A sequential combo that awaits another task is skipped. -/
theorem advanceCombo_of_stale (m : model) (msg : TaskFinishedMsg) (name : String)
    (cmds : List String) (run : comboRun) (hg : m.comboActive.get name = some run)
    (hseq : run.Def.Mode ≠ "parallel") (hwait : run.WaitingOn ≠ msg.TaskID) :
    advanceCombo m msg name cmds = some (m, cmds) := by
  simp [advanceCombo, hg, hseq, hwait]

/-- A sequential combo whose awaited task failed, with `stopOnFail`, is
deleted and nothing else changes. -/
theorem advanceCombo_of_abort (m : model) (msg : TaskFinishedMsg) (name : String)
    (cmds : List String) (run : comboRun) (hg : m.comboActive.get name = some run)
    (hseq : run.Def.Mode ≠ "parallel") (hwait : run.WaitingOn = msg.TaskID)
    (herr : msg.Err ≠ none) (hstop : stopOnFail run.Def = true) :
    advanceCombo m msg name cmds =
      some ({ m with comboActive := m.comboActive.delete name }, cmds) := by
  have he : msg.Err.isSome = true := Option.isSome_iff_ne_none.mpr herr
  simp [advanceCombo, hg, hseq, hwait, he, hstop]

/-- A sequential combo whose awaited task finished without aborting it, at its
last index, is deleted and nothing else changes. -/
theorem advanceCombo_of_done (m : model) (msg : TaskFinishedMsg) (name : String)
    (cmds : List String) (run : comboRun) (hg : m.comboActive.get name = some run)
    (hseq : run.Def.Mode ≠ "parallel") (hwait : run.WaitingOn = msg.TaskID)
    (hgo : ¬(msg.Err.isSome = true ∧ stopOnFail run.Def = true))
    (hlast : (run.Def.Run.length : Int) ≤ run.Index + 1) :
    advanceCombo m msg name cmds =
      some ({ m with comboActive := m.comboActive.delete name }, cmds) := by
  unfold advanceCombo
  rw [hg]
  dsimp only
  rw [if_neg hseq, if_neg (by simpa using hwait), if_neg hgo, if_pos (by simpa using hlast)]

/-- A sequential combo whose awaited task finished without aborting it, with a
known task `t` at the next index: the index grows by one, `t` is awaited, and
`t` is started unless it is already running. -/
theorem advanceCombo_of_next (m : model) (msg : TaskFinishedMsg) (name : String)
    (cmds : List String) (run : comboRun) (t : String) (task : Task)
    (hg : m.comboActive.get name = some run)
    (hseq : run.Def.Mode ≠ "parallel") (hwait : run.WaitingOn = msg.TaskID)
    (hgo : ¬(msg.Err.isSome = true ∧ stopOnFail run.Def = true))
    (h0 : 0 ≤ run.Index + 1) (hlt : run.Index + 1 < (run.Def.Run.length : Int))
    (ht : run.Def.Run.get? (run.Index + 1).toNat = some t)
    (hk : m.taskByName.get t = some task) :
    advanceCombo m msg name cmds =
      some (if task.Running = true then
          ({ m with comboActive :=
              m.comboActive.set name { run with Index := run.Index + 1, WaitingOn := t } }, cmds)
        else
          ({ m with
              taskByName := m.taskByName.set t { task with Running := true },
              started := m.started ++ [t],
              comboActive :=
                m.comboActive.set name { run with Index := run.Index + 1, WaitingOn := t } },
            cmds ++ [t])) := by
  unfold advanceCombo
  rw [hg]
  dsimp only
  rw [if_neg hseq, if_neg (by simpa using hwait), if_neg hgo,
    if_neg (by simpa using hlt),
    startNextComboTask_at m { run with Index := run.Index + 1 } t task h0 hlt ht hk]
  by_cases hr : task.Running = true
  · simp [hr]
  · simp [hr]

/-- On well-formed tables handling one combo does not panic and leaves
well-formed tables. -/
theorem advanceCombo_total (m : model) (msg : TaskFinishedMsg) (c : String)
    (cmds : List String) (hwf : ComboWF m) :
    ∃ (m' : model) (cmds' : List String),
      advanceCombo m msg c cmds = some (m', cmds') ∧ ComboWF m' := by
  have hsome : ∃ r, advanceCombo m msg c cmds = some r := by
    cases hg : m.comboActive.get c with
    | none => exact ⟨_, advanceCombo_of_absent m msg c cmds hg⟩
    | some run =>
      by_cases h1 : run.Def.Mode = "parallel"
      · unfold advanceCombo
        rw [hg]
        dsimp only
        rw [if_pos h1]
        split_ifs <;> exact ⟨_, rfl⟩
      · by_cases h2 : run.WaitingOn ≠ msg.TaskID
        · exact ⟨_, advanceCombo_of_stale m msg c cmds run hg h1 h2⟩
        · have h2' : run.WaitingOn = msg.TaskID := by simpa using h2
          by_cases h3 : msg.Err.isSome = true ∧ stopOnFail run.Def = true
          · exact ⟨_, advanceCombo_of_abort m msg c cmds run hg h1 h2'
              (Option.isSome_iff_ne_none.mp h3.1) h3.2⟩
          · by_cases h4 : (run.Def.Run.length : Int) ≤ run.Index + 1
            · exact ⟨_, advanceCombo_of_done m msg c cmds run hg h1 h2' h3 h4⟩
            · obtain ⟨h0, hknown⟩ := hwf c run hg
              have hlt : run.Index + 1 < (run.Def.Run.length : Int) := by omega
              have hnat : (run.Index + 1).toNat < run.Def.Run.length := by omega
              have ht : run.Def.Run.get? (run.Index + 1).toNat =
                  some (run.Def.Run.get ⟨_, hnat⟩) := List.get?_eq_get hnat
              obtain ⟨task, hk⟩ := Option.isSome_iff_exists.mp
                (hknown _ (List.get_mem _ _ _))
              exact ⟨_, advanceCombo_of_next m msg c cmds run _ task hg h1 h2' h3 (by omega) hlt
                ht hk⟩
  obtain ⟨⟨m', cmds'⟩, hr⟩ := hsome
  refine ⟨m', cmds', hr, ?_⟩
  obtain ⟨hknown, _, hact⟩ := advanceCombo_effect m m' msg c cmds cmds' hr
  intro name run hg
  have key : ∀ run0, m.comboActive.get name = some run0 → run.Def = run0.Def →
      0 ≤ run0.Index → run0.Index ≤ run.Index →
      0 ≤ run.Index ∧ ∀ t ∈ run.Def.Run, (m'.taskByName.get t).isSome = true := by
    intro run0 hg0 hdef h0 hle
    refine ⟨by omega, ?_⟩
    intro t ht
    rw [hknown t]
    rw [hdef] at ht
    exact (hwf name run0 hg0).2 t ht
  rcases hact with h1 | h1 | ⟨run0, run', hg0, hdef, hidx, h1⟩
  · rw [h1] at hg
    exact key run hg rfl (hwf name run hg).1 (le_refl _)
  · rw [h1] at hg
    by_cases hne : name = c
    · subst hne
      rw [GoMap.get_delete_self] at hg
      simp at hg
    · rw [GoMap.get_delete_of_ne _ _ _ hne] at hg
      exact key run hg rfl (hwf name run hg).1 (le_refl _)
  · rw [h1] at hg
    by_cases hne : name = c
    · subst hne
      rw [GoMap.get_set_self] at hg
      simp only [Option.some.injEq] at hg
      subst hg
      refine key run0 hg0 hdef (hwf name run0 hg0).1 ?_
      rcases hidx with h | h <;> omega
    · rw [GoMap.get_set_of_ne _ _ _ _ hne] at hg
      exact key run hg rfl (hwf name run hg).1 (le_refl _)

/-- On well-formed tables the loop of `advanceCombos` does not panic and
leaves well-formed tables. -/
theorem advanceLoop_total (msg : TaskFinishedMsg) (names : List String) (m : model)
    (cmds : List String) (hwf : ComboWF m) :
    ∃ (m' : model) (cmds' : List String),
      advanceLoop msg names m cmds = some (m', cmds') ∧ ComboWF m' := by
  induction names generalizing m cmds with
  | nil => exact ⟨m, cmds, rfl, hwf⟩
  | cons c rest ih =>
    obtain ⟨m1, cmds1, h1, hwf1⟩ := advanceCombo_total m msg c cmds hwf
    obtain ⟨m', cmds', h2, hwf'⟩ := ih m1 cmds1 hwf1
    exact ⟨m', cmds', by rw [advanceLoop, h1]; exact h2, hwf'⟩

/-- A property that handling any one combo of the list preserves is preserved by the loop. -/
theorem advanceLoop_invariant (msg : TaskFinishedMsg) (P : model → Prop) (names : List String)
    (hbody : ∀ (m m' : model) (c : String) (cmds cmds' : List String), c ∈ names → P m →
      advanceCombo m msg c cmds = some (m', cmds') → P m')
    (m m' : model) (cmds cmds' : List String) (hP : P m)
    (h : advanceLoop msg names m cmds = some (m', cmds')) : P m' := by
  induction names generalizing m cmds with
  | nil =>
    simp only [advanceLoop, Option.some.injEq, Prod.mk.injEq] at h
    rw [← h.1]
    exact hP
  | cons c rest ih =>
    rw [advanceLoop] at h
    cases hc : advanceCombo m msg c cmds with
    | none => rw [hc] at h; simp at h
    | some r =>
      obtain ⟨m1, cmds1⟩ := r
      rw [hc] at h
      exact ih (fun a b d e f hd => hbody a b d e f (List.mem_cons_of_mem _ hd)) m1 cmds1
        (hbody m m1 c cmds cmds1 (List.mem_cons_self _ _) hP hc) h

/-- The loop over `pre ++ post` is the loop over `pre` followed by the loop over `post`. -/
theorem advanceLoop_append (msg : TaskFinishedMsg) (pre post : List String) (m : model)
    (cmds : List String) :
    advanceLoop msg (pre ++ post) m cmds =
      (advanceLoop msg pre m cmds).bind (fun r => advanceLoop msg post r.1 r.2) := by
  induction pre generalizing m cmds with
  | nil => rfl
  | cons c rest ih =>
    rw [List.cons_append, advanceLoop, advanceLoop]
    cases advanceCombo m msg c cmds with
    | none => rfl
    | some r =>
      obtain ⟨m1, cmds1⟩ := r
      exact ih m1 cmds1

/-- Listing a combo under the tasks of a run keeps what was listed. -/
theorem indexRun_mono (name : String) (run : List String) (acc : GoMap (List String))
    (t n : String) (h : n ∈ (acc.get t).getD []) :
    n ∈ ((run.foldl (fun acc taskID => acc.set taskID ((acc.get taskID).getD [] ++ [name]))
      acc).get t).getD [] := by
  induction run generalizing acc with
  | nil => exact h
  | cons x rest ih =>
    rw [List.foldl_cons]
    apply ih
    by_cases hx : t = x
    · subst hx
      rw [GoMap.get_set_self]
      simp only [Option.getD_some, List.mem_append]
      exact Or.inl h
    · rw [GoMap.get_set_of_ne _ _ _ _ hx]
      exact h

/-- Listing a combo under the tasks of a run lists it under each of them. -/
theorem indexRun_adds (name : String) (run : List String) (acc : GoMap (List String))
    (t : String) (h : t ∈ run) :
    name ∈ ((run.foldl (fun acc taskID => acc.set taskID ((acc.get taskID).getD [] ++ [name]))
      acc).get t).getD [] := by
  induction run generalizing acc with
  | nil => simp at h
  | cons x rest ih =>
    rw [List.foldl_cons]
    by_cases hx : t = x
    · subst hx
      apply indexRun_mono
      rw [GoMap.get_set_self]
      simp
    · rcases List.mem_cons.mp h with h1 | h1
      · exact absurd h1 hx
      · exact ih _ h1

/-- Listing further combos keeps what was listed. -/
theorem indexCombos_mono (combos : List ComboDef) (acc : GoMap (List String)) (t n : String)
    (h : n ∈ (acc.get t).getD []) :
    n ∈ ((combos.foldl
      (fun acc cb =>
        cb.Run.foldl (fun acc taskID => acc.set taskID ((acc.get taskID).getD [] ++ [cb.Name]))
          acc) acc).get t).getD [] := by
  induction combos generalizing acc with
  | nil => exact h
  | cons d tl ih =>
    rw [List.foldl_cons]
    exact ih _ (indexRun_mono d.Name d.Run acc t n h)

/-- The loop of `newModel`, from any table, lists every combo under each task of its `Run`. -/
theorem indexCombos_mem_from (combos : List ComboDef) (acc : GoMap (List String))
    (cb : ComboDef) (t : String) (hcb : cb ∈ combos) (ht : t ∈ cb.Run) :
    cb.Name ∈ ((combos.foldl
      (fun acc cb =>
        cb.Run.foldl (fun acc taskID => acc.set taskID ((acc.get taskID).getD [] ++ [cb.Name]))
          acc) acc).get t).getD [] := by
  induction combos generalizing acc with
  | nil => simp at hcb
  | cons c rest ih =>
    rw [List.foldl_cons]
    rcases List.mem_cons.mp hcb with h1 | h1
    · subst h1
      exact indexCombos_mono rest _ t cb.Name (indexRun_adds cb.Name cb.Run acc t ht)
    · exact ih _ h1

/-- `newModel` lists every combo under each task of its `Run`. -/
theorem indexCombos_mem (combos : List ComboDef) (cb : ComboDef) (t : String)
    (hcb : cb ∈ combos) (ht : t ∈ cb.Run) :
    cb.Name ∈ ((indexCombos combos).get t).getD [] :=
  indexCombos_mem_from combos [] cb t hcb ht

/-- With a combo in flight `advanceCombos` runs its loop. -/
theorem advanceCombos_of_active (m : model) (msg : TaskFinishedMsg) (cmds : List String)
    (name : String) (run : comboRun) (hg : m.comboActive.get name = some run) :
    advanceCombos m msg cmds =
      advanceLoop msg ((m.combosByTask.get msg.TaskID).getD []) m cmds := by
  have hlen : m.comboActive.length ≠ 0 := by
    intro h0
    rw [List.length_eq_zero.mp h0] at hg
    simp [GoMap.get] at hg
  rw [advanceCombos, if_neg hlen]

/-- On well-formed tables `advanceCombos` does not panic. -/
theorem advanceCombos_isSome (m : model) (msg : TaskFinishedMsg) (cmds : List String)
    (hwf : ComboWF m) : (advanceCombos m msg cmds).isSome = true := by
  unfold advanceCombos
  split_ifs
  · rfl
  · obtain ⟨m', cmds', h, _⟩ := advanceLoop_total msg
      ((m.combosByTask.get msg.TaskID).getD []) m cmds hwf
    rw [h]
    rfl

/-- A combo that is not in flight stays out of `comboActive` through the loop. -/
theorem advanceLoop_absent (msg : TaskFinishedMsg) (names : List String) (name : String)
    (m m' : model) (cmds cmds' : List String) (hg : m.comboActive.get name = none)
    (h : advanceLoop msg names m cmds = some (m', cmds')) :
    m'.comboActive.get name = none := by
  refine advanceLoop_invariant msg (fun x => x.comboActive.get name = none) names ?_ m m' cmds
    cmds' hg h
  intro a b c d e _ ha hbody
  by_cases hc : name = c
  · subst hc
    rw [advanceCombo_of_absent a msg name d ha] at hbody
    simp only [Option.some.injEq, Prod.mk.injEq] at hbody
    rw [← hbody.1]
    exact ha
  · rw [advanceCombo_frame a b msg c name d e hc hbody]
    exact ha

/-- The loop removes a sequential combo that it visits when the awaited task
failed and `stopOnFail` holds. -/
theorem advanceLoop_abort (msg : TaskFinishedMsg) (names : List String) (name : String)
    (run : comboRun) (hin : name ∈ names) (hseq : run.Def.Mode ≠ "parallel")
    (hwait : run.WaitingOn = msg.TaskID) (herr : msg.Err ≠ none)
    (hstop : stopOnFail run.Def = true) (m m' : model) (cmds cmds' : List String)
    (hg : m.comboActive.get name = some run)
    (h : advanceLoop msg names m cmds = some (m', cmds')) :
    m'.comboActive.get name = none := by
  induction names generalizing m cmds with
  | nil => simp at hin
  | cons c rest ih =>
    rw [advanceLoop] at h
    cases hc : advanceCombo m msg c cmds with
    | none => rw [hc] at h; simp at h
    | some r =>
      obtain ⟨m1, cmds1⟩ := r
      rw [hc] at h
      by_cases hname : name = c
      · subst hname
        rw [advanceCombo_of_abort m msg name cmds run hg hseq hwait herr hstop] at hc
        simp only [Option.some.injEq, Prod.mk.injEq] at hc
        refine advanceLoop_absent msg rest name m1 m' cmds1 cmds' ?_ h
        rw [← hc.1]
        exact GoMap.get_delete_self _ _
      · have hin' : name ∈ rest := by
          rcases List.mem_cons.mp hin with h1 | h1
          · exact absurd h1 hname
          · exact h1
        refine ih hin' m1 cmds1 ?_ h
        rw [advanceCombo_frame m m1 msg c name cmds cmds1 hname hc]
        exact hg

/-- C18: `stopOnFail` is true when `StopOnFail` is unset and is the value set
otherwise. For a sequential combo in flight with `stopOnFail`, listed under
the task it awaits, a finished notification for that task carrying an error
removes the combo from `comboActive`: `advanceCombos` returns (on well-formed
tables) with the combo absent, and when the loop handles the combo it only
deletes it, starting no task and adding no command. -/
theorem advanceCombos_stopOnFail (m : model) (msg : TaskFinishedMsg) (cmds : List String)
    (name : String) (run : comboRun) (hg : m.comboActive.get name = some run)
    (hseq : run.Def.Mode ≠ "parallel") (hwait : run.WaitingOn = msg.TaskID)
    (herr : msg.Err ≠ none) (hstop : stopOnFail run.Def = true)
    (hin : name ∈ (m.combosByTask.get msg.TaskID).getD []) :
    (∀ cb : ComboDef, (cb.StopOnFail = none → stopOnFail cb = true) ∧
      (∀ b : Bool, cb.StopOnFail = some b → stopOnFail cb = b)) ∧
    (∀ (m' : model) (cmds' : List String), advanceCombos m msg cmds = some (m', cmds') →
      m'.comboActive.get name = none) ∧
    (ComboWF m → (advanceCombos m msg cmds).isSome = true) ∧
    (∀ (m0 : model) (cmds0 : List String), m0.comboActive.get name = some run →
      advanceCombo m0 msg name cmds0 =
        some ({ m0 with comboActive := m0.comboActive.delete name }, cmds0)) := by
  refine ⟨?_, ?_, advanceCombos_isSome m msg cmds, ?_⟩
  · intro cb
    constructor
    · intro h
      simp [stopOnFail, h]
    · intro b h
      simp [stopOnFail, h]
  · intro m' cmds' h
    rw [advanceCombos_of_active m msg cmds name run hg] at h
    exact advanceLoop_abort msg _ name run hin hseq hwait herr hstop m m' cmds cmds' hg h
  · intro m0 cmds0 hg0
    exact advanceCombo_of_abort m0 msg name cmds0 run hg0 hseq hwait herr hstop

/-- C19: a finished notification for a task that a sequential combo in flight
does not await leaves the combo's run as it is: whenever `advanceCombos`
returns, `comboActive` holds for the combo the same run (same `Index`, same
`WaitingOn`), and it does return on well-formed tables; and when the loop
handles the combo nothing at all changes, so no task is started for it. -/
theorem advanceCombos_ignores_other_task (m : model) (msg : TaskFinishedMsg)
    (cmds : List String) (name : String) (run : comboRun)
    (hg : m.comboActive.get name = some run) (hseq : run.Def.Mode ≠ "parallel")
    (hwait : run.WaitingOn ≠ msg.TaskID) :
    (∀ (m' : model) (cmds' : List String), advanceCombos m msg cmds = some (m', cmds') →
      m'.comboActive.get name = some run) ∧
    (ComboWF m → (advanceCombos m msg cmds).isSome = true) ∧
    (∀ (m0 : model) (cmds0 : List String), m0.comboActive.get name = some run →
      advanceCombo m0 msg name cmds0 = some (m0, cmds0)) := by
  refine ⟨?_, advanceCombos_isSome m msg cmds, ?_⟩
  · intro m' cmds' h
    rw [advanceCombos_of_active m msg cmds name run hg] at h
    refine advanceLoop_invariant msg (fun x => x.comboActive.get name = some run) _ ?_ m m' cmds
      cmds' hg h
    intro a b c d e _ ha hbody
    by_cases hc : name = c
    · subst hc
      rw [advanceCombo_of_stale a msg name d run ha hseq hwait] at hbody
      simp only [Option.some.injEq, Prod.mk.injEq] at hbody
      rw [← hbody.1]
      exact ha
    · rw [advanceCombo_frame a b msg c name d e hc hbody]
      exact ha
  · intro m0 cmds0 hg0
    exact advanceCombo_of_stale m0 msg name cmds0 run hg0 hseq hwait

/-- Witness of `advanceCombos_stopOnFail`: combo `X` awaits `a`, which fails. -/
theorem advanceCombos_stopOnFail_witness :
    advanceCombo (handleTaskFinished (sampleAfter ["X"]) failedA) failedA "X" [] =
      some ({ handleTaskFinished (sampleAfter ["X"]) failedA with
        comboActive := (handleTaskFinished (sampleAfter ["X"]) failedA).comboActive.delete "X" },
        []) :=
  (advanceCombos_stopOnFail (handleTaskFinished (sampleAfter ["X"]) failedA) failedA [] "X"
    ⟨⟨"X", "x", "sequential", ["a", "b"], none⟩, 0, "a", 0⟩ (by decide) (by decide) rfl
    (by decide) rfl (by decide)).2.2.2 (handleTaskFinished (sampleAfter ["X"]) failedA) []
    (by decide)

/-- Witness of `advanceCombos_ignores_other_task`: combo `X` awaits `a` while
the notification is for `b`, a task of its run. -/
theorem advanceCombos_ignores_other_task_witness :
    advanceCombo (sampleAfter ["X"]) ⟨"b", 0, none, false⟩ "X" [] =
      some (sampleAfter ["X"], []) :=
  (advanceCombos_ignores_other_task (sampleAfter ["X"]) ⟨"b", 0, none, false⟩ [] "X"
    ⟨⟨"X", "x", "sequential", ["a", "b"], none⟩, 0, "a", 0⟩ (by decide) (by decide)
    (by decide)).2.2 (sampleAfter ["X"]) [] (by decide)

/-- The loop over a list that names the combo once, for a sequential combo
whose awaited task finished without aborting it: the combo is removed at its
last index, and otherwise its index grows by one, the task at the new index
is awaited and that task is running afterwards. -/
theorem advanceLoop_once (msg : TaskFinishedMsg) (names : List String) (name : String)
    (run : comboRun) (hcount : names.count name = 1) (hseq : run.Def.Mode ≠ "parallel")
    (hwait : run.WaitingOn = msg.TaskID)
    (hgo : ¬(msg.Err.isSome = true ∧ stopOnFail run.Def = true))
    (m m' : model) (cmds cmds' : List String) (hwf : ComboWF m)
    (hg : m.comboActive.get name = some run)
    (h : advanceLoop msg names m cmds = some (m', cmds')) :
    ((run.Def.Run.length : Int) ≤ run.Index + 1 → m'.comboActive.get name = none) ∧
    (run.Index + 1 < (run.Def.Run.length : Int) →
      ∃ t, run.Def.Run.get? (run.Index + 1).toNat = some t ∧
        m'.comboActive.get name = some { run with Index := run.Index + 1, WaitingOn := t } ∧
        taskRunning m' t = true) := by
  induction names generalizing m cmds with
  | nil => simp at hcount
  | cons c rest ih =>
    rw [advanceLoop] at h
    cases hc : advanceCombo m msg c cmds with
    | none => rw [hc] at h; simp at h
    | some r =>
      obtain ⟨m1, cmds1⟩ := r
      rw [hc] at h
      by_cases hname : name = c
      · subst hname
        have hnot : name ∉ rest := by
          rw [List.count_cons_self] at hcount
          exact List.count_eq_zero.mp (by omega)
        constructor
        · intro hlast
          rw [advanceCombo_of_done m msg name cmds run hg hseq hwait hgo hlast] at hc
          simp only [Option.some.injEq, Prod.mk.injEq] at hc
          refine advanceLoop_absent msg rest name m1 m' cmds1 cmds' ?_ h
          rw [← hc.1]
          exact GoMap.get_delete_self _ _
        · intro hlt
          obtain ⟨h0, hknown⟩ := hwf name run hg
          have hnat : (run.Index + 1).toNat < run.Def.Run.length := by omega
          obtain ⟨t, ht⟩ : ∃ t, run.Def.Run.get? (run.Index + 1).toNat = some t :=
            ⟨_, List.get?_eq_get hnat⟩
          obtain ⟨task, hk⟩ := Option.isSome_iff_exists.mp (hknown t (List.get?_mem ht))
          rw [advanceCombo_of_next m msg name cmds run t task hg hseq hwait hgo (by omega) hlt ht
            hk] at hc
          simp only [Option.some.injEq] at hc
          have hm1 : m1.comboActive.get name =
              some { run with Index := run.Index + 1, WaitingOn := t } ∧
              taskRunning m1 t = true := by
            by_cases hr : task.Running = true
            · rw [if_pos hr] at hc
              simp only [Prod.mk.injEq] at hc
              rw [← hc.1]
              exact ⟨GoMap.get_set_self _ _ _, by simp [taskRunning, hk, hr]⟩
            · rw [if_neg hr] at hc
              simp only [Prod.mk.injEq] at hc
              rw [← hc.1]
              exact ⟨GoMap.get_set_self _ _ _, by simp [taskRunning, GoMap.get_set_self]⟩
          refine ⟨t, ht, ?_⟩
          refine advanceLoop_invariant msg
            (fun x => x.comboActive.get name =
              some { run with Index := run.Index + 1, WaitingOn := t } ∧
              taskRunning x t = true) rest ?_ m1 m' cmds1 cmds' hm1 h
          intro a b c' d e hc' ha hbody
          have hne : name ≠ c' := fun heq => hnot (heq ▸ hc')
          exact ⟨by rw [advanceCombo_frame a b msg c' name d e hne hbody]; exact ha.1,
            (advanceCombo_effect a b msg c' d e hbody).2.1 _ ha.2⟩
      · have hcount' : rest.count name = 1 := by
          rwa [List.count_cons_of_ne hname] at hcount
        obtain ⟨m1', cmds1', hc1, hwf1⟩ := advanceCombo_total m msg c cmds hwf
        rw [hc] at hc1
        simp only [Option.some.injEq, Prod.mk.injEq] at hc1
        rw [← hc1.1] at hwf1
        refine ih hcount' m1 cmds1 hwf1 ?_ h
        rw [advanceCombo_frame m m1 msg c name cmds cmds1 hname hc]
        exact hg

/-- C20 (amended): on well-formed tables, for a sequential combo in flight that
is listed once under the task it awaits, one finished notification for that
task that does not abort the combo (no error, or `stopOnFail` false) makes
`advanceCombos` return with the combo's index advanced by exactly one: past
the end of `Run` the combo is removed from `comboActive`; otherwise the task at
the new index is recorded as awaited and is running afterwards. When the loop
handles the combo, that task is started (flag set, name recorded, command
added) unless it is already running, in which case nothing is started. -/
theorem advanceCombos_advances (m : model) (msg : TaskFinishedMsg) (cmds : List String)
    (name : String) (run : comboRun) (hwf : ComboWF m)
    (hg : m.comboActive.get name = some run) (hseq : run.Def.Mode ≠ "parallel")
    (hwait : run.WaitingOn = msg.TaskID)
    (hgo : msg.Err = none ∨ stopOnFail run.Def = false)
    (honce : ((m.combosByTask.get msg.TaskID).getD []).count name = 1) :
    (∃ (m' : model) (cmds' : List String),
      advanceCombos m msg cmds = some (m', cmds') ∧
      ((run.Def.Run.length : Int) ≤ run.Index + 1 → m'.comboActive.get name = none) ∧
      (run.Index + 1 < (run.Def.Run.length : Int) →
        ∃ t, run.Def.Run.get? (run.Index + 1).toNat = some t ∧
          m'.comboActive.get name = some { run with Index := run.Index + 1, WaitingOn := t } ∧
          taskRunning m' t = true)) ∧
    (∀ (m0 : model) (cmds0 : List String) (t : String) (task : Task),
      m0.comboActive.get name = some run → 0 ≤ run.Index + 1 →
      run.Index + 1 < (run.Def.Run.length : Int) →
      run.Def.Run.get? (run.Index + 1).toNat = some t → m0.taskByName.get t = some task →
      advanceCombo m0 msg name cmds0 =
        some (if task.Running = true then
            ({ m0 with comboActive :=
                m0.comboActive.set name { run with Index := run.Index + 1, WaitingOn := t } },
              cmds0)
          else
            ({ m0 with
                taskByName := m0.taskByName.set t { task with Running := true },
                started := m0.started ++ [t],
                comboActive :=
                  m0.comboActive.set name { run with Index := run.Index + 1, WaitingOn := t } },
              cmds0 ++ [t]))) := by
  have hgo' : ¬(msg.Err.isSome = true ∧ stopOnFail run.Def = true) := by
    rintro ⟨h1, h2⟩
    rcases hgo with h | h
    · rw [h] at h1
      simp at h1
    · rw [h] at h2
      simp at h2
  constructor
  · obtain ⟨m', cmds', hloop, _⟩ := advanceLoop_total msg
      ((m.combosByTask.get msg.TaskID).getD []) m cmds hwf
    refine ⟨m', cmds', ?_, ?_⟩
    · rw [advanceCombos_of_active m msg cmds name run hg]
      exact hloop
    · exact advanceLoop_once msg _ name run honce hseq hwait hgo' m m' cmds cmds' hwf hg hloop
  · intro m0 cmds0 t task hg0 h0 hlt ht hk
    exact advanceCombo_of_next m0 msg name cmds0 run t task hg0 hseq hwait hgo' h0 hlt ht hk

/-- A value found in a map is one of its pairs. -/
theorem GoMap.mem_of_get {α : Type} (m : GoMap α) (k : String) (v : α)
    (h : m.get k = some v) : (k, v) ∈ m := by
  induction m with
  | nil => simp [GoMap.get] at h
  | cons p rest ih =>
    obtain ⟨k0, v0⟩ := p
    by_cases hk : k0 = k
    · simp only [GoMap.get, hk, if_true, Option.some.injEq] at h
      rw [hk, h]
      exact List.mem_cons_self _ _
    · simp only [GoMap.get, hk, if_false] at h
      exact List.mem_cons_of_mem _ (ih h)

/-- Tables that pass the check are well-formed. -/
theorem comboWF_of_check (m : model) (h : comboWFb m = true) : ComboWF m := by
  intro name run hg
  have hmem := GoMap.mem_of_get _ _ _ hg
  have hp := List.all_eq_true.mp h _ hmem
  simp only [Bool.and_eq_true, decide_eq_true_eq, List.all_eq_true] at hp
  exact ⟨hp.1, hp.2⟩

/-- Witness of `advanceCombos_advances`: combo `X` awaits `a`, which succeeds;
the index moves to 1 and `b` is awaited and running. -/
theorem advanceCombos_advances_witness :
    ∃ (m' : model) (cmds' : List String),
      advanceCombos (handleTaskFinished (sampleAfter ["X"]) finishedA) finishedA [] =
        some (m', cmds') ∧
      ((([ "a", "b"] : List String).length : Int) ≤ (0 : Int) + 1 →
        m'.comboActive.get "X" = none) ∧
      ((0 : Int) + 1 < (([ "a", "b"] : List String).length : Int) →
        ∃ t, (["a", "b"] : List String).get? ((0 : Int) + 1).toNat = some t ∧
          m'.comboActive.get "X" =
            some ⟨⟨"X", "x", "sequential", ["a", "b"], none⟩, 0 + 1, t, 0⟩ ∧
          taskRunning m' t = true) :=
  (advanceCombos_advances (handleTaskFinished (sampleAfter ["X"]) finishedA) finishedA [] "X"
    ⟨⟨"X", "x", "sequential", ["a", "b"], none⟩, 0, "a", 0⟩
    (comboWF_of_check _ (by decide)) (by decide) (by decide) rfl (Or.inl rfl) (by decide)).1

/-- Counterexample to C20 as stated. First, with `X` (`a` then `b`) and the
parallel combo `Y` (`b` and `c`) both in flight, `a` finishes: `X` moves to
index 1 and awaits `b`, but `b` is already running, so the notification starts
no task and adds no command. Second, with `D` (`a`, `a`, `b`) in flight, one
notification for `a` moves the index from 0 to 2: `D` is listed twice under
`a`, the loop handles it twice, and `b` is started while the second `a` runs. -/
theorem advanceCombos_advances_counterexample :
    (advanceCombos (handleTaskFinished (sampleAfter ["X", "Y"]) finishedA) finishedA []).map
        (fun r => ((r.1.comboActive.get "X").map (fun run => (run.Index, run.WaitingOn)),
          (sampleAfter ["X", "Y"]).started, r.1.started, r.2)) =
      some (some (1, "b"), ["a", "b", "c"], ["a", "b", "c"], []) ∧
    ((sampleAfter ["D"]).comboActive.get "D").map (fun run => (run.Index, run.WaitingOn)) =
      some (0, "a") ∧
    (advanceCombos (handleTaskFinished (sampleAfter ["D"]) finishedA) finishedA []).map
        (fun r => ((r.1.comboActive.get "D").map (fun run => (run.Index, run.WaitingOn)),
          r.1.started, r.2)) =
      some (some (2, "b"), ["a", "a", "b"], ["a", "b"]) := by
  decide

/-! ### The direct path of `runTaskSteps` -/

/-- When `taskSteps` says the task is not a step list and returns a step, that
step is the only `Cmd` entry, the mode is `StepModeNone` and the step
classifies as a command. -/
theorem taskSteps_not_multi (taskName : String) (tdef : TaskDef) (resolve : TaskResolver)
    (mode : StepMode) (steps : StepList)
    (h : taskSteps taskName tdef resolve = (mode, steps, false)) (hne : steps ≠ []) :
    ∃ step0, steps = [step0] ∧ tdef.Cmd = [step0] ∧ mode = StepModeNone ∧
      (resolveStepKind step0 resolve).1 = StepCommand := by
  unfold taskSteps at h
  by_cases h1 : tdef.Parallel.length > 0
  · rw [if_pos h1] at h
    simp at h
  · rw [if_neg h1] at h
    by_cases h2 : tdef.Seq.length > 0
    · rw [if_pos h2] at h
      simp at h
    · rw [if_neg h2] at h
      cases hc : tdef.Cmd with
      | nil =>
        rw [hc] at h
        simp only [List.length_nil, if_true, Prod.mk.injEq] at h
        exact absurd h.2.1.symm hne
      | cons step0 tl =>
        cases tl with
        | nil =>
          rw [hc] at h
          by_cases hk : (resolveStepKind step0 resolve).1 = StepTask
          · simp [hk] at h
          · simp only [List.length_singleton, one_ne_zero, if_false, gt_iff_lt, lt_self_iff_false,
              List.head?_cons, hk, if_true, Prod.mk.injEq] at h
            refine ⟨step0, h.2.1.symm, rfl, h.1.symm, ?_⟩
            rcases resolveStepKind_fst_cases step0 resolve with hcmd | ht
            · exact hcmd
            · exact absurd ht hk
        | cons b tl2 =>
          rw [hc] at h
          simp at h

/-- When `taskSteps` says the task is a step list, the mode is sequential or parallel. -/
theorem taskSteps_multi_mode (taskName : String) (tdef : TaskDef) (resolve : TaskResolver)
    (mode : StepMode) (steps : StepList)
    (h : taskSteps taskName tdef resolve = (mode, steps, true)) :
    mode = StepModeSeq ∨ mode = StepModeParallel := by
  unfold taskSteps at h
  split_ifs at h
  · exact Or.inr (by simp only [Prod.mk.injEq] at h; exact h.1.symm)
  · exact Or.inl (by simp only [Prod.mk.injEq] at h; exact h.1.symm)
  · simp at h
  · exact Or.inl (by simp only [Prod.mk.injEq] at h; exact h.1.symm)
  · cases hd : tdef.Cmd.head? with
    | none => rw [hd] at h; simp at h
    | some s =>
      rw [hd] at h
      dsimp only at h
      split_ifs at h
      · exact Or.inl (by simp only [Prod.mk.injEq] at h; exact h.1.symm)
      · simp at h
  · simp at h

/-- What `runStep` does with a reference to a known task that is not on the
stack: it sends `StepStarted`, invokes the task with its name added to the
stack and, when the invocation returns, sends `StepFinished` with its outcome. -/
theorem runStep_task_ref {σ : Type} (E : Env σ) (invoke : Invoke σ) (w : World σ)
    (taskName : String) (step : Step) (mode : StepMode) (index : Int) (shell : String)
    (init : CommandList) (resolve : String → TaskDef × Bool) (stack : List String)
    (child : String) (href : IsTaskRef resolve step child) (hoff : child ∉ stack) :
    runStep E invoke w taskName step mode index shell init resolve stack =
      (invoke (w.send (.StepStartedMsg (stepID taskName mode index))) child (resolve child).1
        (child :: stack)).map
        (fun r => ((r.1.canceled E).1.send
          (.StepFinishedMsg (stepID taskName mode index) r.2.1 r.2.2 (r.1.canceled E).2),
          r.2.1, r.2.2)) := by
  cases hinv : invoke (w.send (.StepStartedMsg (stepID taskName mode index))) child
      (resolve child).1 (child :: stack) with
  | none =>
    obtain ⟨hk, hv, hne, hknown⟩ := href
    have hsnd := resolveStepKind_snd step (some resolve)
    simp only [runStep, hk, hsnd, hv, hne, hknown, hoff, cloneStack, hinv]
    simp
  | some r =>
    obtain ⟨w2, c, e⟩ := r
    rw [runStep_of_off_stack E invoke w w2 taskName step mode index shell init resolve stack child
      c e href hoff hinv]
    rfl

/-- C29: with a registry that is a function of the name, the task-reference
branch of the direct path of `runTaskSteps` is never taken. Whenever
`taskSteps` returns `isMulti = false` with a step, that step is the sole `Cmd`
entry and classifies as a command, and `runTaskSteps` is the direct run of
that command whatever the recursive call is. Whenever it returns
`isMulti = true` the mode tag is `seq` or `par`, `runTaskSteps` is
`runParallel` or `runSequential` with that mode, and a task-reference step run
by `runStep` in that mode makes its invocation right after `StepStarted` with
the identifier `taskName::seq::index` or `taskName::par::index`. -/
theorem runTaskSteps_task_branch_unreachable {σ : Type} (E : Env σ) (taskName : String)
    (tdef : TaskDef) (resolve : String → TaskDef × Bool) (mode : StepMode) (steps : StepList)
    (multi : Bool) (hts : taskSteps taskName tdef (some resolve) = (mode, steps, multi)) :
    (multi = false → steps ≠ [] →
      ∃ step0, steps = [step0] ∧ (resolveStepKind step0 (some resolve)).1 = StepCommand ∧
        ∀ (invoke : Invoke σ) (w : World σ) (shell : String) (init : CommandList)
          (stack : List String),
          runTaskSteps E invoke w taskName tdef shell init resolve stack =
            some (if (runSingle E w step0.Value shell init taskName).2.2.isSome then
                runSingle E w step0.Value shell init taskName
              else ((runSingle E w step0.Value shell init taskName).1, 0, none))) ∧
    (multi = true →
      (stepModeName mode = "seq" ∨ stepModeName mode = "par") ∧
      (∀ (invoke : Invoke σ) (w : World σ) (shell : String) (init : CommandList)
          (stack : List String),
          runTaskSteps E invoke w taskName tdef shell init resolve stack =
            if mode = StepModeParallel then
              runParallel E invoke w taskName steps mode shell init resolve stack
            else runSequential E invoke w taskName steps mode shell init resolve stack) ∧
      ∀ (invoke : Invoke σ) (w : World σ) (step : Step) (child : String) (index : Int)
          (shell : String) (init : CommandList) (stack : List String),
          IsTaskRef resolve step child → child ∉ stack →
          ∃ tag, (tag = "seq" ∨ tag = "par") ∧
            runStep E invoke w taskName step mode index shell init resolve stack =
              (invoke (w.send (.StepStartedMsg (taskName ++ "::" ++ tag ++ "::" ++ toString index)))
                child (resolve child).1 (child :: stack)).map
                (fun r => ((r.1.canceled E).1.send
                  (.StepFinishedMsg (taskName ++ "::" ++ tag ++ "::" ++ toString index) r.2.1 r.2.2
                    (r.1.canceled E).2),
                  r.2.1, r.2.2))) := by
  constructor
  · intro hm hne
    subst hm
    obtain ⟨step0, hs, _, _, hk⟩ := taskSteps_not_multi taskName tdef (some resolve) mode steps hts hne
    refine ⟨step0, hs, hk, ?_⟩
    intro invoke w shell init stack
    have hk' : ¬(resolveStepKind step0 (some resolve)).1 = StepTask := by
      rw [hk]; decide
    subst hs
    simp only [runTaskSteps, hts, hk']
    generalize runSingle E w step0.Value shell init taskName = rs
    obtain ⟨w1, c, e⟩ := rs
    cases e <;> simp
  · intro hm
    subst hm
    have hmode := taskSteps_multi_mode taskName tdef (some resolve) mode steps hts
    have htag : stepModeName mode = "seq" ∨ stepModeName mode = "par" := by
      rcases hmode with h | h
      · exact Or.inl (by rw [h]; decide)
      · exact Or.inr (by rw [h]; decide)
    refine ⟨htag, ?_, ?_⟩
    · intro invoke w shell init stack
      simp only [runTaskSteps, hts]
      simp
    · intro invoke w step child index shell init stack href hoff
      refine ⟨stepModeName mode, htag, ?_⟩
      exact runStep_task_ref E invoke w taskName step mode index shell init resolve stack child
        href hoff

/-- Witness of `runTaskSteps_task_branch_unreachable`: task `A` of the sample
registry has the single entry `B`, a known task, so it is a sequential list of
one step and its reference gets the identifier `A::seq::0`. -/
theorem runTaskSteps_task_branch_unreachable_witness :
    (stepModeName StepModeSeq = "seq" ∨ stepModeName StepModeSeq = "par") ∧
      (∀ (invoke : Invoke Nat) (w : World Nat) (shell : String) (init : CommandList)
          (stack : List String),
          runTaskSteps sampleEnv invoke w "A" (sampleRegistry "A").1 shell init sampleRegistry
              stack =
            if StepModeSeq = StepModeParallel then
              runParallel sampleEnv invoke w "A" [⟨"B", "", StepAuto⟩] StepModeSeq shell init
                sampleRegistry stack
            else runSequential sampleEnv invoke w "A" [⟨"B", "", StepAuto⟩] StepModeSeq shell init
              sampleRegistry stack) ∧
      ∀ (invoke : Invoke Nat) (w : World Nat) (step : Step) (child : String) (index : Int)
          (shell : String) (init : CommandList) (stack : List String),
          IsTaskRef sampleRegistry step child → child ∉ stack →
          ∃ tag, (tag = "seq" ∨ tag = "par") ∧
            runStep sampleEnv invoke w "A" step StepModeSeq index shell init sampleRegistry stack =
              (invoke (w.send (.StepStartedMsg ("A" ++ "::" ++ tag ++ "::" ++ toString index)))
                child (sampleRegistry child).1 (child :: stack)).map
                (fun r => ((r.1.canceled sampleEnv).1.send
                  (.StepFinishedMsg ("A" ++ "::" ++ tag ++ "::" ++ toString index) r.2.1 r.2.2
                    (r.1.canceled sampleEnv).2),
                  r.2.1, r.2.2)) :=
  (runTaskSteps_task_branch_unreachable sampleEnv "A" (sampleRegistry "A").1 sampleRegistry
    StepModeSeq [⟨"B", "", StepAuto⟩] true (by decide)).2 rfl

/-! ## Validation of a configuration -/

/-- When the loop over the tasks runs to its end, every task it went through
has exactly one non-empty step specification. -/
theorem validateTasks_exactlyOne (tasks : List TaskDef) (taskNames : List String)
    (keyUsed : GoMap (String × String)) (r : List String × GoMap (String × String))
    (h : validateTasks tasks taskNames keyUsed = .ok r) : ∀ t ∈ tasks, ExactlyOneSpec t := by
  induction tasks generalizing taskNames keyUsed with
  | nil => intro t ht; simp at ht
  | cons t rest ih =>
    rw [validateTasks] at h
    split_ifs at h with h1 h2 h3 h4 h5 h6 h7
    · have hone : ExactlyOneSpec t := by
        simp only [List.length_eq_zero, not_and, gt_iff_lt, List.length_pos, not_or] at h2 h3
        unfold ExactlyOneSpec
        by_cases hc : t.Cmd = []
        · by_cases hp : t.Parallel = []
          · exact Or.inr (Or.inr ⟨hc, hp, h2 hc hp⟩)
          · by_cases hs : t.Seq = []
            · exact Or.inr (Or.inl ⟨hc, hp, hs⟩)
            · exact absurd hs (h3.2.2 hp)
        · by_cases hp : t.Parallel = []
          · by_cases hs : t.Seq = []
            · exact Or.inl ⟨hc, hp, hs⟩
            · exact absurd hs (h3.2.1 hc)
          · exact absurd hp (h3.1 hc)
      cases hk : keyUsed.get t.Key with
      | some prev => rw [hk] at h; simp at h
      | none =>
        rw [hk] at h
        intro t' ht'
        rcases List.mem_cons.mp ht' with e | e
        · rw [e]; exact hone
        · exact ih _ _ h t' e
    · have hone : ExactlyOneSpec t := by
        simp only [List.length_eq_zero, not_and, gt_iff_lt, List.length_pos, not_or] at h2 h3
        unfold ExactlyOneSpec
        by_cases hc : t.Cmd = []
        · by_cases hp : t.Parallel = []
          · exact Or.inr (Or.inr ⟨hc, hp, h2 hc hp⟩)
          · by_cases hs : t.Seq = []
            · exact Or.inr (Or.inl ⟨hc, hp, hs⟩)
            · exact absurd hs (h3.2.2 hp)
        · by_cases hp : t.Parallel = []
          · by_cases hs : t.Seq = []
            · exact Or.inl ⟨hc, hp, hs⟩
            · exact absurd hs (h3.2.1 hc)
          · exact absurd hp (h3.1 hc)
      intro t' ht'
      rcases List.mem_cons.mp ht' with e | e
      · rw [e]; exact hone
      · exact ih _ _ h t' e

/-- An accepted configuration passed the loop over its tasks. -/
theorem validate_tasks_ok (c : Config) (h : c.validate = none) :
    ∃ r, validateTasks c.Tasks [] [] = .ok r := by
  unfold Config.validate at h
  split_ifs at h
  cases hv : validateTasks c.Tasks [] [] with
  | error err => rw [hv] at h; simp at h
  | ok r => exact ⟨r, rfl⟩

/-- C24: `Config.validate` accepts a configuration (returns a nil error) only
if every task has exactly one non-empty step specification among `cmd`,
`parallel` and `seq`. So a configuration with a task whose three lists are
empty, or with a task that fills two or more of them, is rejected with an
error; and configurations whose tasks fill exactly one list are accepted. -/
theorem validate_exactly_one_spec (c : Config) :
    (c.validate = none → ∀ t ∈ c.Tasks, ExactlyOneSpec t) ∧
    (∀ t ∈ c.Tasks, t.Cmd = [] ∧ t.Parallel = [] ∧ t.Seq = [] → ∃ err, c.validate = some err) ∧
    (∀ t ∈ c.Tasks,
      (t.Cmd ≠ [] ∧ t.Parallel ≠ []) ∨ (t.Cmd ≠ [] ∧ t.Seq ≠ []) ∨ (t.Seq ≠ [] ∧ t.Parallel ≠ []) →
      ∃ err, c.validate = some err) ∧
    Config.validate ⟨"", 0, "", "", [],
      [⟨"a", "a", false, [⟨"echo", "", StepCommand⟩], [], []⟩,
        ⟨"b", "", false, [], [⟨"echo", "", StepAuto⟩, ⟨"a", "", StepTask⟩], []⟩,
        ⟨"c", "", false, [], [], [⟨"a", "", StepTask⟩]⟩], []⟩ = none := by
  have main : c.validate = none → ∀ t ∈ c.Tasks, ExactlyOneSpec t := by
    intro h
    obtain ⟨r, hr⟩ := validate_tasks_ok c h
    exact validateTasks_exactlyOne c.Tasks [] [] r hr
  refine ⟨main, ?_, ?_, by decide⟩
  · intro t ht hall
    cases hv : c.validate with
    | some err => exact ⟨err, rfl⟩
    | none =>
      exfalso
      rcases main hv t ht with h | h | h
      · exact h.1 hall.1
      · exact h.2.1 hall.2.1
      · exact h.2.2 hall.2.2
  · intro t ht htwo
    cases hv : c.validate with
    | some err => exact ⟨err, rfl⟩
    | none =>
      exfalso
      rcases main hv t ht with h | h | h
      · rcases htwo with k | k | k
        · exact k.2 h.2.1
        · exact k.2 h.2.2
        · exact k.1 h.2.2
      · rcases htwo with k | k | k
        · exact k.1 h.1
        · exact k.1 h.1
        · exact k.1 h.2.2
      · rcases htwo with k | k | k
        · exact k.1 h.1
        · exact k.1 h.1
        · exact k.2 h.2.1

/-- Witness of `validate_exactly_one_spec`: the cases `missing cmd`,
`both cmd and parallel`, `both cmd and seq` and `both seq and parallel` of the
repository's `TestConfigValidateErrors` are rejected, each with the error of
the test it names. -/
theorem validate_exactly_one_spec_witness :
    Config.validate ⟨"", 0, "", "", [], [⟨"a", "a", false, [], [], []⟩], []⟩ =
        some (.Errorf "task %q is missing cmd" ["a"]) ∧
    Config.validate ⟨"", 0, "", "", [],
        [⟨"a", "a", false, [⟨"echo", "", StepCommand⟩], [⟨"echo", "", StepCommand⟩], []⟩], []⟩ =
        some (.Errorf "task %q cannot define both cmd and parallel" ["a"]) ∧
    Config.validate ⟨"", 0, "", "", [],
        [⟨"a", "a", false, [⟨"echo", "", StepCommand⟩], [], [⟨"b", "", StepAuto⟩]⟩], []⟩ =
        some (.Errorf "task %q cannot define both cmd and parallel" ["a"]) ∧
    Config.validate ⟨"", 0, "", "", [],
        [⟨"a", "a", false, [], [⟨"echo", "", StepCommand⟩], [⟨"b", "", StepAuto⟩]⟩], []⟩ =
        some (.Errorf "task %q cannot define both cmd and parallel" ["a"]) ∧
    ∃ err, Config.validate ⟨"", 0, "", "", [],
        [⟨"ok", "", false, [⟨"echo", "", StepCommand⟩], [], []⟩,
          ⟨"a", "a", false, [⟨"echo", "", StepCommand⟩], [], [⟨"b", "", StepAuto⟩]⟩], []⟩ =
        some err :=
  ⟨by decide, by decide, by decide, by decide,
    (validate_exactly_one_spec ⟨"", 0, "", "", [],
        [⟨"ok", "", false, [⟨"echo", "", StepCommand⟩], [], []⟩,
          ⟨"a", "a", false, [⟨"echo", "", StepCommand⟩], [], [⟨"b", "", StepAuto⟩]⟩], []⟩).2.2.1
      ⟨"a", "a", false, [⟨"echo", "", StepCommand⟩], [], [⟨"b", "", StepAuto⟩]⟩
      (by decide) (Or.inr (Or.inl ⟨by decide, by decide⟩))⟩

/-! ## Parsing a step -/

/-- The last element of a list that starts with `x`. -/
theorem getLast?_getD_cons (x d : String) (l : List String) :
    ((x :: l).getLast?).getD d = (l.getLast?).getD x := by
  cases l with
  | nil => rfl
  | cons y tl =>
    rw [List.getLast?_cons_cons]
    cases h : (y :: tl).getLast? with
    | none => simp at h
    | some v => rfl

/-- The loop of `parseStepNode` over the entries of a mapping whose `name`,
`cmd` and `task` values are scalars: each variable ends as the trimmed text of
the last entry that sets it, `cmdSet` and `taskSet` tell whether an entry did. -/
theorem mappingLoop_of_scalar (pairs : List (Node × Node)) (vars : stepVars)
    (hs : ScalarValues pairs) :
    mappingLoop (pairsContent pairs) vars =
      some (.ok ⟨((valuesOf "name" pairs).getLast?).getD vars.name,
        ((valuesOf "cmd" pairs).getLast?).getD vars.cmd,
        ((valuesOf "task" pairs).getLast?).getD vars.task,
        vars.cmdSet || !(valuesOf "cmd" pairs).isEmpty,
        vars.taskSet || !(valuesOf "task" pairs).isEmpty⟩) := by
  induction pairs generalizing vars with
  | nil => simp [pairsContent, mappingLoop, valuesOf]
  | cons p rest ih =>
    obtain ⟨key, val⟩ := p
    have hrest : ScalarValues rest := fun q hq hk => hs q (List.mem_cons_of_mem _ hq) hk
    have hp := hs (key, val) (List.mem_cons_self _ _)
    simp only [pairsContent, mappingLoop]
    by_cases h1 : key.Kind = ScalarNode
    · rw [if_neg (not_not.mpr h1)]
      by_cases hn : TrimSpace key.Value = "name"
      · have hv : val.Kind = ScalarNode := hp (Or.inl (by simp [setsKey, h1, hn]))
        rw [if_pos hn, if_neg (not_not.mpr hv), ih _ hrest]
        simp [valuesOf, List.filter_cons, setsKey, h1, hn, getLast?_getD_cons]
      · rw [if_neg hn]
        by_cases hc : TrimSpace key.Value = "cmd"
        · have hv : val.Kind = ScalarNode := hp (Or.inr (Or.inl (by simp [setsKey, h1, hc])))
          rw [if_pos hc, if_neg (not_not.mpr hv), ih _ hrest]
          simp [valuesOf, List.filter_cons, setsKey, h1, hc, getLast?_getD_cons]
        · rw [if_neg hc]
          by_cases ht : TrimSpace key.Value = "task"
          · have hv : val.Kind = ScalarNode := hp (Or.inr (Or.inr (by simp [setsKey, h1, ht])))
            rw [if_pos ht, if_neg (not_not.mpr hv), ih _ hrest]
            simp [valuesOf, List.filter_cons, setsKey, h1, ht, getLast?_getD_cons]
          · rw [if_neg ht, ih _ hrest]
            simp [valuesOf, List.filter_cons, setsKey, h1, hn, hc, ht]
    · rw [if_pos h1, ih _ hrest]
      simp [valuesOf, List.filter_cons, setsKey, h1]

/-- The loop of `parseStepNode` over the entries of a mapping one of whose
`name`, `cmd` or `task` values is not a scalar returns an error. -/
theorem mappingLoop_of_not_scalar (pairs : List (Node × Node)) (vars : stepVars)
    (hs : ¬ScalarValues pairs) : ∃ err, mappingLoop (pairsContent pairs) vars = some (.error err) := by
  induction pairs generalizing vars with
  | nil => exact absurd (fun q hq => by simp at hq) hs
  | cons p rest ih =>
    obtain ⟨key, val⟩ := p
    by_cases hp : (setsKey "name" (key, val) = true ∨ setsKey "cmd" (key, val) = true ∨
        setsKey "task" (key, val) = true) → val.Kind = ScalarNode
    · have hrest : ¬ScalarValues rest := by
        intro h
        apply hs
        intro q hq hk
        rcases List.mem_cons.mp hq with e | e
        · rw [e] at hk ⊢
          exact hp hk
        · exact h q e hk
      simp only [pairsContent, mappingLoop]
      by_cases h1 : key.Kind = ScalarNode
      · rw [if_neg (not_not.mpr h1)]
        by_cases hn : TrimSpace key.Value = "name"
        · have hv : val.Kind = ScalarNode := hp (Or.inl (by simp [setsKey, h1, hn]))
          rw [if_pos hn, if_neg (not_not.mpr hv)]
          exact ih _ hrest
        · rw [if_neg hn]
          by_cases hc : TrimSpace key.Value = "cmd"
          · have hv : val.Kind = ScalarNode := hp (Or.inr (Or.inl (by simp [setsKey, h1, hc])))
            rw [if_pos hc, if_neg (not_not.mpr hv)]
            exact ih _ hrest
          · rw [if_neg hc]
            by_cases ht : TrimSpace key.Value = "task"
            · have hv : val.Kind = ScalarNode :=
                hp (Or.inr (Or.inr (by simp [setsKey, h1, ht])))
              rw [if_pos ht, if_neg (not_not.mpr hv)]
              exact ih _ hrest
            · rw [if_neg ht]
              exact ih _ hrest
      · rw [if_pos h1]
        exact ih _ hrest
    · simp only [not_forall, exists_prop] at hp
      obtain ⟨hk, hv⟩ := hp
      have h1 : key.Kind = ScalarNode := by
        rcases hk with h | h | h <;> simp [setsKey] at h <;> exact h.1
      simp only [pairsContent, mappingLoop]
      rw [if_neg (not_not.mpr h1)]
      by_cases hn : TrimSpace key.Value = "name"
      · rw [if_pos hn, if_pos hv]
        exact ⟨_, rfl⟩
      · rw [if_neg hn]
        by_cases hc : TrimSpace key.Value = "cmd"
        · rw [if_pos hc, if_pos hv]
          exact ⟨_, rfl⟩
        · rw [if_neg hc]
          by_cases ht : TrimSpace key.Value = "task"
          · rw [if_pos ht, if_pos hv]
            exact ⟨_, rfl⟩
          · exfalso
            rcases hk with h | h | h <;> simp [setsKey] at h
            · exact hn h.2
            · exact hc h.2
            · exact ht h.2

/-- C25 (amended): `parseStepNode` maps a scalar node to a step of kind `Auto` whose
value is the trimmed text, and returns the error `step must be a string or map`
for a node that is neither a scalar nor a mapping. For a mapping with entries
`pairs` whose `name`, `cmd` and `task` values are scalars: with a `cmd` entry
and no `task` entry the step has kind `Command`, with a `task` entry and no
`cmd` entry it has kind `Task`, in both cases with the trimmed text of the
(last) entry as value and the trimmed text of the (last) `name` entry, or the
empty string, as name; with both a `cmd` and a `task` entry, and with neither,
an error is returned. A `name`, `cmd` or `task` value that is not a scalar is
an error as well. -/
theorem parseStepNode_spec (node : Node) :
    (node.Kind = ScalarNode →
      parseStepNode node = some (⟨TrimSpace node.Value, "", StepAuto⟩, none)) ∧
    (node.Kind ≠ ScalarNode → node.Kind ≠ MappingNode →
      parseStepNode node =
        some (⟨"", "", StepAuto⟩, some (.Errorf "step must be a string or map" []))) ∧
    (∀ pairs : List (Node × Node), node.Kind = MappingNode →
      node.Content = pairsContent pairs → ScalarValues pairs →
      (valuesOf "cmd" pairs ≠ [] → valuesOf "task" pairs = [] →
        parseStepNode node =
          some (⟨((valuesOf "cmd" pairs).getLast?).getD "",
            ((valuesOf "name" pairs).getLast?).getD "", StepCommand⟩, none)) ∧
      (valuesOf "cmd" pairs = [] → valuesOf "task" pairs ≠ [] →
        parseStepNode node =
          some (⟨((valuesOf "task" pairs).getLast?).getD "",
            ((valuesOf "name" pairs).getLast?).getD "", StepTask⟩, none)) ∧
      (valuesOf "cmd" pairs ≠ [] → valuesOf "task" pairs ≠ [] →
        parseStepNode node =
          some (⟨"", "", StepAuto⟩, some (.Errorf "step cannot define both cmd and task" []))) ∧
      (valuesOf "cmd" pairs = [] → valuesOf "task" pairs = [] →
        parseStepNode node =
          some (⟨"", "", StepAuto⟩,
            some (.Errorf "step must be a string, \x7bcmd: ...\x7d, or \x7btask: ...\x7d" [])))) ∧
    (∀ pairs : List (Node × Node), node.Kind = MappingNode →
      node.Content = pairsContent pairs → ¬ScalarValues pairs →
      ∃ err, parseStepNode node = some (⟨"", "", StepAuto⟩, some err)) := by
  have hne : MappingNode ≠ ScalarNode := by decide
  refine ⟨?_, ?_, ?_, ?_⟩
  · intro h
    simp [parseStepNode, h]
  · intro h1 h2
    simp [parseStepNode, h1, h2]
  · intro pairs hk hc hs
    have hk' : ¬node.Kind = ScalarNode := by rw [hk]; exact hne
    have hloop := mappingLoop_of_scalar pairs ⟨"", "", "", false, false⟩ hs
    refine ⟨?_, ?_, ?_, ?_⟩
    · intro h1 h2
      simp [parseStepNode, hk, hne, hc, hloop, h1, h2]
    · intro h1 h2
      simp [parseStepNode, hk, hne, hc, hloop, h1, h2]
    · intro h1 h2
      simp [parseStepNode, hk, hne, hc, hloop, h1, h2]
    · intro h1 h2
      simp [parseStepNode, hk, hne, hc, hloop, h1, h2]
  · intro pairs hk hc hs
    have hk' : ¬node.Kind = ScalarNode := by rw [hk]; exact hne
    obtain ⟨err, herr⟩ := mappingLoop_of_not_scalar pairs ⟨"", "", "", false, false⟩ hs
    exact ⟨err, by simp [parseStepNode, hk, hne, hc, herr]⟩

/-- Witness of `parseStepNode_spec`: the mapping of the repository's test
`TestStepListUnmarshalTaskMapWithName`, written with blanks around the texts,
gives the step `build` of kind `Task` named `build-all`. -/
theorem parseStepNode_spec_witness :
    parseStepNode (.mk MappingNode ""
        [scalar "task", scalar " build ", scalar "name", scalar " build-all"]) =
      some (⟨((valuesOf "task" [(scalar "task", scalar " build "),
          (scalar "name", scalar " build-all")]).getLast?).getD "",
        ((valuesOf "name" [(scalar "task", scalar " build "),
          (scalar "name", scalar " build-all")]).getLast?).getD "", StepTask⟩, none) ∧
    parseStepNode (.mk MappingNode ""
        [scalar "task", scalar " build ", scalar "name", scalar " build-all"]) =
      some (⟨"build", "build-all", StepTask⟩, none) ∧
    parseStepNode (.mk MappingNode "" [scalar "cmd", scalar "ls", scalar "name", scalar "list"]) =
      some (⟨"ls", "list", StepCommand⟩, none) ∧
    parseStepNode (scalar " echo ") = some (⟨"echo", "", StepAuto⟩, none) :=
  ⟨((parseStepNode_spec (.mk MappingNode ""
      [scalar "task", scalar " build ", scalar "name", scalar " build-all"])).2.2.1
      [(scalar "task", scalar " build "), (scalar "name", scalar " build-all")] rfl rfl
      (by
        intro p hp _
        simp only [List.mem_cons, List.mem_singleton, List.not_mem_nil, or_false] at hp
        rcases hp with e | e <;> rw [e] <;> rfl)).2.1 (by decide) (by decide),
    by decide, by decide, by decide⟩

/-- Counterexample to C25 as stated: the step `{cmd: [ls]}` is a mapping that
sets only `cmd`, and the step `{task: build, name: [x]}` is a mapping that sets
only `task`; for both `parseStepNode` returns an error, not a step of kind
`Command` or `Task`, because a value is a sequence and not a scalar. -/
theorem parseStepNode_spec_counterexample :
    parseStepNode (.mk MappingNode "" [scalar "cmd", .mk SequenceNode "" [scalar "ls"]]) =
      some (⟨"", "", StepAuto⟩, some (.Errorf "step cmd must be a string" [])) ∧
    parseStepNode (.mk MappingNode ""
        [scalar "task", scalar "build", scalar "name", .mk SequenceNode "" [scalar "x"]]) =
      some (⟨"", "", StepAuto⟩, some (.Errorf "step name must be a string" [])) := by
  decide

/-! ## Step identifiers and `stepTaskFromID` -/

/-- A cut splits the text around one occurrence of the separator. -/
theorem cutAt_spec (sep s a b : List Char) (h : cutAt sep s = some (a, b)) :
    s = a ++ sep ++ b := by
  induction s generalizing a b with
  | nil =>
    unfold cutAt at h
    split_ifs at h with h0
    simp only [Option.some.injEq, Prod.mk.injEq] at h
    rw [← h.1, ← h.2, h0]
    rfl
  | cons c rest ih =>
    unfold cutAt at h
    split_ifs at h with h0
    · simp only [Option.some.injEq, Prod.mk.injEq] at h
      rw [← h.1, ← h.2]
      have hp : sep <+: c :: rest := List.isPrefixOf_iff_prefix.mp h0
      obtain ⟨t, ht⟩ := hp
      rw [← ht]
      simp
    · cases hc : cutAt sep rest with
      | none => rw [hc] at h; simp at h
      | some p =>
        obtain ⟨a1, b1⟩ := p
        rw [hc] at h
        simp only [Option.map_some', Option.some.injEq, Prod.mk.injEq] at h
        rw [← h.1, ← h.2, ih a1 b1 hc]
        simp

/-- The separator `::` is found right after a text that does not contain it
and does not end with a colon. -/
theorem cutAt_first (a r : List Char) (hinf : ¬[':', ':'] <:+: a)
    (hlast : a.getLast? ≠ some ':') :
    cutAt [':', ':'] (a ++ ':' :: ':' :: r) = some (a, r) := by
  induction a with
  | nil => simp [cutAt, List.isPrefixOf]
  | cons x a1 ih =>
    have hinf1 : ¬[':', ':'] <:+: a1 := fun h => hinf (h.trans (List.suffix_cons x a1).isInfix)
    have hlast1 : a1.getLast? ≠ some ':' := by
      cases a1 with
      | nil => simp
      | cons y a2 => rwa [List.getLast?_cons_cons] at hlast
    have hnp : List.isPrefixOf [':', ':'] (x :: a1 ++ ':' :: ':' :: r) = false := by
      cases a1 with
      | nil =>
        have hx : x ≠ ':' := by
          intro e
          apply hlast
          rw [e]
          rfl
        simp [List.isPrefixOf, Ne.symm hx]
      | cons y a2 =>
        have hxy : ¬(x = ':' ∧ y = ':') := by
          rintro ⟨e1, e2⟩
          apply hinf
          rw [e1, e2]
          exact (List.prefix_append [':', ':'] a2).isInfix
        by_cases e1 : x = ':'
        · have e2 : y ≠ ':' := fun e => hxy ⟨e1, e⟩
          simp [List.isPrefixOf, Ne.symm e2]
        · simp [List.isPrefixOf, Ne.symm e1]
    rw [List.cons_append, cutAt, ← List.cons_append, hnp, ih hinf1 hlast1]
    simp

/-- Three parts come from two separators. -/
theorem splitN_three (s p0 p1 p2 : List Char)
    (h : splitN [':', ':'] 3 s = [p0, p1, p2]) :
    s = p0 ++ [':', ':'] ++ p1 ++ [':', ':'] ++ p2 ∧ cutAt [':', ':'] s = some (p0, p1 ++ [':', ':'] ++ p2) := by
  rw [splitN] at h
  cases h1 : cutAt [':', ':'] s with
  | none => rw [h1] at h; simp at h
  | some q =>
    obtain ⟨a, b⟩ := q
    rw [h1] at h
    simp only [List.cons.injEq] at h
    obtain ⟨ha, hb⟩ := h
    rw [splitN] at hb
    cases h2 : cutAt [':', ':'] b with
    | none => rw [h2] at hb; simp at hb
    | some q2 =>
      obtain ⟨a2, b2⟩ := q2
      rw [h2] at hb
      simp only [splitN, List.cons.injEq, and_true] at hb
      obtain ⟨hb1, hb2⟩ := hb
      have e1 := cutAt_spec _ _ _ _ h1
      have e2 := cutAt_spec _ _ _ _ h2
      subst ha hb1 hb2
      constructor
      · rw [e1, e2]
        simp
      · rw [e2]

/-- The length of what `splitN` returns for three parts is one, two or three. -/
theorem splitN_three_cases (s : List Char) :
    (splitN [':', ':'] 3 s).length ≠ 3 ∨ ∃ p0 p1 p2, splitN [':', ':'] 3 s = [p0, p1, p2] := by
  rw [splitN]
  cases h1 : cutAt [':', ':'] s with
  | none => left; simp
  | some q =>
    obtain ⟨a, b⟩ := q
    dsimp only
    rw [splitN]
    cases h2 : cutAt [':', ':'] b with
    | none => left; simp
    | some q2 =>
      obtain ⟨a2, b2⟩ := q2
      right
      exact ⟨a, a2, b2, by simp [splitN]⟩

/-- The characters of a step identifier. -/
theorem stepID_data (taskName : String) (mode : StepMode) (index : Int) :
    (stepID taskName mode index).data =
      taskName.data ++ ':' :: ':' :: ((stepModeName mode).data ++ ':' :: ':' ::
        (toString index).data) := by
  simp [stepID, String.data_append]

/-- C27: for a task name that is not empty, does not contain `::` and does not
end with `:`, every step mode and every index, `stepTaskFromID` applied to
`stepID name mode index` returns `(name, true)`. And `stepTaskFromID` returns
`("", false)` for every string that cannot be written with two separators
`::` (as `a ++ "::" ++ b ++ "::" ++ c`), and for every string whose first part
is empty (it starts with `::`). -/
theorem stepTaskFromID_stepID (name : String) (mode : StepMode) (index : Int)
    (hne : name ≠ "") (hsep : ¬∃ x y : String, name = x ++ "::" ++ y)
    (hend : ¬∃ x : String, name = x ++ ":") :
    stepTaskFromID (stepID name mode index) = (name, true) ∧
    (∀ target : String, (¬∃ a b c : String, target = a ++ "::" ++ b ++ "::" ++ c) →
      stepTaskFromID target = ("", false)) ∧
    (∀ target rest : String, target = "::" ++ rest → stepTaskFromID target = ("", false)) := by
  refine ⟨?_, ?_, ?_⟩
  · have hinf : ¬[':', ':'] <:+: name.data := by
      rintro ⟨s, t, hst⟩
      apply hsep
      refine ⟨⟨s⟩, ⟨t⟩, ?_⟩
      apply String.ext
      simp [String.data_append, ← hst]
    have hlast : name.data.getLast? ≠ some ':' := by
      intro h
      apply hend
      obtain ⟨l, hl⟩ := List.getLast?_eq_some_iff.mp h
      exact ⟨⟨l⟩, String.ext (by simp [String.data_append, hl])⟩
    have hmode : cutAt [':', ':'] ((stepModeName mode).data ++ ':' :: ':' :: (toString index).data) =
        some ((stepModeName mode).data, (toString index).data) := by
      apply cutAt_first
      · unfold stepModeName
        split_ifs <;> decide
      · unfold stepModeName
        split_ifs <;> decide
    have hparts : SplitN (stepID name mode index) "::" 3 =
        [name, stepModeName mode, toString index] := by
      unfold SplitN
      rw [stepID_data]
      show List.map String.mk (splitN [':', ':'] 3 _) = _
      rw [splitN, cutAt_first _ _ hinf hlast]
      dsimp only
      rw [splitN, hmode]
      simp [splitN]
    unfold stepTaskFromID
    rw [hparts]
    simp [hne]
  · intro target hno
    unfold stepTaskFromID
    rcases splitN_three_cases target.data with h | ⟨p0, p1, p2, h⟩
    · have hlen : (SplitN target "::" 3).length ≠ 3 := by
        unfold SplitN
        rw [List.length_map]
        exact h
      simp [hlen]
    · exfalso
      apply hno
      refine ⟨⟨p0⟩, ⟨p1⟩, ⟨p2⟩, ?_⟩
      apply String.ext
      have := (splitN_three _ _ _ _ h).1
      simp [String.data_append, this]
  · intro target rest ht
    unfold stepTaskFromID
    rcases splitN_three_cases target.data with h | ⟨p0, p1, p2, h⟩
    · have hlen : (SplitN target "::" 3).length ≠ 3 := by
        unfold SplitN
        rw [List.length_map]
        exact h
      simp [hlen]
    · have hcut := (splitN_three _ _ _ _ h).2
      have hd : target.data = [] ++ ':' :: ':' :: rest.data := by
        rw [ht]
        simp [String.data_append]
      rw [hd, cutAt_first [] rest.data (by decide) (by simp)] at hcut
      simp only [Option.some.injEq, Prod.mk.injEq] at hcut
      have hparts : SplitN target "::" 3 = ["", ⟨p1⟩, ⟨p2⟩] := by
        unfold SplitN
        show List.map String.mk (splitN [':', ':'] 3 _) = _
        rw [h, ← hcut.1]
        rfl
      rw [hparts]
      simp

/-- Witness of `stepTaskFromID_stepID`: the identifier `build::par::2` gives back `build`. -/
theorem stepTaskFromID_stepID_witness :
    stepTaskFromID (stepID "build" StepModeParallel 2) = ("build", true) :=
  (stepTaskFromID_stepID "build" StepModeParallel 2 (by decide)
    (by
      rintro ⟨x, y, h⟩
      have hd := congrArg String.data h
      have hinf : [':', ':'] <:+: "build".data :=
        ⟨x.data, y.data, by rw [hd]; simp [String.data_append]⟩
      exact absurd hinf (by decide))
    (by
      rintro ⟨x, h⟩
      have hd := congrArg String.data h
      have hl : "build".data.getLast? = some ':' := by
        rw [hd]
        simp [String.data_append]
      exact absurd hl (by decide))).1

/-! ## The walk over the process table -/

/-- An assigned key holds the assigned value. -/
theorem pidMap_get_set_self {α : Type} (m : PidMap α) (k : Int) (v : α) :
    (m.set k v).get k = some v := by
  simp [PidMap.set, PidMap.get]

/-- Assigning a key leaves the other keys alone. -/
theorem pidMap_get_set_of_ne {α : Type} (m : PidMap α) (k k' : Int) (v : α) (hne : k' ≠ k) :
    (m.set k v).get k' = m.get k' := by
  have h : ¬k = k' := fun e => hne e.symm
  simp only [PidMap.set, PidMap.get, h, if_false]
  induction m with
  | nil => rfl
  | cons p rest ih =>
    obtain ⟨k0, v0⟩ := p
    by_cases h0 : k0 = k
    · have h' : ¬k0 = k' := fun e => hne (e.symm.trans h0)
      simp only [PidMap.get, h', if_false]
      simpa [List.filter, h0] using ih
    · simp only [List.filter, h0, ne_eq, not_false_eq_true, decide_True, PidMap.get]
      by_cases h2 : k0 = k'
      · simp [h2]
      · simp only [h2, if_false]
        exact ih

/-- The loop that builds `children`, from any map: the children listed under
`p` are those listed before and the processes of the rows whose parent is `p`. -/
theorem childrenOf_mem_from (rows : List (Int × Int)) (acc : PidMap (List Int)) (c p : Int) :
    c ∈ ((rows.foldl
        (fun children row => children.set row.2 ((children.get row.2).getD [] ++ [row.1]))
        acc).get p).getD [] ↔
      c ∈ (acc.get p).getD [] ∨ (c, p) ∈ rows := by
  induction rows generalizing acc with
  | nil => simp
  | cons row rest ih =>
    obtain ⟨pid, ppid⟩ := row
    rw [List.foldl_cons, ih]
    by_cases hp : p = ppid
    · subst hp
      rw [pidMap_get_set_self]
      simp only [Option.getD_some, List.mem_append, List.mem_singleton, List.mem_cons,
        Prod.mk.injEq, and_true]
      tauto
    · rw [pidMap_get_set_of_ne _ _ _ _ hp]
      simp only [List.mem_cons, Prod.mk.injEq]
      have : ¬(c = pid ∧ p = ppid) := fun h => hp h.2
      tauto

/-- The children listed under `p` in `children` are the processes of the rows
whose parent is `p`. -/
theorem childrenOf_mem (rows : List (Int × Int)) (c p : Int) :
    c ∈ ((childrenOf rows).get p).getD [] ↔ IsChild rows p c := by
  unfold childrenOf IsChild
  rw [childrenOf_mem_from]
  simp [PidMap.get]

/-- Marking as seen a process that has a row leaves fewer rows unseen. -/
theorem unseen_rows_lt (rows : List (Int × Int)) (seen : List Int) (x p : Int)
    (hx : x ∉ seen) (hrow : (x, p) ∈ rows) :
    (rows.filter (fun r => decide (r.1 ∉ x :: seen))).length + 1 ≤
      (rows.filter (fun r => decide (r.1 ∉ seen))).length := by
  have mono : ∀ l : List (Int × Int),
      (l.filter (fun r => decide (r.1 ∉ x :: seen))).length ≤
        (l.filter (fun r => decide (r.1 ∉ seen))).length := by
    intro l
    apply List.Sublist.length_le
    apply List.monotone_filter_right
    intro r hr
    simp only [List.mem_cons, not_or, decide_eq_true_eq] at hr ⊢
    exact hr.2
  induction rows with
  | nil => simp at hrow
  | cons r rest ih =>
    rcases List.mem_cons.mp hrow with e | e
    · subst e
      have e1 : List.filter (fun r => decide (r.1 ∉ x :: seen)) ((x, p) :: rest) =
          List.filter (fun r => decide (r.1 ∉ x :: seen)) rest := by simp
      have e2 : List.filter (fun r => decide (r.1 ∉ seen)) ((x, p) :: rest) =
          (x, p) :: List.filter (fun r => decide (r.1 ∉ seen)) rest := by simp [hx]
      rw [e1, e2, List.length_cons]
      exact Nat.succ_le_succ (mono rest)
    · have ih' := ih e
      by_cases h2 : r.1 ∈ seen
      · have e1 : List.filter (fun r => decide (r.1 ∉ x :: seen)) (r :: rest) =
            List.filter (fun r => decide (r.1 ∉ x :: seen)) rest := by simp [h2]
        have e2 : List.filter (fun r => decide (r.1 ∉ seen)) (r :: rest) =
            List.filter (fun r => decide (r.1 ∉ seen)) rest := by simp [h2]
        rw [e1, e2]
        exact ih'
      · have e2 : List.filter (fun r => decide (r.1 ∉ seen)) (r :: rest) =
            r :: List.filter (fun r => decide (r.1 ∉ seen)) rest := by simp [h2]
        rw [e2, List.length_cons]
        have hle := List.length_filter_le (fun r : Int × Int => decide (r.1 ∉ x :: seen)) [r]
        have happ : List.filter (fun r => decide (r.1 ∉ x :: seen)) (r :: rest) =
            List.filter (fun r => decide (r.1 ∉ x :: seen)) [r] ++
              List.filter (fun r => decide (r.1 ∉ x :: seen)) rest := by
          rw [← List.filter_append]
          rfl
        rw [happ, List.length_append]
        simp only [List.length_singleton] at hle
        omega

/-- Visiting children that all have a row does not raise the measure. -/
theorem visitChildren_measure (rows : List (Int × Int)) (cs : List Int) (v : walkVars)
    (hcs : ∀ c ∈ cs, ∃ p, (c, p) ∈ rows) :
    walkMeasure rows (visitChildren cs v) ≤ walkMeasure rows v := by
  induction cs generalizing v with
  | nil => exact le_refl _
  | cons child rest ih =>
    have hrest : ∀ c ∈ rest, ∃ p, (c, p) ∈ rows := fun c hc => hcs c (List.mem_cons_of_mem _ hc)
    rw [visitChildren]
    split_ifs with hseen
    · exact ih v hrest
    · refine le_trans (ih _ hrest) ?_
      obtain ⟨p, hp⟩ := hcs child (List.mem_cons_self _ _)
      have := unseen_rows_lt rows v.seen child p hseen hp
      simp only [walkMeasure, List.length_append, List.length_singleton]
      omega

/-- Visiting the children of a process keeps the invariant of the walk. -/
theorem visitChildren_inv (rows : List (Int × Int)) (root pid : Int) (cs : List Int)
    (v : walkVars) (hpid : pid ∈ v.seen) (hcs : ∀ c ∈ cs, IsChild rows pid c)
    (hinv : WalkInv rows root pid cs v) :
    WalkInv rows root pid [] (visitChildren cs v) ∧ pid ∈ (visitChildren cs v).seen := by
  induction cs generalizing v with
  | nil => exact ⟨hinv, hpid⟩
  | cons child rest ih =>
    have hrest : ∀ c ∈ rest, IsChild rows pid c := fun c hc => hcs c (List.mem_cons_of_mem _ hc)
    obtain ⟨hseen, hnd, hroot, hstack, hreach, hclosed⟩ := hinv
    rw [visitChildren]
    split_ifs with hc
    · refine ih v hpid hrest ⟨hseen, hnd, hroot, hstack, hreach, ?_⟩
      intro x hx hxs c hch
      rcases hclosed x hx hxs c hch with h | ⟨h1, h2⟩
      · exact Or.inl h
      · rcases List.mem_cons.mp h2 with e | e
        · exact Or.inl (e ▸ hc)
        · exact Or.inr ⟨h1, e⟩
    · have hcroot : child ≠ root := fun e => hc ((hseen child).mpr (Or.inl e))
      have hcdesc : child ∉ v.descendants := fun h => hc ((hseen child).mpr (Or.inr h))
      have hpreach : pid = root ∨ Relation.TransGen (IsChild rows) root pid := by
        rcases (hseen pid).mp hpid with h | h
        · exact Or.inl h
        · exact Or.inr (hreach pid h)
      have hcreach : Relation.TransGen (IsChild rows) root child := by
        have hch := hcs child (List.mem_cons_self _ _)
        rcases hpreach with h | h
        · rw [h] at hch
          exact Relation.TransGen.single hch
        · exact Relation.TransGen.tail h hch
      refine ih _ (List.mem_cons_of_mem _ hpid) hrest ⟨?_, ?_, ?_, ?_, ?_, ?_⟩
      · intro x
        simp only [List.mem_cons, List.mem_append, List.mem_singleton, hseen x]
        tauto
      · refine List.Nodup.append hnd (List.nodup_singleton _) ?_
        intro a ha hb
        rw [List.mem_singleton] at hb
        exact hcdesc (hb ▸ ha)
      · simp only [List.mem_append, List.mem_singleton, not_or]
        exact ⟨hroot, fun e => hcroot e.symm⟩
      · intro x hx
        rcases List.mem_append.mp hx with h | h
        · exact List.mem_cons_of_mem _ (hstack x h)
        · rw [List.mem_singleton.mp h]
          exact List.mem_cons_self _ _
      · intro x hx
        rcases List.mem_append.mp hx with h | h
        · exact hreach x h
        · rw [List.mem_singleton.mp h]
          exact hcreach
      · intro x hx hxs c hch
        simp only [List.mem_append, List.mem_singleton, not_or] at hxs
        rcases List.mem_cons.mp hx with e | e
        · exact absurd e hxs.2
        · rcases hclosed x e hxs.1 c hch with h | ⟨h1, h2⟩
          · exact Or.inl (List.mem_cons_of_mem _ h)
          · rcases List.mem_cons.mp h2 with e2 | e2
            · exact Or.inl (e2 ▸ List.mem_cons_self _ _)
            · exact Or.inr ⟨h1, e2⟩

/-- When the stack is empty, `descendants` lists, each once, the processes
other than the root that are reachable from the root. -/
theorem walk_finish (rows : List (Int × Int)) (root pid0 : Int) (v : walkVars)
    (hinv : WalkInv rows root pid0 [] v) (hr : root ∈ v.seen) (hs : v.stack = []) :
    v.descendants.Nodup ∧
      ∀ p, p ∈ v.descendants ↔ (Relation.TransGen (IsChild rows) root p ∧ p ≠ root) := by
  obtain ⟨hseen, hnd, hrt, _, hreach, hclosed⟩ := hinv
  refine ⟨hnd, fun p => ⟨fun hp => ⟨hreach p hp, fun e => hrt (e ▸ hp)⟩, ?_⟩⟩
  rintro ⟨hp, hne⟩
  have hall : ∀ y, Relation.TransGen (IsChild rows) root y → y ∈ v.seen := by
    intro y hy
    induction hy with
    | single h =>
      rcases hclosed root hr (by rw [hs]; simp) _ h with h1 | ⟨_, h2⟩
      · exact h1
      · simp at h2
    | tail _ h ih =>
      rcases hclosed _ ih (by rw [hs]; simp) _ h with h1 | ⟨_, h2⟩
      · exact h1
      · simp at h2
  rcases (hseen p).mp (hall p hp) with h | h
  · exact absurd h hne
  · exact h

/-- With the invariant and enough turns the walk returns, and what it returns
lists, each once, the processes other than the root that are reachable from
the root by one or more parent-to-child edges. -/
theorem walk_spec (rows : List (Int × Int)) (root pid0 : Int) (fuel : Nat) (v : walkVars)
    (hinv : WalkInv rows root pid0 [] v) (hroot : root ∈ v.seen)
    (hfuel : walkMeasure rows v ≤ fuel) :
    ∃ l, walk (childrenOf rows) fuel v = some l ∧ l.Nodup ∧
      ∀ p, p ∈ l ↔ (Relation.TransGen (IsChild rows) root p ∧ p ≠ root) := by
  induction fuel generalizing v pid0 with
  | zero =>
    have hs : v.stack = [] := by
      unfold walkMeasure at hfuel
      exact List.length_eq_zero.mp (by omega)
    refine ⟨v.descendants, by simp [walk, hs], walk_finish rows root pid0 v hinv hroot hs⟩
  | succ fuel ih =>
    by_cases hs : v.stack = []
    · exact ⟨v.descendants, by simp [walk, hs], walk_finish rows root pid0 v hinv hroot hs⟩
    · have hpos : v.stack.length > 0 := List.length_pos.mpr hs
      obtain ⟨pid, hlast⟩ : ∃ pid, v.stack.getLast? = some pid := by
        cases h : v.stack.getLast? with
        | none => exact absurd (List.getLast?_eq_none_iff.mp h) hs
        | some pid => exact ⟨pid, rfl⟩
      have hsplit : v.stack = v.stack.dropLast ++ [pid] := by
        obtain ⟨l, hl⟩ := List.getLast?_eq_some_iff.mp hlast
        rw [hl]
        simp
      obtain ⟨hseen, hnd, hrt, hstack, hreach, hclosed⟩ := hinv
      have hpidstack : pid ∈ v.stack := by
        rw [hsplit]
        simp
      have hpid : pid ∈ v.seen := hstack pid hpidstack
      have hchildren : ∀ c ∈ ((childrenOf rows).get pid).getD [], IsChild rows pid c :=
        fun c hc => (childrenOf_mem rows c pid).mp hc
      have hinv1 : WalkInv rows root pid (((childrenOf rows).get pid).getD [])
          { v with stack := v.stack.dropLast } := by
        refine ⟨hseen, hnd, hrt, fun x hx => hstack x (List.mem_of_mem_dropLast hx), hreach, ?_⟩
        intro x hx hxs c hch
        by_cases hxp : x = pid
        · exact Or.inr ⟨hxp, (childrenOf_mem rows c pid).mpr (hxp ▸ hch)⟩
        · have hxs' : x ∉ v.stack := by
            rw [hsplit]
            simp only [List.mem_append, List.mem_singleton, not_or]
            exact ⟨hxs, hxp⟩
          rcases hclosed x hx hxs' c hch with h | ⟨_, h2⟩
          · exact Or.inl h
          · simp at h2
      obtain ⟨hinv2, hpid2⟩ := visitChildren_inv rows root pid (((childrenOf rows).get pid).getD [])
        { v with stack := v.stack.dropLast } hpid hchildren hinv1
      have hroot2 : root ∈ (visitChildren (((childrenOf rows).get pid).getD [])
          { v with stack := v.stack.dropLast }).seen := (hinv2.1 root).mpr (Or.inl rfl)
      have hm := visitChildren_measure rows (((childrenOf rows).get pid).getD [])
        { v with stack := v.stack.dropLast } (fun c hc => ⟨pid, hchildren c hc⟩)
      have hm1 : walkMeasure rows { v with stack := v.stack.dropLast } + 1 = walkMeasure rows v := by
        simp only [walkMeasure, List.length_dropLast]
        omega
      obtain ⟨l, hl, hspec⟩ := ih pid (visitChildren (((childrenOf rows).get pid).getD [])
        { v with stack := v.stack.dropLast }) hinv2 hroot2 (by omega)
      refine ⟨l, ?_, hspec⟩
      rw [walk, if_pos hpos, hlast]
      exact hl

/-- More turns than needed change nothing. -/
theorem walk_fuel_mono (children : PidMap (List Int)) (fuel : Nat) (v : walkVars)
    (l : List Int) (h : walk children fuel v = some l) : walk children (fuel + 1) v = some l := by
  induction fuel generalizing v with
  | zero =>
    rw [walk] at h
    split_ifs at h with hs
    rw [walk, if_neg hs]
    exact h
  | succ fuel ih =>
    rw [walk] at h
    rw [walk]
    split_ifs at h with hs
    · rw [if_pos hs]
      cases hl : v.stack.getLast? with
      | none => rw [hl] at h; simp at h
      | some pid =>
        rw [hl] at h
        exact ih _ h
    · rw [if_neg hs]
      exact h

/-- C26: for every table of rows `(pid, ppid)` and every root, the walk of
`descendantPIDs` returns within `len(rows) + 1` turns of its outer loop, so it
terminates for every finite table, cycles included, and allowing more turns
gives the same list. The list holds each process at most once, and a process
is in it exactly when it is not the root and is reachable from the root by
following parent-to-child edges of the table one or more times. -/
theorem descendantPIDs_spec (rows : List (Int × Int)) (root : Int) (fuel : Nat)
    (hfuel : rows.length + 1 ≤ fuel) :
    ∃ l, descendantPIDs fuel rows root = some l ∧
      descendantPIDs (rows.length + 1) rows root = some l ∧ l.Nodup ∧
      ∀ p, p ∈ l ↔ (Relation.TransGen (IsChild rows) root p ∧ p ≠ root) := by
  have hinv : WalkInv rows root root [] ⟨[], [root], [root]⟩ := by
    refine ⟨by simp, by simp, by simp, by simp, by simp, ?_⟩
    intro x hx hxs
    exact absurd hx hxs
  have hm : walkMeasure rows ⟨[], [root], [root]⟩ ≤ rows.length + 1 := by
    simp only [walkMeasure, List.length_singleton]
    have := List.length_filter_le (fun r : Int × Int => decide (r.1 ∉ [root])) rows
    omega
  obtain ⟨l, hl, hnd, hspec⟩ := walk_spec rows root root (rows.length + 1) _ hinv (by simp) hm
  refine ⟨l, ?_, hl, hnd, hspec⟩
  obtain ⟨k, hk⟩ := Nat.exists_eq_add_of_le hfuel
  rw [hk]
  clear hk hfuel
  induction k with
  | zero => exact hl
  | succ k ih => exact walk_fuel_mono _ _ _ _ ih

/-- Witness of `descendantPIDs_spec`: a table in which process 1 is listed as
a child of its own grandchild 3, and processes 8 and 9 are unrelated; from
root 1 the walk returns 2, 3 and 4. -/
theorem descendantPIDs_spec_witness :
    descendantPIDs 6 [(2, 1), (3, 2), (1, 3), (4, 2), (9, 8)] 1 = some [2, 3, 4] ∧
    ∃ l, descendantPIDs 6 [(2, 1), (3, 2), (1, 3), (4, 2), (9, 8)] 1 = some l ∧
      descendantPIDs (([(2, 1), (3, 2), (1, 3), (4, 2), (9, 8)] : List (Int × Int)).length + 1)
        [(2, 1), (3, 2), (1, 3), (4, 2), (9, 8)] 1 = some l ∧ l.Nodup ∧
      ∀ p, p ∈ l ↔
        (Relation.TransGen (IsChild [(2, 1), (3, 2), (1, 3), (4, 2), (9, 8)]) 1 p ∧ p ≠ 1) :=
  ⟨by decide, descendantPIDs_spec [(2, 1), (3, 2), (1, 3), (4, 2), (9, 8)] 1 6 (by decide)⟩

/-! ### Triggering a combo -/

/-- `startTask` leaves the tables of the combos alone. -/
theorem startTask_tables (m : model) (t : String) (fromCombo : Bool) :
    (startTask m t fromCombo).1.comboByName = m.comboByName ∧
      (startTask m t fromCombo).1.combosByTask = m.combosByTask := by
  unfold startTask
  cases m.taskByName.get t with
  | none => exact ⟨rfl, rfl⟩
  | some task =>
    dsimp only
    split_ifs <;> exact ⟨rfl, rfl⟩

/-- One more turn of the loop that starts the tasks of a parallel combo. -/
theorem startAll_cons (t : String) (rest : List String) (m : model) (cmds : List String) :
    startAll (t :: rest) m cmds =
      startAll rest (startTask m t true).1 (cmds ++ ((startTask m t true).2).toList) := rfl

/-- The loop that starts the tasks of a parallel combo leaves the runs in
flight and the tables of the combos alone and keeps every task in `taskByName`. -/
theorem startAll_frame (run : List String) (m : model) (cmds : List String) :
    (startAll run m cmds).1.comboActive = m.comboActive ∧
    (startAll run m cmds).1.comboByName = m.comboByName ∧
    (startAll run m cmds).1.combosByTask = m.combosByTask ∧
    ∀ t, ((startAll run m cmds).1.taskByName.get t).isSome = (m.taskByName.get t).isSome := by
  induction run generalizing m cmds with
  | nil => exact ⟨rfl, rfl, rfl, fun _ => rfl⟩
  | cons x rest ih =>
    rw [startAll_cons]
    obtain ⟨h1, h2, h3, h4⟩ := ih (startTask m x true).1 (cmds ++ ((startTask m x true).2).toList)
    refine ⟨?_, ?_, ?_, ?_⟩
    · rw [h1, startTask_comboActive]
    · rw [h2, (startTask_tables m x true).1]
    · rw [h3, (startTask_tables m x true).2]
    · intro t
      rw [h4, startTask_known]

/-- The loop that starts the tasks of a parallel combo, on a run of distinct
known tasks none of which is running: every task of the run is started, in order. -/
theorem startAll_nodup (run : List String) (m : model) (cmds : List String) (hnd : run.Nodup)
    (hfresh : ∀ t ∈ run, ∃ task, m.taskByName.get t = some task ∧ task.Running = false) :
    (startAll run m cmds).2 = cmds ++ run ∧
      (startAll run m cmds).1.started = m.started ++ run ∧
      ∀ t ∈ run, taskRunning (startAll run m cmds).1 t = true := by
  induction run generalizing m cmds with
  | nil => simp [startAll]
  | cons x rest ih =>
    obtain ⟨task, hg, hr⟩ := hfresh x (List.mem_cons_self _ _)
    have hx : x ∉ rest := (List.nodup_cons.mp hnd).1
    rw [startAll_cons, startTask_from_combo m x task hg hr]
    have hfresh' : ∀ t ∈ rest, ∃ task',
        ({ m with taskByName := m.taskByName.set x { task with Running := true },
                  started := m.started ++ [x] } : model).taskByName.get t = some task' ∧
          task'.Running = false := by
      intro t ht
      obtain ⟨task', hg', hr'⟩ := hfresh t (List.mem_cons_of_mem _ ht)
      have hne : t ≠ x := fun e => hx (e ▸ ht)
      exact ⟨task', by rw [GoMap.get_set_of_ne _ _ _ _ hne]; exact hg', hr'⟩
    obtain ⟨h1, h2, h3⟩ := ih _ (cmds ++ (some x).toList) (List.nodup_cons.mp hnd).2 hfresh'
    refine ⟨?_, ?_, ?_⟩
    · rw [h1]
      simp
    · rw [h2]
      simp
    · intro t ht
      rcases List.mem_cons.mp ht with e | e
      · subst e
        have hrun : taskRunning ({ m with
            taskByName := m.taskByName.set t { task with Running := true },
            started := m.started ++ [t] } : model) t = true := by
          simp [taskRunning, GoMap.get_set_self]
        have hmono : ∀ (l : List String) (m0 : model) (c0 : List String),
            taskRunning m0 t = true → taskRunning (startAll l m0 c0).1 t = true := by
          intro l
          induction l with
          | nil => intro m0 c0 h; exact h
          | cons y tl ihl =>
            intro m0 c0 h
            rw [startAll_cons]
            exact ihl _ _ (startTask_running m0 y true t h)
        exact hmono rest _ _ hrun
      · exact h3 t e

/-- A combo that `triggerCombo` accepts is not in flight and none of its tasks is running. -/
theorem not_disabled (m : model) (comboName : String) (cb : ComboDef)
    (hcb : m.comboByName.get comboName = some cb) (hok : isComboDisabled m comboName = false) :
    m.comboActive.get comboName = none ∧ ∀ t ∈ cb.Run, taskRunning m t = false := by
  unfold isComboDisabled at hok
  cases hact : m.comboActive.get comboName with
  | some run => rw [hact] at hok; simp at hok
  | none =>
    rw [hact, hcb] at hok
    simp only [Option.isSome_none, Bool.false_eq_true, if_false] at hok
    refine ⟨rfl, ?_⟩
    intro t ht
    have := List.any_eq_false.mp hok t ht
    unfold taskRunning
    cases hg : m.taskByName.get t with
    | none => rfl
    | some task =>
      rw [hg] at this
      simpa using this

/-- What `triggerCombo` does with a parallel combo that it accepts. -/
theorem triggerCombo_parallel (m : model) (comboName : String) (cb : ComboDef)
    (hcb : m.comboByName.get comboName = some cb) (hok : isComboDisabled m comboName = false)
    (hpar : cb.Mode = "parallel") :
    triggerCombo m comboName =
      some (startAll cb.Run
        { m with comboActive := m.comboActive.set cb.Name ⟨cb, 0, "", cb.Run.length⟩ } []) := by
  unfold triggerCombo
  rw [hcb]
  dsimp only
  rw [hok]
  simp only [Bool.false_eq_true, if_false, hpar, if_true]
  rfl

/-- C21 (amended): for a parallel combo that `triggerCombo` accepts, the
pending count recorded in the combo's run state is the length of `Run`. When
`Run` names distinct tasks of `taskByName`, the trigger starts every task of
`Run` once, in order, so the pending count is then the number of tasks that
the trigger started. -/
theorem triggerCombo_parallel_pending (m : model) (comboName : String) (cb : ComboDef)
    (hcb : m.comboByName.get comboName = some cb) (hok : isComboDisabled m comboName = false)
    (hpar : cb.Mode = "parallel") :
    ∃ (m' : model) (cmds : List String),
      triggerCombo m comboName = some (m', cmds) ∧
      m'.comboActive.get cb.Name = some ⟨cb, 0, "", cb.Run.length⟩ ∧
      (cb.Run.Nodup → (∀ t ∈ cb.Run, (m.taskByName.get t).isSome = true) →
        m'.started = m.started ++ cb.Run ∧ cmds = cb.Run ∧
        (∀ t ∈ cb.Run, taskRunning m' t = true) ∧
        ∃ run, m'.comboActive.get cb.Name = some run ∧
          run.Pending = ((m'.started.length - m.started.length : Nat) : Int)) := by
  have htrig := triggerCombo_parallel m comboName cb hcb hok hpar
  have hframe := (startAll_frame cb.Run
    { m with comboActive := m.comboActive.set cb.Name ⟨cb, 0, "", cb.Run.length⟩ } []).1
  have hnod := startAll_nodup cb.Run
    { m with comboActive := m.comboActive.set cb.Name ⟨cb, 0, "", cb.Run.length⟩ } []
  generalize startAll cb.Run
    { m with comboActive := m.comboActive.set cb.Name ⟨cb, 0, "", cb.Run.length⟩ } [] = r
    at htrig hframe hnod
  obtain ⟨m', cmds⟩ := r
  have hget : m'.comboActive.get cb.Name = some ⟨cb, 0, "", cb.Run.length⟩ := by
    rw [hframe]
    exact GoMap.get_set_self _ _ _
  refine ⟨m', cmds, htrig, hget, ?_⟩
  intro hnd hknown
  have hfresh : ∀ t ∈ cb.Run, ∃ task,
      ({ m with comboActive := m.comboActive.set cb.Name ⟨cb, 0, "", cb.Run.length⟩ } :
        model).taskByName.get t = some task ∧ task.Running = false := by
    intro t ht
    obtain ⟨task, hg⟩ := Option.isSome_iff_exists.mp (hknown t ht)
    have hrun := (not_disabled m comboName cb hcb hok).2 t ht
    unfold taskRunning at hrun
    rw [hg] at hrun
    exact ⟨task, hg, hrun⟩
  obtain ⟨h1, h2, h3⟩ := hnod hnd hfresh
  simp only [List.nil_append] at h1 h2
  refine ⟨h2, h1, h3, ⟨cb, 0, "", cb.Run.length⟩, hget, ?_⟩
  rw [h2]
  simp

/-- Witness of `triggerCombo_parallel_pending`: on a fresh model of the sample
configuration the parallel combo `Y` starts `b` and `c` and records 2. -/
theorem triggerCombo_parallel_pending_witness :
    ∃ (m' : model) (cmds : List String),
      triggerCombo (newModel sampleConfig) "Y" = some (m', cmds) ∧
      m'.comboActive.get "Y" =
        some ⟨⟨"Y", "y", "parallel", ["b", "c"], none⟩, 0, "",
          (["b", "c"] : List String).length⟩ ∧
      ((["b", "c"] : List String).Nodup →
        (∀ t ∈ (["b", "c"] : List String),
          ((newModel sampleConfig).taskByName.get t).isSome = true) →
        m'.started = (newModel sampleConfig).started ++ ["b", "c"] ∧ cmds = ["b", "c"] ∧
        (∀ t ∈ (["b", "c"] : List String), taskRunning m' t = true) ∧
        ∃ run, m'.comboActive.get "Y" = some run ∧
          run.Pending =
            ((m'.started.length - (newModel sampleConfig).started.length : Nat) : Int)) :=
  triggerCombo_parallel_pending (newModel sampleConfig) "Y"
    ⟨"Y", "y", "parallel", ["b", "c"], none⟩ (by decide) (by decide) rfl

/-- Counterexample to C21 as stated: the configuration `dupConfig` passes
`Config.validate`; its parallel combo `P` names task `b` twice; the trigger is
accepted, records the pending count 2 and starts one task. -/
theorem triggerCombo_parallel_pending_counterexample :
    dupConfig.validate = none ∧
    isComboDisabled (newModel dupConfig) "P" = false ∧
    (triggerCombo (newModel dupConfig) "P").map
        (fun r => ((r.1.comboActive.get "P").map (fun run => run.Pending), r.1.started, r.2)) =
      some (some 2, ["b"], ["b"]) := by
  decide

/-! ### The invariant of the sequential runs -/

/-- `startNextComboTask` leaves the tables of the combos alone and, on a run
whose index is inside `Run`, leaves the run awaiting the task at its index. -/
theorem startNextComboTask_waiting (m m2 : model) (run run2 : comboRun) (cmd : Option String)
    (h : startNextComboTask m run = some (m2, run2, cmd)) :
    m2.comboByName = m.comboByName ∧ m2.combosByTask = m.combosByTask ∧
    (run.Index < run.Def.Run.length →
      0 ≤ run.Index ∧ run.Def.Run.get? run.Index.toNat = some run2.WaitingOn) := by
  unfold startNextComboTask at h
  split_ifs at h with h1 h2
  · cases hg : run.Def.Run.get? run.Index.toNat with
    | none => rw [hg] at h; simp at h
    | some t =>
      rw [hg] at h
      dsimp only at h
      cases hk : m.taskByName.get t with
      | none => rw [hk] at h; simp at h
      | some task =>
        rw [hk] at h
        dsimp only at h
        split_ifs at h with h3
        · simp only [Option.some.injEq, Prod.mk.injEq] at h
          obtain ⟨hm, hr, _⟩ := h
          subst hm hr
          exact ⟨rfl, rfl, fun _ => ⟨by omega, rfl⟩⟩
        · simp only [Option.some.injEq, Prod.mk.injEq] at h
          obtain ⟨hm, hr, _⟩ := h
          subst hm hr
          exact ⟨(startTask_tables m t true).1, (startTask_tables m t true).2,
            fun _ => ⟨by omega, rfl⟩⟩
  · simp only [Option.some.injEq, Prod.mk.injEq] at h
    obtain ⟨hm, hr, _⟩ := h
    subst hm hr
    exact ⟨rfl, rfl, fun hlt => absurd hlt h1⟩

/-- What handling one combo does to the tables: no task leaves `taskByName`,
the tables of the combos stay, and a run found in `comboActive` afterwards was
there before or is the run of the handled combo: for a parallel combo with
the same index, for a sequential combo with the index grown by one, still
inside `Run`, and awaiting the task at that index. -/
theorem advanceCombo_step (m m' : model) (msg : TaskFinishedMsg) (c : String)
    (cmds cmds' : List String) (h : advanceCombo m msg c cmds = some (m', cmds')) :
    (∀ t, (m'.taskByName.get t).isSome = (m.taskByName.get t).isSome) ∧
    m'.comboByName = m.comboByName ∧ m'.combosByTask = m.combosByTask ∧
    ∀ (name : String) (run' : comboRun), m'.comboActive.get name = some run' →
      m.comboActive.get name = some run' ∨
      (name = c ∧ ∃ run, m.comboActive.get c = some run ∧ run'.Def = run.Def ∧
        ((run.Def.Mode = "parallel" ∧ run'.Index = run.Index) ∨
          (run.Def.Mode ≠ "parallel" ∧ run'.Index = run.Index + 1 ∧
            run'.Index < run'.Def.Run.length ∧
            (0 ≤ run.Index → run'.Def.Run.get? run'.Index.toNat = some run'.WaitingOn)))) := by
  have hsame : ∀ name run', m.comboActive.get name = some run' →
      m.comboActive.get name = some run' ∨
      (name = c ∧ ∃ run, m.comboActive.get c = some run ∧ run'.Def = run.Def ∧
        ((run.Def.Mode = "parallel" ∧ run'.Index = run.Index) ∨
          (run.Def.Mode ≠ "parallel" ∧ run'.Index = run.Index + 1 ∧
            run'.Index < run'.Def.Run.length ∧
            (0 ≤ run.Index → run'.Def.Run.get? run'.Index.toNat = some run'.WaitingOn)))) :=
    fun _ _ hg => Or.inl hg
  have hdel : ∀ name run', (m.comboActive.delete c).get name = some run' →
      m.comboActive.get name = some run' ∨
      (name = c ∧ ∃ run, m.comboActive.get c = some run ∧ run'.Def = run.Def ∧
        ((run.Def.Mode = "parallel" ∧ run'.Index = run.Index) ∨
          (run.Def.Mode ≠ "parallel" ∧ run'.Index = run.Index + 1 ∧
            run'.Index < run'.Def.Run.length ∧
            (0 ≤ run.Index → run'.Def.Run.get? run'.Index.toNat = some run'.WaitingOn)))) := by
    intro name run' hg
    by_cases hne : name = c
    · subst hne
      rw [GoMap.get_delete_self] at hg
      simp at hg
    · rw [GoMap.get_delete_of_ne _ _ _ hne] at hg
      exact Or.inl hg
  unfold advanceCombo at h
  by_cases hnone : m.comboActive.get c = none
  · rw [hnone] at h
    simp only [Option.some.injEq, Prod.mk.injEq] at h
    rw [← h.1]
    exact ⟨fun _ => rfl, rfl, rfl, hsame⟩
  · obtain ⟨run, hg⟩ := Option.ne_none_iff_exists'.mp hnone
    rw [hg] at h
    dsimp only at h
    by_cases h1 : run.Def.Mode = "parallel"
    · rw [if_pos h1] at h
      by_cases h2 : (if run.Pending > 0 then { run with Pending := run.Pending - 1 }
          else run).Pending ≤ 0
      · rw [if_pos h2] at h
        simp only [Option.some.injEq, Prod.mk.injEq] at h
        rw [← h.1]
        exact ⟨fun _ => rfl, rfl, rfl, hdel⟩
      · rw [if_neg h2] at h
        simp only [Option.some.injEq, Prod.mk.injEq] at h
        rw [← h.1]
        refine ⟨fun _ => rfl, rfl, rfl, ?_⟩
        intro name run' hget
        by_cases hne : name = c
        · subst hne
          rw [GoMap.get_set_self] at hget
          simp only [Option.some.injEq] at hget
          refine Or.inr ⟨rfl, run, hg, ?_, Or.inl ⟨h1, ?_⟩⟩
          · rw [← hget]
            split_ifs <;> rfl
          · rw [← hget]
            split_ifs <;> rfl
        · rw [GoMap.get_set_of_ne _ _ _ _ hne] at hget
          exact Or.inl hget
    · rw [if_neg h1] at h
      by_cases h2 : run.WaitingOn ≠ msg.TaskID
      · rw [if_pos h2] at h
        simp only [Option.some.injEq, Prod.mk.injEq] at h
        rw [← h.1]
        exact ⟨fun _ => rfl, rfl, rfl, hsame⟩
      · rw [if_neg h2] at h
        by_cases h3 : msg.Err.isSome = true ∧ stopOnFail run.Def = true
        · rw [if_pos h3] at h
          simp only [Option.some.injEq, Prod.mk.injEq] at h
          rw [← h.1]
          exact ⟨fun _ => rfl, rfl, rfl, hdel⟩
        · rw [if_neg h3] at h
          by_cases h4 : run.Index + 1 ≥ (run.Def.Run.length : Int)
          · rw [if_pos h4] at h
            simp only [Option.some.injEq, Prod.mk.injEq] at h
            rw [← h.1]
            exact ⟨fun _ => rfl, rfl, rfl, hdel⟩
          · rw [if_neg h4] at h
            cases hs : startNextComboTask m { run with Index := run.Index + 1 } with
            | none => rw [hs] at h; simp at h
            | some r =>
              obtain ⟨m2, run2, cmd⟩ := r
              rw [hs] at h
              simp only [Option.some.injEq, Prod.mk.injEq] at h
              rw [← h.1]
              have heff := startNextComboTask_effect m m2 _ run2 cmd hs
              have hwait := startNextComboTask_waiting m m2 _ run2 cmd hs
              refine ⟨heff.2.1, hwait.1, hwait.2.1, ?_⟩
              intro name run' hget
              simp only [heff.1] at hget
              by_cases hne : name = c
              · subst hne
                rw [GoMap.get_set_self] at hget
                simp only [Option.some.injEq] at hget
                subst hget
                have hlt : run.Index + 1 < (run.Def.Run.length : Int) := by omega
                refine Or.inr ⟨rfl, run, hg, heff.2.2.2.1, Or.inr ⟨h1, heff.2.2.2.2.1, ?_, ?_⟩⟩
                · rw [heff.2.2.2.2.1, heff.2.2.2.1]
                  exact hlt
                · intro _
                  rw [heff.2.2.2.2.1, heff.2.2.2.1]
                  exact (hwait.2.2 hlt).2
              · rw [GoMap.get_set_of_ne _ _ _ _ hne] at hget
                exact Or.inl hget

/-- Tables whose tasks stay known keep valid combos. -/
theorem CombosValid.of_tables (m m' : model) (hv : CombosValid m)
    (hknown : ∀ t, (m'.taskByName.get t).isSome = (m.taskByName.get t).isSome)
    (hby : m'.comboByName = m.comboByName) : CombosValid m' := by
  intro name cb hg
  rw [hby] at hg
  obtain ⟨h1, h2⟩ := hv name cb hg
  exact ⟨h1, fun t ht => by rw [hknown t]; exact h2 t ht⟩

/-- The invariant passes to tables whose tasks stay known and whose runs in
flight were in flight before or satisfy the invariant by themselves. -/
theorem ComboInv.of_entries (m m' : model) (hinv : ComboInv m)
    (hknown : ∀ t, (m'.taskByName.get t).isSome = (m.taskByName.get t).isSome)
    (hent : ∀ (name : String) (run' : comboRun), m'.comboActive.get name = some run' →
      m.comboActive.get name = some run' ∨
      (0 ≤ run'.Index ∧ (∀ t ∈ run'.Def.Run, (m.taskByName.get t).isSome = true) ∧
        (run'.Def.Mode ≠ "parallel" →
          run'.Index < run'.Def.Run.length ∧
            run'.Def.Run.get? run'.Index.toNat = some run'.WaitingOn))) :
    ComboInv m' := by
  constructor
  · intro name run' hg
    rcases hent name run' hg with h | ⟨h0, hk, _⟩
    · obtain ⟨h0, hk⟩ := hinv.1 name run' h
      exact ⟨h0, fun t ht => by rw [hknown t]; exact hk t ht⟩
    · exact ⟨h0, fun t ht => by rw [hknown t]; exact hk t ht⟩
  · intro name run' hg hseq
    rcases hent name run' hg with h | ⟨_, _, hs⟩
    · exact hinv.2 name run' h hseq
    · exact hs hseq

/-- Handling one combo keeps the combos valid and the invariant of the runs. -/
theorem advanceCombo_inv (m m' : model) (msg : TaskFinishedMsg) (c : String)
    (cmds cmds' : List String) (hv : CombosValid m) (hinv : ComboInv m)
    (h : advanceCombo m msg c cmds = some (m', cmds')) : CombosValid m' ∧ ComboInv m' := by
  obtain ⟨hknown, hby, _, hent⟩ := advanceCombo_step m m' msg c cmds cmds' h
  refine ⟨CombosValid.of_tables m m' hv hknown hby, ComboInv.of_entries m m' hinv hknown ?_⟩
  intro name run' hg
  rcases hent name run' hg with h1 | ⟨_, run, hrun, hdef, hcase⟩
  · exact Or.inl h1
  · obtain ⟨h0, hk⟩ := hinv.1 c run hrun
    right
    rcases hcase with ⟨hpar, hidx⟩ | ⟨hseq, hidx, hlt, hw⟩
    · refine ⟨by omega, fun t ht => hk t (hdef ▸ ht), fun hs => ?_⟩
      rw [hdef] at hs
      exact absurd hpar hs
    · exact ⟨by omega, fun t ht => hk t (hdef ▸ ht), fun _ => ⟨hlt, hw h0⟩⟩

/-- The loop of `advanceCombos` returns, keeps the combos valid and keeps the
invariant of the runs. -/
theorem advanceLoop_inv (msg : TaskFinishedMsg) (names : List String) (m : model)
    (cmds : List String) (hv : CombosValid m) (hinv : ComboInv m) :
    ∃ (m' : model) (cmds' : List String),
      advanceLoop msg names m cmds = some (m', cmds') ∧ CombosValid m' ∧ ComboInv m' := by
  obtain ⟨m', cmds', h, _⟩ := advanceLoop_total msg names m cmds hinv.1
  refine ⟨m', cmds', h, ?_⟩
  exact advanceLoop_invariant msg (fun x => CombosValid x ∧ ComboInv x) names
    (fun a b c d e _ hP hb => advanceCombo_inv a b msg c d e hP.1 hP.2 hb) m m' cmds cmds'
    ⟨hv, hinv⟩ h

/-- The invariant holds of a model that has no run in flight. -/
theorem comboInv_of_idle (m : model) (h : m.comboActive = []) : ComboInv m := by
  constructor
  · intro name run hg
    rw [h] at hg
    simp [GoMap.get] at hg
  · intro name run hg
    rw [h] at hg
    simp [GoMap.get] at hg

/-- Tables that pass the check have valid combos. -/
theorem combosValid_of_check (m : model) (h : combosValidb m = true) : CombosValid m := by
  intro name cb hg
  have hmem := GoMap.mem_of_get _ _ _ hg
  have hp := List.all_eq_true.mp h _ hmem
  simp only [Bool.and_eq_true, Bool.not_eq_true', List.isEmpty_eq_false, List.all_eq_true] at hp
  exact ⟨by
    intro e
    have := hp.1
    rw [e] at this
    simp at this, hp.2⟩

/-- `triggerCombo` returns, keeps the combos valid and keeps the invariant of
the runs; a sequential combo that it accepts is in flight afterwards at
index 0, awaiting the first task of its `Run`. -/
theorem triggerCombo_inv (m : model) (comboName : String) (hv : CombosValid m)
    (hinv : ComboInv m) :
    ∃ (m' : model) (cmds : List String),
      triggerCombo m comboName = some (m', cmds) ∧ CombosValid m' ∧ ComboInv m' ∧
      ∀ cb, m.comboByName.get comboName = some cb → isComboDisabled m comboName = false →
        cb.Mode ≠ "parallel" →
        ∃ t0, cb.Run.head? = some t0 ∧ m'.comboActive.get cb.Name = some ⟨cb, 0, t0, 0⟩ := by
  cases hcb : m.comboByName.get comboName with
  | none =>
    refine ⟨m, [], by simp [triggerCombo, hcb], hv, hinv, ?_⟩
    intro cb h
    simp at h
  | some cb =>
    obtain ⟨hne, hknown⟩ := hv comboName cb hcb
    by_cases hdis : isComboDisabled m comboName = true
    · refine ⟨m, [], by simp [triggerCombo, hcb, hdis], hv, hinv, ?_⟩
      intro cb' _ h
      rw [hdis] at h
      simp at h
    · have hok : isComboDisabled m comboName = false := by simpa using hdis
      by_cases hpar : cb.Mode = "parallel"
      · have htrig := triggerCombo_parallel m comboName cb hcb hok hpar
        have hframe := startAll_frame cb.Run
          { m with comboActive := m.comboActive.set cb.Name ⟨cb, 0, "", cb.Run.length⟩ } []
        generalize startAll cb.Run
          { m with comboActive := m.comboActive.set cb.Name ⟨cb, 0, "", cb.Run.length⟩ } [] = r
          at htrig hframe
        obtain ⟨m', cmds⟩ := r
        obtain ⟨hact, hby, _, hk⟩ := hframe
        refine ⟨m', cmds, htrig, CombosValid.of_tables m m' hv hk hby,
          ComboInv.of_entries m m' hinv hk ?_, ?_⟩
        · intro name run' hg
          rw [hact] at hg
          by_cases hn : name = cb.Name
          · subst hn
            rw [GoMap.get_set_self] at hg
            simp only [Option.some.injEq] at hg
            subst hg
            exact Or.inr ⟨le_refl _, hknown, fun hs => absurd hpar hs⟩
          · rw [GoMap.get_set_of_ne _ _ _ _ hn] at hg
            exact Or.inl hg
        · intro cb' h _ hs
          simp only [Option.some.injEq] at h
          subst h
          exact absurd hpar hs
      · obtain ⟨t0, rest, hrun⟩ : ∃ t0 rest, cb.Run = t0 :: rest := by
          cases hr : cb.Run with
          | nil => exact absurd hr hne
          | cons t0 rest => exact ⟨t0, rest, rfl⟩
        obtain ⟨task, htask⟩ := Option.isSome_iff_exists.mp
          (hknown t0 (by rw [hrun]; exact List.mem_cons_self _ _))
        have hnext := startNextComboTask_at
          { m with comboActive := m.comboActive.set cb.Name ⟨cb, 0, "", 0⟩ } ⟨cb, 0, "", 0⟩ t0 task
          (le_refl _) (by simp [hrun]) (by simp [hrun]) htask
        cases hs : startNextComboTask
            { m with comboActive := m.comboActive.set cb.Name ⟨cb, 0, "", 0⟩ } ⟨cb, 0, "", 0⟩ with
        | none => rw [hs] at hnext; simp at hnext
        | some r =>
          obtain ⟨m2, run2, cmd⟩ := r
          have heff := startNextComboTask_effect _ m2 _ run2 cmd hs
          have hwait := startNextComboTask_waiting _ m2 _ run2 cmd hs
          have hw : run2.WaitingOn = t0 := by
            have := (hwait.2.2 (by simp [hrun])).2
            simp [hrun] at this
            exact this.symm
          have hrun2 : run2 = ⟨cb, 0, t0, 0⟩ := by
            obtain ⟨d, i, w, p⟩ := run2
            simp only at heff hw
            obtain ⟨_, _, _, hd, hi, hp⟩ := heff
            simp only [comboRun.mk.injEq]
            exact ⟨hd, hi, hw, hp⟩
          have hk : ∀ t, (m2.taskByName.get t).isSome = (m.taskByName.get t).isSome := heff.2.1
          have htrig : triggerCombo m comboName =
              some ({ m2 with comboActive := m2.comboActive.set cb.Name run2 }, cmd.toList) := by
            unfold triggerCombo
            rw [hcb]
            dsimp only
            rw [hok]
            simp only [Bool.false_eq_true, if_false, hpar]
            rw [hs]
          refine ⟨_, _, htrig, CombosValid.of_tables m _ hv hk hwait.1,
            ComboInv.of_entries m _ hinv hk ?_, ?_⟩
          · intro name run' hg
            simp only at hg
            by_cases hn : name = cb.Name
            · subst hn
              rw [GoMap.get_set_self] at hg
              simp only [Option.some.injEq] at hg
              rw [← hg, hrun2]
              refine Or.inr ⟨le_refl _, hknown, fun _ => ⟨?_, ?_⟩⟩
              · simp [hrun]
              · simp [hrun]
            · rw [GoMap.get_set_of_ne _ _ _ _ hn, heff.1] at hg
              simp only at hg
              rw [GoMap.get_set_of_ne _ _ _ _ hn] at hg
              exact Or.inl hg
          · intro cb' h _ _
            simp only [Option.some.injEq] at h
            subst h
            refine ⟨t0, by simp [hrun], ?_⟩
            simp only
            rw [GoMap.get_set_self, hrun2]

/-- C30: on tables whose combos have a run that is not empty and names only
known tasks, the invariant of the runs in flight (every index is at least 0,
and every sequential run has `Index < len(Run)` and `WaitingOn = Run[Index]`)
holds of a model with no run in flight, such as a fresh one, and is kept by
every function that touches the tables. `triggerCombo` returns and keeps it,
leaving an accepted sequential combo at index 0 awaiting its first task;
`advanceCombos` returns and keeps it, so where the next index would be past
the end the run is removed; `handleTaskFinished` and `startTask` keep it. -/
theorem comboInv_preserved (m : model) (hv : CombosValid m) (hinv : ComboInv m) :
    (∀ cfg : Config, ComboInv (newModel cfg)) ∧
    (∀ comboName : String, ∃ (m' : model) (cmds : List String),
      triggerCombo m comboName = some (m', cmds) ∧ CombosValid m' ∧ ComboInv m' ∧
      ∀ cb, m.comboByName.get comboName = some cb → isComboDisabled m comboName = false →
        cb.Mode ≠ "parallel" →
        ∃ t0, cb.Run.head? = some t0 ∧ m'.comboActive.get cb.Name = some ⟨cb, 0, t0, 0⟩) ∧
    (∀ (msg : TaskFinishedMsg) (cmds : List String), ∃ (m' : model) (cmds' : List String),
      advanceCombos m msg cmds = some (m', cmds') ∧ CombosValid m' ∧ ComboInv m') ∧
    (∀ msg : TaskFinishedMsg,
      CombosValid (handleTaskFinished m msg) ∧ ComboInv (handleTaskFinished m msg)) ∧
    (∀ (t : String) (fromCombo : Bool),
      CombosValid (startTask m t fromCombo).1 ∧ ComboInv (startTask m t fromCombo).1) := by
  refine ⟨fun cfg => comboInv_of_idle _ rfl, fun comboName => triggerCombo_inv m comboName hv hinv,
    ?_, ?_, ?_⟩
  · intro msg cmds
    unfold advanceCombos
    split_ifs
    · exact ⟨m, cmds, rfl, hv, hinv⟩
    · exact advanceLoop_inv msg _ m cmds hv hinv
  · intro msg
    have hk : ∀ t, ((handleTaskFinished m msg).taskByName.get t).isSome =
        (m.taskByName.get t).isSome := by
      intro t
      unfold handleTaskFinished
      cases hg : m.taskByName.get msg.TaskID with
      | none => rfl
      | some task =>
        dsimp only
        by_cases ht : t = msg.TaskID
        · subst ht
          simp [GoMap.get_set_self, hg]
        · simp [GoMap.get_set_of_ne _ _ _ _ ht]
    have hact : (handleTaskFinished m msg).comboActive = m.comboActive ∧
        (handleTaskFinished m msg).comboByName = m.comboByName := by
      unfold handleTaskFinished
      cases m.taskByName.get msg.TaskID <;> exact ⟨rfl, rfl⟩
    exact ⟨CombosValid.of_tables m _ hv hk hact.2,
      ComboInv.of_entries m _ hinv hk (fun name run' hg => Or.inl (by rw [← hact.1]; exact hg))⟩
  · intro t fromCombo
    exact ⟨CombosValid.of_tables m _ hv (startTask_known m t fromCombo)
        (startTask_tables m t fromCombo).1,
      ComboInv.of_entries m _ hinv (startTask_known m t fromCombo)
        (fun name run' hg => Or.inl (by rw [← startTask_comboActive m t fromCombo]; exact hg))⟩

/-- Witness of `comboInv_preserved`: with combo `X` of the sample configuration
in flight, the notification that `a` finished leaves tables that satisfy the
invariant. -/
theorem comboInv_preserved_witness :
    ∃ (m' : model) (cmds' : List String),
      advanceCombos (sampleAfter ["X"]) finishedA [] = some (m', cmds') ∧
        CombosValid m' ∧ ComboInv m' :=
  (comboInv_preserved (sampleAfter ["X"]) (combosValid_of_check _ (by decide))
    ⟨comboWF_of_check _ (by decide), by
      intro name run hg _
      have hmem := GoMap.mem_of_get _ _ _ hg
      have hact : (sampleAfter ["X"]).comboActive =
          [("X", ⟨⟨"X", "x", "sequential", ["a", "b"], none⟩, 0, "a", 0⟩)] := by decide
      rw [hact] at hmem
      simp only [List.mem_singleton, Prod.mk.injEq] at hmem
      rw [hmem.2]
      exact ⟨by decide, by decide⟩⟩).2.2.1 finishedA []

/-! ### Parallel combos -/

/-- Handling a parallel combo in flight: its pending count goes down by one,
and the combo is removed when the count was 1 (or less); the notification's
error plays no part. -/
theorem advanceCombo_parallel (m : model) (msg : TaskFinishedMsg) (name : String)
    (cmds : List String) (run : comboRun) (hg : m.comboActive.get name = some run)
    (hpar : run.Def.Mode = "parallel") :
    advanceCombo m msg name cmds =
      some (if run.Pending ≤ 1 then { m with comboActive := m.comboActive.delete name }
        else { m with comboActive :=
          m.comboActive.set name { run with Pending := run.Pending - 1 } }, cmds) := by
  unfold advanceCombo
  rw [hg]
  dsimp only
  rw [if_pos hpar]
  by_cases h0 : run.Pending > 0
  · by_cases h1 : run.Pending ≤ 1
    · have : run.Pending - 1 ≤ 0 := by omega
      simp [h0, h1, this]
    · have : ¬run.Pending - 1 ≤ 0 := by omega
      simp [h0, h1, this]
  · have h1 : run.Pending ≤ 1 := by omega
    have h2 : run.Pending ≤ 0 := by omega
    simp [h0, h1, h2]

/-- The loop leaves alone the run of a combo that is not in its list. -/
theorem advanceLoop_untouched (msg : TaskFinishedMsg) (names : List String) (name : String)
    (m m' : model) (cmds cmds' : List String) (hnot : name ∉ names)
    (h : advanceLoop msg names m cmds = some (m', cmds')) :
    m'.comboActive.get name = m.comboActive.get name := by
  refine advanceLoop_invariant msg (fun x => x.comboActive.get name = m.comboActive.get name)
    names ?_ m m' cmds cmds' rfl h
  intro a b c d e hc ha hbody
  have hne : name ≠ c := fun heq => hnot (heq ▸ hc)
  rw [advanceCombo_frame a b msg c name d e hne hbody]
  exact ha

/-- The loop leaves `combosByTask` alone. -/
theorem advanceLoop_combosByTask (msg : TaskFinishedMsg) (names : List String)
    (m m' : model) (cmds cmds' : List String)
    (h : advanceLoop msg names m cmds = some (m', cmds')) :
    m'.combosByTask = m.combosByTask := by
  refine advanceLoop_invariant msg (fun x => x.combosByTask = m.combosByTask) names ?_ m m' cmds
    cmds' rfl h
  intro a b c d e _ ha hbody
  rw [(advanceCombo_step a b msg c d e hbody).2.2.1]
  exact ha

/-- The loop over a list that names a parallel combo in flight once: the
combo's pending count goes down by one, and the combo is removed when the
count was 1. -/
theorem advanceLoop_parallel_once (msg : TaskFinishedMsg) (names : List String) (name : String)
    (run : comboRun) (hcount : names.count name = 1) (hpar : run.Def.Mode = "parallel")
    (m m' : model) (cmds cmds' : List String) (hg : m.comboActive.get name = some run)
    (h : advanceLoop msg names m cmds = some (m', cmds')) :
    m'.comboActive.get name =
      if run.Pending ≤ 1 then none else some { run with Pending := run.Pending - 1 } := by
  induction names generalizing m cmds with
  | nil => simp at hcount
  | cons c rest ih =>
    rw [advanceLoop] at h
    cases hc : advanceCombo m msg c cmds with
    | none => rw [hc] at h; simp at h
    | some r =>
      obtain ⟨m1, cmds1⟩ := r
      rw [hc] at h
      by_cases hname : name = c
      · subst hname
        have hnot : name ∉ rest := by
          rw [List.count_cons_self] at hcount
          exact List.count_eq_zero.mp (by omega)
        rw [advanceLoop_untouched msg rest name m1 m' cmds1 cmds' hnot h]
        rw [advanceCombo_parallel m msg name cmds run hg hpar] at hc
        simp only [Option.some.injEq, Prod.mk.injEq] at hc
        rw [← hc.1]
        by_cases h1 : run.Pending ≤ 1
        · simp only [h1, if_true]
          exact GoMap.get_delete_self _ _
        · simp only [h1, if_false]
          exact GoMap.get_set_self _ _ _
      · have hcount' : rest.count name = 1 := by
          rwa [List.count_cons_of_ne hname] at hcount
        refine ih hcount' m1 cmds1 ?_ h
        rw [advanceCombo_frame m m1 msg c name cmds cmds1 hname hc]
        exact hg

/-- On well-formed tables `advanceCombos` returns and leaves well-formed
tables with the same `combosByTask`. -/
theorem advanceCombos_total (m : model) (msg : TaskFinishedMsg) (cmds : List String)
    (hwf : ComboWF m) :
    ∃ (m' : model) (cmds' : List String), advanceCombos m msg cmds = some (m', cmds') ∧
      ComboWF m' ∧ m'.combosByTask = m.combosByTask ∧
      (m.comboActive.length ≠ 0 →
        advanceLoop msg ((m.combosByTask.get msg.TaskID).getD []) m cmds = some (m', cmds')) := by
  unfold advanceCombos
  split_ifs with h0
  · exact ⟨m, cmds, rfl, hwf, rfl, fun h => absurd h0 h⟩
  · obtain ⟨m', cmds', h, hwf'⟩ := advanceLoop_total msg
      ((m.combosByTask.get msg.TaskID).getD []) m cmds hwf
    exact ⟨m', cmds', h, hwf', advanceLoop_combosByTask msg _ m m' cmds cmds' h, fun _ => h⟩

/-- A combo that is not in flight stays out of `comboActive` through any
sequence of notifications. -/
theorem advanceMany_absent (msgs : List TaskFinishedMsg) (m : model) (name : String)
    (hwf : ComboWF m) (hg : m.comboActive.get name = none) :
    ∃ m', advanceMany msgs m = some m' ∧ m'.comboActive.get name = none := by
  induction msgs generalizing m with
  | nil => exact ⟨m, rfl, hg⟩
  | cons msg rest ih =>
    obtain ⟨m1, cmds1, h1, hwf1, _, hloop⟩ := advanceCombos_total m msg [] hwf
    have hg1 : m1.comboActive.get name = none := by
      by_cases h0 : m.comboActive.length = 0
      · rw [advanceCombos, if_pos h0] at h1
        simp only [Option.some.injEq, Prod.mk.injEq] at h1
        rw [← h1.1]
        exact hg
      · exact advanceLoop_absent msg _ name m m1 [] cmds1 hg (hloop h0)
    obtain ⟨m', h', hg'⟩ := ih m1 hwf1 hg1
    exact ⟨m', by rw [advanceMany, h1]; exact h', hg'⟩

/-- One notification and a parallel combo in flight, listed once under each
task of its `Run` and under no other task. -/
theorem advanceCombos_parallel_step (m : model) (msg : TaskFinishedMsg) (cmds : List String)
    (name : String) (run : comboRun) (hwf : ComboWF m)
    (hg : m.comboActive.get name = some run) (hpar : run.Def.Mode = "parallel")
    (hlist : ∀ t, ((m.combosByTask.get t).getD []).count name =
      if t ∈ run.Def.Run then 1 else 0) :
    ∃ (m' : model) (cmds' : List String), advanceCombos m msg cmds = some (m', cmds') ∧
      ComboWF m' ∧ m'.combosByTask = m.combosByTask ∧
      m'.comboActive.get name =
        if msg.TaskID ∈ run.Def.Run then
          (if run.Pending ≤ 1 then none else some { run with Pending := run.Pending - 1 })
        else some run := by
  obtain ⟨m', cmds', h, hwf', hby, hloop⟩ := advanceCombos_total m msg cmds hwf
  have hlen : m.comboActive.length ≠ 0 := by
    intro h0
    rw [List.length_eq_zero.mp h0] at hg
    simp [GoMap.get] at hg
  refine ⟨m', cmds', h, hwf', hby, ?_⟩
  by_cases ht : msg.TaskID ∈ run.Def.Run
  · rw [if_pos ht]
    have hc := hlist msg.TaskID
    rw [if_pos ht] at hc
    exact advanceLoop_parallel_once msg _ name run hc hpar m m' cmds cmds' hg (hloop hlen)
  · rw [if_neg ht]
    have hc := hlist msg.TaskID
    rw [if_neg ht] at hc
    rw [advanceLoop_untouched msg _ name m m' cmds cmds' (List.count_eq_zero.mp hc) (hloop hlen)]
    exact hg

/-- A sequence of notifications and a parallel combo in flight, listed once
under each task of its `Run` and under no other task: the pending count goes
down by the number of notifications for tasks of `Run`, and the combo is
removed when that number reaches the count. -/
theorem advanceMany_parallel (msgs : List TaskFinishedMsg) (m : model) (name : String)
    (run : comboRun) (hwf : ComboWF m) (hg : m.comboActive.get name = some run)
    (hpar : run.Def.Mode = "parallel") (hpos : 1 ≤ run.Pending)
    (hlist : ∀ t, ((m.combosByTask.get t).getD []).count name =
      if t ∈ run.Def.Run then 1 else 0) :
    ∃ m', advanceMany msgs m = some m' ∧
      m'.comboActive.get name =
        if ((msgs.countP (fun msg => decide (msg.TaskID ∈ run.Def.Run)) : Nat) : Int) <
            run.Pending then
          some { run with Pending := run.Pending -
            ((msgs.countP (fun msg => decide (msg.TaskID ∈ run.Def.Run)) : Nat) : Int) }
        else none := by
  induction msgs generalizing m run with
  | nil =>
    refine ⟨m, rfl, ?_⟩
    have : ((0 : Nat) : Int) < run.Pending := by omega
    simp only [List.countP_nil, this, if_true]
    rw [hg]
    simp
  | cons msg rest ih =>
    obtain ⟨m1, cmds1, h1, hwf1, hby, hent⟩ :=
      advanceCombos_parallel_step m msg [] name run hwf hg hpar hlist
    have hadv : ∀ r, advanceMany rest m1 = r → advanceMany (msg :: rest) m = r := by
      intro r hr
      rw [advanceMany, h1]
      exact hr
    by_cases ht : msg.TaskID ∈ run.Def.Run
    · rw [if_pos ht] at hent
      have hcp : (msg :: rest).countP (fun msg => decide (msg.TaskID ∈ run.Def.Run)) =
          rest.countP (fun msg => decide (msg.TaskID ∈ run.Def.Run)) + 1 := by
        rw [List.countP_cons_of_pos]
        simpa using ht
      by_cases hone : run.Pending ≤ 1
      · rw [if_pos hone] at hent
        obtain ⟨m', h', hg'⟩ := advanceMany_absent rest m1 name hwf1 hent
        refine ⟨m', hadv _ h', ?_⟩
        rw [hg', hcp, if_neg]
        push_cast
        omega
      · rw [if_neg hone] at hent
        obtain ⟨m', h', hg'⟩ := ih m1 { run with Pending := run.Pending - 1 } hwf1 hent hpar
          (by simp only; omega) (by rw [hby]; exact hlist)
        refine ⟨m', hadv _ h', ?_⟩
        rw [hg', hcp]
        simp only
        push_cast
        by_cases hlt : ((rest.countP (fun msg => decide (msg.TaskID ∈ run.Def.Run)) : Nat) : Int) <
            run.Pending - 1
        · rw [if_pos hlt, if_pos (by omega)]
          congr 2
          omega
        · rw [if_neg hlt, if_neg (by omega)]
    · rw [if_neg ht] at hent
      have hcp : (msg :: rest).countP (fun msg => decide (msg.TaskID ∈ run.Def.Run)) =
          rest.countP (fun msg => decide (msg.TaskID ∈ run.Def.Run)) := by
        rw [List.countP_cons_of_neg]
        simpa using ht
      obtain ⟨m', h', hg'⟩ := ih m1 run hwf1 hent hpar hpos (by rw [hby]; exact hlist)
      exact ⟨m', hadv _ h', by rw [hg', hcp]⟩

/-- Notifications for distinct tasks cover a list of distinct tasks exactly
when as many of them are for tasks of the list as the list is long. -/
theorem covers_iff_count (run : List String) (ids : List String) (hrun : run.Nodup)
    (hids : ids.Nodup) :
    run.length ≤ ids.countP (fun t => decide (t ∈ run)) ↔ ∀ t ∈ run, t ∈ ids := by
  rw [List.countP_eq_length_filter]
  have hnd : (ids.filter (fun t => decide (t ∈ run))).Nodup := hids.filter _
  have hsub : ids.filter (fun t => decide (t ∈ run)) ⊆ run := by
    intro t ht
    simpa using (List.mem_filter.mp ht).2
  constructor
  · intro hle t ht
    have hperm := (List.subperm_of_subset hnd hsub).perm_of_length_le hle
    exact (List.mem_filter.mp ((hperm.mem_iff).mpr ht)).1
  · intro hall
    have hsub' : run ⊆ ids.filter (fun t => decide (t ∈ run)) := by
      intro t ht
      exact List.mem_filter.mpr ⟨hall t ht, by simpa using ht⟩
    exact (List.subperm_of_subset hrun hsub').length_le

/-- C22 (amended): a parallel combo in flight on well-formed tables, with a
pending count of at least 1, listed once under each task of its `Run` and under
no other task. One notification for a task of `Run`, with or without an error,
lowers the pending count by one and removes the combo exactly when the count
was 1; a notification for another task leaves the run as it is. So after any
sequence of notifications the count is lowered by the number of those for
tasks of `Run`, the combo being removed once that number reaches the count.
When `Run` names distinct tasks, the count starts at `len(Run)` and no task
finishes twice in the sequence, the combo has been removed exactly when every
task of `Run` has finished. -/
theorem advanceCombos_parallel_countdown (m : model) (name : String) (run : comboRun)
    (hwf : ComboWF m) (hg : m.comboActive.get name = some run)
    (hpar : run.Def.Mode = "parallel") (hpos : 1 ≤ run.Pending)
    (hlist : ∀ t, ((m.combosByTask.get t).getD []).count name =
      if t ∈ run.Def.Run then 1 else 0) :
    (∀ (msg : TaskFinishedMsg) (cmds : List String), ∃ (m' : model) (cmds' : List String),
      advanceCombos m msg cmds = some (m', cmds') ∧
      m'.comboActive.get name =
        if msg.TaskID ∈ run.Def.Run then
          (if run.Pending ≤ 1 then none else some { run with Pending := run.Pending - 1 })
        else some run) ∧
    (∀ msgs : List TaskFinishedMsg, ∃ m', advanceMany msgs m = some m' ∧
      m'.comboActive.get name =
        if ((msgs.countP (fun msg => decide (msg.TaskID ∈ run.Def.Run)) : Nat) : Int) <
            run.Pending then
          some { run with Pending := run.Pending -
            ((msgs.countP (fun msg => decide (msg.TaskID ∈ run.Def.Run)) : Nat) : Int) }
        else none) ∧
    (run.Def.Run.Nodup → run.Pending = run.Def.Run.length →
      ∀ msgs : List TaskFinishedMsg, (msgs.map (fun msg => msg.TaskID)).Nodup →
        ∃ m', advanceMany msgs m = some m' ∧
          (m'.comboActive.get name = none ↔
            ∀ t ∈ run.Def.Run, t ∈ msgs.map (fun msg => msg.TaskID))) := by
  refine ⟨?_, fun msgs => advanceMany_parallel msgs m name run hwf hg hpar hpos hlist, ?_⟩
  · intro msg cmds
    obtain ⟨m', cmds', h, _, _, hent⟩ :=
      advanceCombos_parallel_step m msg cmds name run hwf hg hpar hlist
    exact ⟨m', cmds', h, hent⟩
  · intro hnd hp msgs hids
    obtain ⟨m', h, hent⟩ := advanceMany_parallel msgs m name run hwf hg hpar hpos hlist
    refine ⟨m', h, ?_⟩
    have hcount : msgs.countP (fun msg => decide (msg.TaskID ∈ run.Def.Run)) =
        (msgs.map (fun msg => msg.TaskID)).countP (fun t => decide (t ∈ run.Def.Run)) := by
      rw [List.countP_map]
      rfl
    have hcov := covers_iff_count run.Def.Run (msgs.map (fun msg => msg.TaskID)) hnd hids
    rw [hent, ← hcov, ← hcount, hp]
    by_cases hlt : ((msgs.countP (fun msg => decide (msg.TaskID ∈ run.Def.Run)) : Nat) : Int) <
        (run.Def.Run.length : Int)
    · rw [if_pos hlt]
      constructor
      · intro h0
        simp at h0
      · intro hle
        omega
    · rw [if_neg hlt]
      constructor
      · intro _
        omega
      · intro _
        rfl

/-- Witness of `advanceCombos_parallel_countdown`: with the parallel combo `Y`
(`b` and `c`) of the sample configuration in flight, the failure of `b` leaves
`Y` in flight with a pending count of 1. -/
theorem advanceCombos_parallel_countdown_witness :
    ∃ (m' : model) (cmds' : List String),
      advanceCombos (sampleAfter ["Y"]) ⟨"b", 1, some (.ExitError 1), false⟩ [] =
        some (m', cmds') ∧
      m'.comboActive.get "Y" =
        if "b" ∈ (["b", "c"] : List String) then
          (if (2 : Int) ≤ 1 then none
            else some ⟨⟨"Y", "y", "parallel", ["b", "c"], none⟩, 0, "", 2 - 1⟩)
        else some ⟨⟨"Y", "y", "parallel", ["b", "c"], none⟩, 0, "", 2⟩ :=
  (advanceCombos_parallel_countdown (sampleAfter ["Y"]) "Y"
    ⟨⟨"Y", "y", "parallel", ["b", "c"], none⟩, 0, "", 2⟩ (comboWF_of_check _ (by decide))
    (by decide) rfl (by decide)
    (by
      intro t
      have hby : (sampleAfter ["Y"]).combosByTask =
          [("b", ["X", "Y", "D"]), ("a", ["X", "D", "D"]), ("c", ["Y"])] := by decide
      rw [hby]
      by_cases hb : t = "b"
      · subst hb
        decide
      · by_cases hc : t = "c"
        · subst hc
          decide
        · by_cases ha : t = "a"
          · subst ha
            decide
          · have h1 : ¬"b" = t := fun e => hb e.symm
            have h2 : ¬"a" = t := fun e => ha e.symm
            have h3 : ¬"c" = t := fun e => hc e.symm
            simp [GoMap.get, h1, h2, h3, hb, hc])).1 ⟨"b", 1, some (.ExitError 1), false⟩ []

/-- Counterexample to C22 as stated. In the sample configuration the parallel
combo `Y` (`b` and `c`) is triggered and `b` finishes, leaving `Y` with a
pending count of 1. The sequential combo `X` (`a` then `b`) is then accepted,
since neither of its tasks is running; `a` finishes and `X` starts `b` again;
when this second run of `b` finishes, `Y` is removed from `comboActive` while
its task `c` is still running and has never finished. -/
theorem advanceCombos_parallel_countdown_counterexample :
    ((deliver (sampleAfter ["Y"]) finishedB).map
        (fun m1 => (m1.comboActive.get "Y").map (fun run => run.Pending))) = some (some 1) ∧
    ((deliver (sampleAfter ["Y"]) finishedB).bind (fun m1 =>
        (triggerCombo m1 "X").bind (fun r =>
          (deliver r.1 finishedA).bind (fun m3 => deliver m3 finishedB)))).map
        (fun m4 => (m4.comboActive.get "Y", taskRunning m4 "c", m4.started)) =
      some (none, true, ["b", "c", "a", "b"]) ∧
    (advanceMany [finishedB, finishedB] (sampleAfter ["Y"])).map
        (fun m' => m'.comboActive.get "Y") = some none := by
  decide

/-! ### Started and Finished events are balanced -/

/-- Nothing added is balanced. -/
theorem addsBalanced_refl {σ : Type} (w : World σ) : AddsBalanced w w :=
  ⟨[], by simp, Balanced.nil⟩

/-- Balanced additions compose. -/
theorem addsBalanced_trans {σ : Type} {w1 w2 w3 : World σ} (h12 : AddsBalanced w1 w2)
    (h23 : AddsBalanced w2 w3) : AddsBalanced w1 w3 := by
  obtain ⟨t1, ht1, hb1⟩ := h12
  obtain ⟨t2, ht2, hb2⟩ := h23
  exact ⟨t1 ++ t2, by rw [ht2, ht1, List.append_assoc], Balanced.append t1 t2 hb1 hb2⟩

/-- Output lines are balanced. -/
theorem balanced_lines (target : String) (lines : List String) :
    Balanced (lines.map (fun line => Event.msg (.TaskOutputMsg target line))) := by
  induction lines with
  | nil => exact Balanced.nil
  | cons line rest ih =>
    exact Balanced.append [_] _ (Balanced.output target line) ih

/-- `runSingle` adds a balanced sequence: a launch and output lines. -/
theorem runSingle_balanced {σ : Type} (E : Env σ) (w : World σ) (command shell : String)
    (init : CommandList) (target : String) :
    AddsBalanced w (runSingle E w command shell init target).1 := by
  obtain ⟨lines, hl⟩ := runSingle_trace E w command shell init target
  exact ⟨_, hl, Balanced.append [_] _ (Balanced.launch _) (balanced_lines target lines)⟩

/-- A balanced addition between `StepStarted` and `StepFinished` is a balanced addition. -/
theorem AddsBalanced.step {σ : Type} (E : Env σ) (w w2 : World σ) (id : String)
    (exitCode : Int) (err : Option Err) (h : AddsBalanced (w.send (.StepStartedMsg id)) w2) :
    AddsBalanced w
      ((w2.canceled E).1.send (.StepFinishedMsg id exitCode err (w2.canceled E).2)) := by
  obtain ⟨t, ht, hb⟩ := h
  refine ⟨Event.msg (.StepStartedMsg id) :: t ++
    [Event.msg (.StepFinishedMsg id exitCode err (w2.canceled E).2)], ?_,
    Balanced.step id exitCode err _ t hb⟩
  simp [World.send, canceled_trace, ht]

/-- `runStep` adds a balanced sequence: nothing, or a step bracket. -/
theorem runStep_balanced {σ : Type} (E : Env σ) (invoke : Invoke σ)
    (hinv : InvokeBalanced invoke) (w w' : World σ) (taskName : String) (step : Step)
    (mode : StepMode) (index : Int) (shell : String) (init : CommandList)
    (resolve : String → TaskDef × Bool) (stack : List String) (exitCode : Int)
    (err : Option Err)
    (hrun : runStep E invoke w taskName step mode index shell init resolve stack =
      some (w', exitCode, err)) :
    AddsBalanced w w' := by
  unfold runStep at hrun
  dsimp only at hrun
  split_ifs at hrun with h1 h2 h3 h4 h5
  · simp only [Option.some.injEq, Prod.mk.injEq] at hrun
    rw [← hrun.1]; exact addsBalanced_refl w
  · simp only [Option.some.injEq, Prod.mk.injEq] at hrun
    rw [← hrun.1]; exact addsBalanced_refl w
  · simp only [Option.some.injEq, Prod.mk.injEq] at hrun
    rw [← hrun.1]; exact addsBalanced_refl w
  · cases hi : invoke (w.send (.StepStartedMsg (stepID taskName mode index)))
        (resolveStepKind step (some resolve)).2
        (resolve (resolveStepKind step (some resolve)).2).1
        ((resolveStepKind step (some resolve)).2 :: cloneStack stack) with
    | none => rw [hi] at hrun; simp at hrun
    | some r =>
      obtain ⟨w2, c2, e2⟩ := r
      rw [hi] at hrun
      simp only [Option.some.injEq, Prod.mk.injEq] at hrun
      rw [← hrun.1]
      exact AddsBalanced.step E w w2 _ c2 e2 (hinv _ _ _ _ _ _ _ hi)
  · simp only [Option.some.injEq, Prod.mk.injEq] at hrun
    rw [← hrun.1]
    exact AddsBalanced.step E w _ _ _ _ (runSingle_balanced E _ _ shell init _)
  · simp only [Option.some.injEq, Prod.mk.injEq] at hrun
    rw [← hrun.1]; exact addsBalanced_refl w

/-- The loop of `runSequential` adds a balanced sequence. -/
theorem seqLoop_balanced {σ : Type} (E : Env σ) (invoke : Invoke σ)
    (hinv : InvokeBalanced invoke) (taskName : String) (mode : StepMode) (shell : String)
    (init : CommandList) (resolve : String → TaskDef × Bool) (stack : List String) (idx : Nat)
    (steps : StepList) (w w' : World σ) (exitCode : Int) (err : Option Err)
    (hrun : seqLoop E invoke taskName mode shell init resolve stack idx steps w =
      some (w', exitCode, err)) :
    AddsBalanced w w' := by
  induction steps generalizing idx w with
  | nil =>
    simp only [seqLoop, Option.some.injEq, Prod.mk.injEq] at hrun
    rw [← hrun.1]; exact addsBalanced_refl w
  | cons step rest ih =>
    rw [seqLoop] at hrun
    cases hs : runStep E invoke w taskName step mode idx shell init resolve stack with
    | none => rw [hs] at hrun; simp at hrun
    | some r =>
      obtain ⟨w1, c1, e1⟩ := r
      have h1 := runStep_balanced E invoke hinv w w1 taskName step mode idx shell init resolve
        stack c1 e1 hs
      rw [hs] at hrun
      dsimp only at hrun
      split_ifs at hrun
      · simp only [Option.some.injEq, Prod.mk.injEq] at hrun
        rw [← hrun.1]; exact h1
      · exact addsBalanced_trans h1 (ih (idx + 1) w1 hrun)

/-- The branches of `runParallel`, taken one after another, add a balanced sequence. -/
theorem parLoop_balanced {σ : Type} (E : Env σ) (invoke : Invoke σ)
    (hinv : InvokeBalanced invoke) (taskName : String) (mode : StepMode) (shell : String)
    (init : CommandList) (resolve : String → TaskDef × Bool) (stack : List String) (n : Nat)
    (pending : List (Nat × Step)) (w w' : World σ) (results results' : List (Nat × result))
    (hrun : parLoop E invoke taskName mode shell init resolve stack n pending w results =
      some (w', results')) :
    AddsBalanced w w' := by
  induction n generalizing pending w results with
  | zero =>
    simp only [parLoop, Option.some.injEq, Prod.mk.injEq] at hrun
    rw [← hrun.1]; exact addsBalanced_refl w
  | succ n ih =>
    rw [parLoop] at hrun
    have hpick : AddsBalanced w { w with env := (E.pick w.env pending.length).1 } :=
      ⟨[], by simp, Balanced.nil⟩
    cases hp : pending.get? ((E.pick w.env pending.length).2 % pending.length) with
    | none =>
      rw [hp] at hrun
      simp only [Option.some.injEq, Prod.mk.injEq] at hrun
      rw [← hrun.1]; exact hpick
    | some p =>
      obtain ⟨idx, step⟩ := p
      rw [hp] at hrun
      dsimp only at hrun
      cases hs : runStep E invoke { w with env := (E.pick w.env pending.length).1 } taskName step
          mode idx shell init resolve (cloneStack stack) with
      | none => rw [hs] at hrun; simp at hrun
      | some r =>
        obtain ⟨w1, c1, e1⟩ := r
        rw [hs] at hrun
        have h1 := runStep_balanced E invoke hinv _ w1 taskName step mode idx shell init resolve
          _ c1 e1 hs
        exact addsBalanced_trans (addsBalanced_trans hpick h1) (ih _ w1 _ hrun)

/-- The steps of an invocation add a balanced sequence. -/
theorem runTaskSteps_balanced {σ : Type} (E : Env σ) (invoke : Invoke σ)
    (hinv : InvokeBalanced invoke) (w w' : World σ) (taskName : String) (tdef : TaskDef)
    (shell : String) (init : CommandList) (resolve : String → TaskDef × Bool)
    (stack : List String) (exitCode : Int) (err : Option Err)
    (hrun : runTaskSteps E invoke w taskName tdef shell init resolve stack =
      some (w', exitCode, err)) :
    AddsBalanced w w' := by
  unfold runTaskSteps at hrun
  dsimp only at hrun
  split_ifs at hrun with h1 h2
  · cases hsteps : (taskSteps taskName tdef (some resolve)).2.1 with
    | nil =>
      rw [hsteps] at hrun
      simp only [Option.some.injEq, Prod.mk.injEq] at hrun
      rw [← hrun.1]; exact addsBalanced_refl w
    | cons step0 rest =>
      rw [hsteps] at hrun
      dsimp only at hrun
      split_ifs at hrun with h3 h4 h5 h6
      · simp only [Option.some.injEq, Prod.mk.injEq] at hrun
        rw [← hrun.1]; exact addsBalanced_refl w
      · simp only [Option.some.injEq, Prod.mk.injEq] at hrun
        rw [← hrun.1]; exact addsBalanced_refl w
      · cases hi : invoke w (resolveStepKind step0 (some resolve)).2
            (resolve (resolveStepKind step0 (some resolve)).2).1
            ((resolveStepKind step0 (some resolve)).2 :: cloneStack stack) with
        | none => rw [hi] at hrun; simp at hrun
        | some r =>
          obtain ⟨w2, c2, e2⟩ := r
          have h7 := hinv _ _ _ _ _ _ _ hi
          rw [hi] at hrun
          dsimp only at hrun
          split_ifs at hrun
          · simp only [Option.some.injEq, Prod.mk.injEq] at hrun
            rw [← hrun.1]; exact h7
          · simp only [Option.some.injEq, Prod.mk.injEq] at hrun
            rw [← hrun.1]; exact h7
      · simp only [Option.some.injEq, Prod.mk.injEq] at hrun
        rw [← hrun.1]; exact runSingle_balanced E w _ shell init _
      · simp only [Option.some.injEq, Prod.mk.injEq] at hrun
        rw [← hrun.1]; exact runSingle_balanced E w _ shell init _
  · unfold runParallel at hrun
    split_ifs at hrun
    · simp only [Option.some.injEq, Prod.mk.injEq] at hrun
      rw [← hrun.1]; exact addsBalanced_refl w
    · cases hp : parLoop E invoke taskName (taskSteps taskName tdef (some resolve)).1 shell init
          resolve stack (taskSteps taskName tdef (some resolve)).2.1.length
          (taskSteps taskName tdef (some resolve)).2.1.enum w [] with
      | none => rw [hp] at hrun; simp at hrun
      | some r =>
        obtain ⟨w1, results⟩ := r
        rw [hp] at hrun
        simp only [Option.some.injEq, Prod.mk.injEq] at hrun
        rw [← hrun.1]
        exact parLoop_balanced E invoke hinv taskName _ shell init resolve stack _ _ w w1 []
          results hp
  · unfold runSequential at hrun
    split_ifs at hrun
    · simp only [Option.some.injEq, Prod.mk.injEq] at hrun
      rw [← hrun.1]; exact addsBalanced_refl w
    · exact seqLoop_balanced E invoke hinv taskName _ shell init resolve stack 0 _ w w'
        exitCode err hrun

/-- An invocation that returns adds the bracket of its task around a balanced sequence. -/
theorem runTaskInternal_bracket {σ : Type} (E : Env σ) (shell : String) (init : CommandList)
    (resolve : String → TaskDef × Bool) (depth : Nat) :
    ∀ (stack : List String) (w w' : World σ) (taskName : String) (tdef : TaskDef)
      (exitCode : Int) (err : Option Err),
      runTaskInternal E depth w taskName tdef shell init (some resolve) stack =
        some (w', exitCode, err) →
      ∃ (inner : List Event) (canceled : Bool),
        w'.trace = w.trace ++ Event.msg (.TaskStartedMsg taskName) :: inner ++
          [Event.msg (.TaskFinishedMsg taskName exitCode err canceled)] ∧
        Balanced inner := by
  induction depth with
  | zero =>
    intro stack w w' taskName tdef exitCode err h
    simp [runTaskInternal] at h
  | succ d ih =>
    intro stack w w' taskName tdef exitCode err h
    rw [runTaskInternal_succ] at h
    cases hs : runTaskSteps E (nested E d shell init resolve) (w.send (.TaskStartedMsg taskName))
        taskName tdef shell init resolve stack with
    | none => rw [hs] at h; simp at h
    | some r =>
      obtain ⟨w1, c1, e1⟩ := r
      rw [hs] at h
      simp only [Option.map_some', Option.some.injEq, Prod.mk.injEq] at h
      obtain ⟨hw, hc, he⟩ := h
      subst hc he
      have hinv : InvokeBalanced (nested E d shell init resolve) := by
        intro wa name child next wb c e hcall
        obtain ⟨inner, b, htr, hbal⟩ := ih next wa wb name child c e hcall
        exact ⟨_, by rw [htr, List.append_assoc], Balanced.task name c e b inner hbal⟩
      obtain ⟨t, ht, hb⟩ := runTaskSteps_balanced E _ hinv _ w1 taskName tdef shell init resolve
        stack c1 e1 hs
      refine ⟨t, (w1.canceled E).2, ?_, hb⟩
      rw [← hw]
      simp [World.send, canceled_trace, ht]

/-- Counting the closing events of a sequence that starts with `e`. -/
theorem closeCount_cons (k : Bool × String) (e : Event) (t : List Event) :
    closeCount k (e :: t) = closeCount k t + if e.closes = some k then 1 else 0 := by
  simp only [closeCount, List.countP_cons]
  by_cases h : e.closes = some k <;> simp [h]

/-- Counting the opening events of a sequence that starts with `e`. -/
theorem openCount_cons (k : Bool × String) (e : Event) (t : List Event) :
    openCount k (e :: t) = openCount k t + if e.opens = some k then 1 else 0 := by
  simp only [openCount, List.countP_cons]
  by_cases h : e.opens = some k <;> simp [h]

/-- Counting the closing events of two sequences one after the other. -/
theorem closeCount_append (k : Bool × String) (a b : List Event) :
    closeCount k (a ++ b) = closeCount k a + closeCount k b := by
  simp only [closeCount, List.countP_append]

/-- Counting the opening events of two sequences one after the other. -/
theorem openCount_append (k : Bool × String) (a b : List Event) :
    openCount k (a ++ b) = openCount k a + openCount k b := by
  simp only [openCount, List.countP_append]

/-- A bracket opened by `o` and closed by `c` around a sequence with the
counting property has the counting property. -/
theorem counts_bracket (k : Bool × String) (o c : Event) (inner : List Event)
    (ho : o.closes = none) (hc : c.opens = none) (hoc : o.opens = c.closes)
    (htot : closeCount k inner = openCount k inner)
    (hpre : ∀ p s, inner = p ++ s → closeCount k p ≤ openCount k p) :
    closeCount k (o :: inner ++ [c]) = openCount k (o :: inner ++ [c]) ∧
      ∀ p s, o :: inner ++ [c] = p ++ s → closeCount k p ≤ openCount k p := by
  have hnil : closeCount k [] = 0 ∧ openCount k [] = 0 := ⟨rfl, rfl⟩
  have ho' : ¬o.closes = some k := by rw [ho]; simp
  have hc' : ¬c.opens = some k := by rw [hc]; simp
  have hall : closeCount k (o :: inner ++ [c]) = openCount k (o :: inner ++ [c]) := by
    rw [List.cons_append, closeCount_cons, openCount_cons, closeCount_append, openCount_append,
      closeCount_cons, openCount_cons, hnil.1, hnil.2, if_neg ho', if_neg hc', hoc, htot]
    omega
  refine ⟨hall, ?_⟩
  intro p s hps
  cases p with
  | nil => exact le_refl _
  | cons e p' =>
    rw [List.cons_append, List.cons_append] at hps
    obtain ⟨he, hrest⟩ := List.cons.inj hps
    subst he
    rcases List.append_eq_append_iff.mp hrest with ⟨a', h1, h2⟩ | ⟨c', h1, h2⟩
    · cases a' with
      | nil =>
        rw [List.append_nil] at h1
        have := hpre p' [] (by rw [h1, List.append_nil])
        rw [closeCount_cons, openCount_cons, if_neg ho']
        omega
      | cons f a'' =>
        have hlen := congrArg List.length h2
        simp only [List.length_cons, List.length_append, List.length_nil] at hlen
        have hs : s = [] := List.length_eq_zero.mp (by omega)
        rw [hs, List.append_nil] at hps
        rw [← hps]
        exact le_of_eq hall
    · have := hpre p' c' h1
      rw [closeCount_cons, openCount_cons, if_neg ho']
      omega

/-- In a balanced sequence every bracket is closed as often as it is opened,
no part from the start closes a bracket more often than it opens it, and no
part up to the end opens a bracket more often than it closes it. -/
theorem Balanced.counts (t : List Event) (h : Balanced t) (k : Bool × String) :
    closeCount k t = openCount k t ∧
      ∀ p s, t = p ++ s →
        closeCount k p ≤ openCount k p ∧ openCount k s ≤ closeCount k s := by
  have leaf : ∀ e : Event, e.opens = none → e.closes = none →
      closeCount k [e] = openCount k [e] ∧
        ∀ p s, [e] = p ++ s → closeCount k p ≤ openCount k p := by
    intro e he1 he2
    have h0 : closeCount k [e] = 0 := by
      rw [closeCount_cons, if_neg (by rw [he2]; simp)]
      rfl
    have h1 : openCount k [e] = 0 := by
      rw [openCount_cons, if_neg (by rw [he1]; simp)]
      rfl
    refine ⟨by rw [h0, h1], ?_⟩
    intro p s hps
    have hle : closeCount k p ≤ closeCount k [e] := by
      rw [hps, closeCount_append]
      omega
    omega
  have key : ∀ t, Balanced t → closeCount k t = openCount k t ∧
      ∀ p s, t = p ++ s → closeCount k p ≤ openCount k p := by
    intro t h
    induction h with
    | nil =>
      refine ⟨rfl, ?_⟩
      intro p s hps
      have hp : p = [] := (List.append_eq_nil.mp hps.symm).1
      rw [hp]
      exact le_refl _
    | launch l => exact leaf _ rfl rfl
    | output target line => exact leaf _ rfl rfl
    | task name exitCode err canceled inner _ ih =>
      exact counts_bracket k _ _ inner rfl rfl rfl ih.1 ih.2
    | step id exitCode err canceled inner _ ih =>
      exact counts_bracket k _ _ inner rfl rfl rfl ih.1 ih.2
    | append a b _ _ iha ihb =>
      obtain ⟨hta, hpa⟩ := iha
      obtain ⟨htb, hpb⟩ := ihb
      refine ⟨by rw [closeCount_append, openCount_append, hta, htb], ?_⟩
      intro p s hps
      rcases List.append_eq_append_iff.mp hps with ⟨a', h1, h2⟩ | ⟨c', h1, h2⟩
      · have := hpb a' s h2
        rw [h1, closeCount_append, openCount_append]
        omega
      · exact hpa p c' h1
  obtain ⟨htot, hpre⟩ := key t h
  refine ⟨htot, ?_⟩
  intro p s hps
  have hp := hpre p s hps
  refine ⟨hp, ?_⟩
  rw [hps, closeCount_append, openCount_append] at htot
  omega

/-- C28: in the events of every `runTaskInternal` invocation that returns,
the branches of a parallel list being taken one after another, Started and
Finished events are balanced and properly nested, whatever the exit code and
error returned (unknown task, cycle, empty step, failing command included):
the invocation adds `TaskStarted` of its task, a balanced sequence, and
`TaskFinished` of its task. In a balanced sequence every `TaskStarted{n}` and
`StepStarted{id}` is closed by its own `TaskFinished{n}` or `StepFinished{id}`
at the same level of nesting; so each bracket is closed as often as it is
opened, no part from the start has a Finished without its earlier Started,
and no part up to the end has a Started without its later Finished. With a
registry of finitely many names and a nesting budget above their number the
invocation does return. -/
theorem runTaskInternal_balanced {σ : Type} (E : Env σ) (depth : Nat) (w : World σ)
    (taskName : String) (tdef : TaskDef) (shell : String) (init : CommandList)
    (resolve : TaskResolver) (stack : List String) :
    (∀ (w' : World σ) (exitCode : Int) (err : Option Err),
      runTaskInternal E depth w taskName tdef shell init resolve stack =
        some (w', exitCode, err) →
      ∃ (inner : List Event) (canceled : Bool),
        w'.trace = w.trace ++ Event.msg (.TaskStartedMsg taskName) :: inner ++
          [Event.msg (.TaskFinishedMsg taskName exitCode err canceled)] ∧
        Balanced inner ∧
        Balanced (Event.msg (.TaskStartedMsg taskName) :: inner ++
          [Event.msg (.TaskFinishedMsg taskName exitCode err canceled)])) ∧
    (∀ t : List Event, Balanced t → ∀ k : Bool × String,
      closeCount k t = openCount k t ∧
        ∀ p s, t = p ++ s → closeCount k p ≤ openCount k p ∧ openCount k s ≤ closeCount k s) ∧
    (∀ names : List String, (∀ n, (orNoTasks resolve n).2 = true → n ∈ names) →
      names.dedup.length + 1 ≤ depth →
      (runTaskInternal E depth w taskName tdef shell init resolve stack).isSome = true) := by
  refine ⟨?_, fun t ht k => Balanced.counts t ht k, ?_⟩
  · intro w' exitCode err h
    rw [runTaskInternal_orNoTasks] at h
    obtain ⟨inner, b, htr, hbal⟩ := runTaskInternal_bracket E shell init (orNoTasks resolve)
      depth stack w w' taskName tdef exitCode err h
    exact ⟨inner, b, htr, hbal, Balanced.task taskName exitCode err b inner hbal⟩
  · intro names hfin hdepth
    have hle : offStack names stack ≤ names.dedup.length := by
      unfold offStack
      exact List.length_filter_le _ _
    rw [runTaskInternal_orNoTasks]
    exact (runTaskInternal_stable E shell init (orNoTasks resolve) names hfin depth depth stack w
      taskName tdef (by omega) (by omega)).2

/-- Witness of `runTaskInternal_balanced`: task `A` of the sample registry
references `B`, whose second step references `A` again; the invocation of `A`
ends with the cycle error and its events are balanced. -/
theorem runTaskInternal_balanced_witness :
    ∃ (inner : List Event) (canceled : Bool),
      (World.mk 1 [Event.msg (.TaskStartedMsg "A"),
          .msg (.StepStartedMsg "A::seq::0"),
          .msg (.TaskStartedMsg "B"),
          .msg (.StepStartedMsg "B::seq::0"),
          .launch ⟨"/bin/sh", "echo b", "B::seq::0"⟩,
          .msg (.TaskOutputMsg "B::seq::0" "echo b"),
          .msg (.StepFinishedMsg "B::seq::0" 0 none false),
          .msg (.TaskFinishedMsg "B" (-1) (some (cycleError "A")) false),
          .msg (.StepFinishedMsg "A::seq::0" (-1) (some (cycleError "A")) false),
          .msg (.TaskFinishedMsg "A" (-1) (some (cycleError "A")) false)]).trace =
        (World.init 0).trace ++ Event.msg (.TaskStartedMsg "A") :: inner ++
          [Event.msg (.TaskFinishedMsg "A" (-1) (some (cycleError "A")) canceled)] ∧
      Balanced inner ∧
      Balanced (Event.msg (.TaskStartedMsg "A") :: inner ++
        [Event.msg (.TaskFinishedMsg "A" (-1) (some (cycleError "A")) canceled)]) :=
  (runTaskInternal_balanced sampleEnv 5 (World.init 0) "A" (sampleRegistry "A").1 "/bin/sh" []
    (some sampleRegistry) ["A"]).1 _ _ _ rfl

/-! ### Sibling steps and the stack -/

/-- With an honest launcher `runSingle` never returns a cycle error. -/
theorem runSingle_honest {σ : Type} (E : Env σ) (hE : HonestEnv E) (w : World σ)
    (command shell : String) (init : CommandList) (target : String) (n : String) :
    (runSingle E w command shell init target).2.2 ≠ some (cycleError n) := by
  unfold runSingle
  have h := hE w.env
    ⟨if shell = "" then "/bin/sh" else shell, buildShellCommand init command, target⟩ n
  cases hr : (E.exec w.env
      ⟨if shell = "" then "/bin/sh" else shell, buildShellCommand init command, target⟩).2 with
  | notStarted err =>
    simp only [hr]
    intro he
    simp only [Option.some.injEq] at he
    rw [he] at hr
    exact h.1 hr
  | waited lines err =>
    simp only [hr]
    intro he
    rw [he] at hr
    exact h.2 lines hr

/-- A cycle error returned by `runStep` was raised by the step itself, for a
referenced task that is on the stack it was given, or was returned by the
invocation the step made, of a task that was not on that stack. -/
theorem runStep_cycle {σ : Type} (E : Env σ) (hE : HonestEnv E) (invoke : Invoke σ)
    (w w' : World σ) (taskName : String) (step : Step) (mode : StepMode) (index : Int)
    (shell : String) (init : CommandList) (resolve : String → TaskDef × Bool)
    (stack : List String) (exitCode : Int) (n : String)
    (hrun : runStep E invoke w taskName step mode index shell init resolve stack =
      some (w', exitCode, some (cycleError n))) :
    (IsTaskRef resolve step n ∧ n ∈ stack ∧ w' = w) ∨
    ∃ (child : String) (w1 w2 : World σ) (c : Int), IsTaskRef resolve step child ∧
      child ∉ stack ∧
      invoke w1 child (resolve child).1 (child :: stack) = some (w2, c, some (cycleError n)) := by
  have hsnd := resolveStepKind_snd step (some resolve)
  unfold runStep at hrun
  dsimp only at hrun
  split_ifs at hrun with h1 h2 h3 h4 h5
  · simp [cycleError] at hrun
  · simp [cycleError] at hrun
  · simp only [Option.some.injEq, Prod.mk.injEq, cycleError, Err.Errorf.injEq, List.cons.injEq,
      and_true, true_and] at hrun
    obtain ⟨hw, _, hn⟩ := hrun
    left
    have hok : (resolve (resolveStepKind step (some resolve)).2).2 = true := by simpa using h3
    rw [← hn]
    exact ⟨⟨h2, hsnd.symm, by rw [hsnd]; exact h1, hok⟩, h4, hw.symm⟩
  · have hok : (resolve (resolveStepKind step (some resolve)).2).2 = true := by simpa using h3
    rw [cloneStack] at hrun
    cases hi : invoke (w.send (.StepStartedMsg (stepID taskName mode index)))
        (resolveStepKind step (some resolve)).2
        (resolve (resolveStepKind step (some resolve)).2).1
        ((resolveStepKind step (some resolve)).2 :: stack) with
    | none => rw [hi] at hrun; simp at hrun
    | some r =>
      obtain ⟨w2, c2, e2⟩ := r
      rw [hi] at hrun
      simp only [Option.some.injEq, Prod.mk.injEq] at hrun
      obtain ⟨_, _, he⟩ := hrun
      subst he
      right
      exact ⟨_, _, w2, c2, ⟨h2, hsnd.symm, by rw [hsnd]; exact h1, hok⟩, h4, hi⟩
  · exfalso
    have hne := runSingle_honest E hE (w.send (.StepStartedMsg (stepID taskName mode index)))
      (TrimSpace step.Value) shell init (stepID taskName mode index) n
    generalize runSingle E (w.send (.StepStartedMsg (stepID taskName mode index)))
      (TrimSpace step.Value) shell init (stepID taskName mode index) = rs at hrun hne
    obtain ⟨w2, c2, e2⟩ := rs
    simp only [Option.some.injEq, Prod.mk.injEq] at hrun
    exact hne hrun.2.2
  · simp [cycleError] at hrun

/-- A cycle error returned by the loop of `runSequential` was returned by
`runStep` for one of the steps, run on the stack of the frame. -/
theorem seqLoop_cycle {σ : Type} (E : Env σ) (invoke : Invoke σ) (taskName : String)
    (mode : StepMode) (shell : String) (init : CommandList) (resolve : String → TaskDef × Bool)
    (stack : List String) (idx : Nat) (steps : StepList) (w w' : World σ) (exitCode : Int)
    (e : Err)
    (hrun : seqLoop E invoke taskName mode shell init resolve stack idx steps w =
      some (w', exitCode, some e)) :
    ∃ (step : Step) (i : Nat) (w0 w1 : World σ) (c : Int), step ∈ steps ∧
      runStep E invoke w0 taskName step mode i shell init resolve stack = some (w1, c, some e) := by
  induction steps generalizing idx w with
  | nil => simp [seqLoop] at hrun
  | cons step rest ih =>
    rw [seqLoop] at hrun
    cases hs : runStep E invoke w taskName step mode idx shell init resolve stack with
    | none => rw [hs] at hrun; simp at hrun
    | some r =>
      obtain ⟨w1, c1, e1⟩ := r
      rw [hs] at hrun
      dsimp only at hrun
      split_ifs at hrun with h1
      · simp only [Option.some.injEq, Prod.mk.injEq] at hrun
        obtain ⟨_, _, he⟩ := hrun
        subst he
        exact ⟨step, idx, w, w1, c1, List.mem_cons_self _ _, hs⟩
      · obtain ⟨s, i, w0, w2, c, hmem, hr⟩ := ih (idx + 1) w1 hrun
        exact ⟨s, i, w0, w2, c, List.mem_cons_of_mem _ hmem, hr⟩

/-- Every result that the branches of `runParallel` add was returned by
`runStep` for one of the pending steps, run on a copy of the stack of the frame. -/
theorem parLoop_results {σ : Type} (E : Env σ) (invoke : Invoke σ) (taskName : String)
    (mode : StepMode) (shell : String) (init : CommandList) (resolve : String → TaskDef × Bool)
    (stack : List String) (n : Nat) (pending : List (Nat × Step)) (w w' : World σ)
    (results results' : List (Nat × result))
    (hrun : parLoop E invoke taskName mode shell init resolve stack n pending w results =
      some (w', results')) :
    ∀ p ∈ results', p ∈ results ∨
      ∃ (step : Step) (w0 w1 : World σ), (p.1, step) ∈ pending ∧
        runStep E invoke w0 taskName step mode p.1 shell init resolve (cloneStack stack) =
          some (w1, p.2.exitCode, p.2.err) := by
  induction n generalizing pending w results with
  | zero =>
    simp only [parLoop, Option.some.injEq, Prod.mk.injEq] at hrun
    intro p hp
    rw [← hrun.2] at hp
    exact Or.inl hp
  | succ n ih =>
    rw [parLoop] at hrun
    cases hp : pending.get? ((E.pick w.env pending.length).2 % pending.length) with
    | none =>
      rw [hp] at hrun
      simp only [Option.some.injEq, Prod.mk.injEq] at hrun
      intro p hmem
      rw [← hrun.2] at hmem
      exact Or.inl hmem
    | some q =>
      obtain ⟨idx, step⟩ := q
      rw [hp] at hrun
      dsimp only at hrun
      cases hs : runStep E invoke { w with env := (E.pick w.env pending.length).1 } taskName step
          mode idx shell init resolve (cloneStack stack) with
      | none => rw [hs] at hrun; simp at hrun
      | some r =>
        obtain ⟨w1, c1, e1⟩ := r
        rw [hs] at hrun
        intro p hmem
        rcases ih _ w1 _ hrun p hmem with h | ⟨s, w0, w2, hin, hr⟩
        · rcases List.mem_append.mp h with h1 | h1
          · exact Or.inl h1
          · rw [List.mem_singleton] at h1
            subst h1
            exact Or.inr ⟨step, _, w1, List.get?_mem hp, hs⟩
        · exact Or.inr ⟨s, w0, w2, List.mem_of_mem_eraseIdx hin, hr⟩

/-- The error that the loop over the results returns is the one it started
with or the error of one of the results. -/
theorem drainResults_err_mem (rs : List result) (exitCode : Int) (err : Option Err) (c : Int)
    (e : Err) (h : drainResults rs exitCode err = (c, some e)) :
    err = some e ∨ ∃ r ∈ rs, r.err = some e := by
  induction rs generalizing exitCode err with
  | nil =>
    simp only [drainResults, Prod.mk.injEq] at h
    exact Or.inl h.2
  | cons r rest ih =>
    rw [drainResults] at h
    split_ifs at h with h1
    · rcases ih _ _ h with h2 | ⟨r', hr', he⟩
      · exact Or.inr ⟨r, List.mem_cons_self _ _, h2⟩
      · exact Or.inr ⟨r', List.mem_cons_of_mem _ hr', he⟩
    · rcases ih _ _ h with h2 | ⟨r', hr', he⟩
      · exact Or.inl h2
      · exact Or.inr ⟨r', List.mem_cons_of_mem _ hr', he⟩

/-- A cycle error returned by the steps of a frame comes from `runStep` for
one of the steps of the frame, run on the stack of the frame. -/
theorem runTaskSteps_cycle {σ : Type} (E : Env σ) (hE : HonestEnv E) (invoke : Invoke σ)
    (w w' : World σ) (taskName : String) (tdef : TaskDef) (shell : String) (init : CommandList)
    (resolve : String → TaskDef × Bool) (stack : List String) (exitCode : Int) (n : String)
    (hrun : runTaskSteps E invoke w taskName tdef shell init resolve stack =
      some (w', exitCode, some (cycleError n))) :
    ∃ (step : Step) (i : Int) (w0 w1 : World σ) (c : Int),
      step ∈ (taskSteps taskName tdef (some resolve)).2.1 ∧
      runStep E invoke w0 taskName step (taskSteps taskName tdef (some resolve)).1 i shell init
        resolve stack = some (w1, c, some (cycleError n)) := by
  unfold runTaskSteps at hrun
  dsimp only at hrun
  split_ifs at hrun with h1 h2
  · exfalso
    have hmulti : (taskSteps taskName tdef (some resolve)).2.2 = false := by simpa using h1
    cases hsteps : (taskSteps taskName tdef (some resolve)).2.1 with
    | nil =>
      rw [hsteps] at hrun
      simp [cycleError] at hrun
    | cons step0 rest =>
      have hts : taskSteps taskName tdef (some resolve) =
          ((taskSteps taskName tdef (some resolve)).1, step0 :: rest, false) := by
        rw [← hsteps, ← hmulti]
      obtain ⟨s0, hs0, _, _, hk⟩ := taskSteps_not_multi taskName tdef (some resolve) _ _ hts
        (by simp)
      have hs : step0 = s0 := by
        simp only [List.cons.injEq] at hs0
        exact hs0.1
      rw [← hs] at hk
      have hk' : ¬(resolveStepKind step0 (some resolve)).1 = StepTask := by
        rw [hk]
        decide
      rw [hsteps] at hrun
      dsimp only at hrun
      rw [if_neg hk'] at hrun
      have hne := runSingle_honest E hE w step0.Value shell init taskName n
      generalize runSingle E w step0.Value shell init taskName = rs at hrun hne
      obtain ⟨w2, c2, e2⟩ := rs
      dsimp only at hrun
      split_ifs at hrun with h3
      · simp only [Option.some.injEq, Prod.mk.injEq] at hrun
        exact hne hrun.2.2
      · simp at hrun
  · unfold runParallel at hrun
    split_ifs at hrun with h3
    · simp [cycleError] at hrun
    · cases hp : parLoop E invoke taskName (taskSteps taskName tdef (some resolve)).1 shell init
          resolve stack (taskSteps taskName tdef (some resolve)).2.1.length
          (taskSteps taskName tdef (some resolve)).2.1.enum w [] with
      | none => rw [hp] at hrun; simp at hrun
      | some r =>
        obtain ⟨w1, results⟩ := r
        rw [hp] at hrun
        simp only [Option.some.injEq, Prod.mk.injEq] at hrun
        obtain ⟨_, hd⟩ := hrun
        rcases drainResults_err_mem _ 0 none exitCode (cycleError n) hd with h4 | ⟨r, hr, he⟩
        · simp at h4
        · obtain ⟨p, hpmem, hpr⟩ := List.mem_map.mp hr
          rcases parLoop_results E invoke taskName _ shell init resolve stack _ _ w w1 [] results
            hp p hpmem with h5 | ⟨step, w0, w2, hin, hstep⟩
          · simp at h5
          · have hmem : step ∈ (taskSteps taskName tdef (some resolve)).2.1 := by
              have := List.mk_mem_enum_iff_getElem?.mp hin
              exact List.get?_mem (by rw [List.get?_eq_getElem?]; exact this)
            rw [hpr, he, cloneStack] at hstep
            exact ⟨step, _, w0, w2, _, hmem, hstep⟩
  · unfold runSequential at hrun
    split_ifs at hrun with h3
    · simp [cycleError] at hrun
    · obtain ⟨step, i, w0, w1, c, hmem, hstep⟩ := seqLoop_cycle E invoke taskName _ shell init
        resolve stack 0 _ w w' exitCode (cycleError n) hrun
      exact ⟨step, _, w0, w1, c, hmem, hstep⟩

/-- A cycle error returned by an invocation was raised in a frame reached from
it by nested invocations, by a step of that frame, for a task on that frame's stack. -/
theorem runTaskInternal_cycle {σ : Type} (E : Env σ) (hE : HonestEnv E) (shell : String)
    (init : CommandList) (resolve : String → TaskDef × Bool) (depth : Nat) :
    ∀ (stack : List String) (w w' : World σ) (taskName : String) (tdef : TaskDef)
      (exitCode : Int) (n : String),
      runTaskInternal E depth w taskName tdef shell init (some resolve) stack =
        some (w', exitCode, some (cycleError n)) →
      ∃ (name' : String) (tdef' : TaskDef) (stack' : List String) (step : Step),
        InvokePath resolve taskName tdef stack name' tdef' stack' ∧
        step ∈ (taskSteps name' tdef' (some resolve)).2.1 ∧ IsTaskRef resolve step n ∧
        n ∈ stack' := by
  induction depth with
  | zero =>
    intro stack w w' taskName tdef exitCode n h
    simp [runTaskInternal] at h
  | succ d ih =>
    intro stack w w' taskName tdef exitCode n h
    rw [runTaskInternal_succ] at h
    cases hs : runTaskSteps E (nested E d shell init resolve) (w.send (.TaskStartedMsg taskName))
        taskName tdef shell init resolve stack with
    | none => rw [hs] at h; simp at h
    | some r =>
      obtain ⟨w1, c1, e1⟩ := r
      rw [hs] at h
      simp only [Option.map_some', Option.some.injEq, Prod.mk.injEq] at h
      obtain ⟨_, _, he⟩ := h
      subst he
      obtain ⟨step, i, w0, w2, c, hmem, hstep⟩ := runTaskSteps_cycle E hE _ _ w1 taskName tdef
        shell init resolve stack c1 n hs
      rcases runStep_cycle E hE _ w0 w2 taskName step _ i shell init resolve stack c n hstep
        with ⟨href, hon, _⟩ | ⟨child, wa, wb, c', href, hoff, hcall⟩
      · exact ⟨taskName, tdef, stack, step, InvokePath.here taskName tdef stack, hmem, href, hon⟩
      · obtain ⟨name', tdef', stack', step', hpath, hmem', href', hon'⟩ :=
          ih (child :: stack) wa wb child (resolve child).1 c' n hcall
        exact ⟨name', tdef', stack', step',
          InvokePath.down taskName tdef stack step child name' tdef' stack' hmem href hoff hpath,
          hmem', href', hon'⟩

/-- The stack of a frame reached by nested invocations is the stack of the
frame it was reached from with the names of the tasks invoked on the way put
in front, each of which was off the stack when it was invoked. -/
theorem InvokePath.stack_eq (resolve : String → TaskDef × Bool) (taskName : String)
    (tdef : TaskDef) (stack : List String) (name' : String) (tdef' : TaskDef)
    (stack' : List String) (h : InvokePath resolve taskName tdef stack name' tdef' stack') :
    ∃ path : List String, stack' = path ++ stack ∧ path.Nodup ∧
      (∀ p ∈ path, p ∉ stack ∧ (resolve p).2 = true) ∧
      (path = [] → name' = taskName ∧ tdef' = tdef) ∧
      (∀ p, path.head? = some p → name' = p ∧ tdef' = (resolve p).1) := by
  induction h with
  | here taskName tdef stack =>
    exact ⟨[], rfl, List.nodup_nil, by simp, fun _ => ⟨rfl, rfl⟩, by simp⟩
  | down taskName tdef stack step child name' tdef' stack' _ href hoff _ ih =>
    obtain ⟨path, hst, hnd, hall, hnil, hhead⟩ := ih
    refine ⟨path ++ [child], by rw [hst]; simp, ?_, ?_, ?_, ?_⟩
    · refine List.Nodup.append hnd (List.nodup_singleton _) ?_
      intro a ha hb
      rw [List.mem_singleton] at hb
      subst hb
      exact (hall a ha).1 (List.mem_cons_self _ _)
    · intro p hp
      rcases List.mem_append.mp hp with h1 | h1
      · exact ⟨fun hin => (hall p h1).1 (List.mem_cons_of_mem _ hin), (hall p h1).2⟩
      · rw [List.mem_singleton] at h1
        subst h1
        exact ⟨hoff, href.2.2.2⟩
    · intro h0
      simp at h0
    · intro p hp
      cases path with
      | nil =>
        simp only [List.nil_append, List.head?_cons, Option.some.injEq] at hp
        subst hp
        exact hnil rfl
      | cons q rest =>
        simp only [List.cons_append, List.head?_cons, Option.some.injEq] at hp
        exact hhead p (by simp [hp])

/-- The sample launcher never reports a cycle error. -/
theorem sampleEnv_honest : HonestEnv sampleEnv := by
  intro s l n
  simp only [sampleEnv, cycleError]
  constructor
  · split_ifs <;> simp
  · intro lines
    split_ifs <;> simp

/-- C23: in a frame with stack `stack`, take a known task `child` that is not
on `stack`. Every step that references `child`, at every index and in every
state (so whatever sibling steps ran before or run beside it), passes the cycle
check: `runStep` sends `StepStarted` and invokes `child` on `child :: stack`.
In a sequential list the step that follows a prefix of steps that returned no
error, references to `child` among them, is run that way on the same `stack`;
in a parallel list every result received comes from `runStep` on `stack`, and
for a reference to `child` from the invocation on `child :: stack`. And with a
launcher that makes no cycle errors itself, a cycle error returned by an
invocation was raised by a step of a frame reached through nested invocations
only, for a task on that frame's stack, which is `stack` with the names of
the tasks invoked on the way to that frame in front. -/
theorem sibling_steps_keep_stack {σ : Type} (E : Env σ) (invoke : Invoke σ)
    (taskName : String) (mode : StepMode) (shell : String) (init : CommandList)
    (resolve : String → TaskDef × Bool) (stack : List String) (child : String)
    (hoff : child ∉ stack) :
    (∀ (step : Step) (w : World σ) (index : Int), IsTaskRef resolve step child →
      runStep E invoke w taskName step mode index shell init resolve stack =
        (invoke (w.send (.StepStartedMsg (stepID taskName mode index))) child (resolve child).1
          (child :: stack)).map (finishStep E (stepID taskName mode index))) ∧
    (∀ (pre post : StepList) (step : Step) (w w1 : World σ),
      RunsClean E invoke taskName mode shell init resolve stack 0 pre w w1 →
      IsTaskRef resolve step child →
      seqLoop E invoke taskName mode shell init resolve stack 0 (pre ++ step :: post) w =
        match (invoke (w1.send (.StepStartedMsg (stepID taskName mode pre.length))) child
            (resolve child).1 (child :: stack)).map
            (finishStep E (stepID taskName mode pre.length)) with
        | none => none
        | some (w2, exitCode, err) =>
          if err.isSome then some (w2, exitCode, err)
          else seqLoop E invoke taskName mode shell init resolve stack (pre.length + 1) post w2) ∧
    (∀ (steps : StepList) (w w' : World σ) (results : List (Nat × result)),
      parLoop E invoke taskName mode shell init resolve stack steps.length steps.enum w [] =
        some (w', results) →
      ∀ p ∈ results, ∃ (step : Step) (w0 w1 : World σ), steps.get? p.1 = some step ∧
        runStep E invoke w0 taskName step mode p.1 shell init resolve stack =
          some (w1, p.2.exitCode, p.2.err) ∧
        (IsTaskRef resolve step child →
          (invoke (w0.send (.StepStartedMsg (stepID taskName mode p.1))) child (resolve child).1
            (child :: stack)).map (finishStep E (stepID taskName mode p.1)) =
            some (w1, p.2.exitCode, p.2.err))) ∧
    (HonestEnv E → ∀ (depth : Nat) (w w' : World σ) (tdef : TaskDef) (exitCode : Int)
      (n : String),
      runTaskInternal E depth w taskName tdef shell init (some resolve) stack =
        some (w', exitCode, some (cycleError n)) →
      ∃ (name' : String) (tdef' : TaskDef) (stack' path : List String) (step : Step),
        InvokePath resolve taskName tdef stack name' tdef' stack' ∧
        stack' = path ++ stack ∧ path.Nodup ∧ (∀ p ∈ path, p ∉ stack ∧ (resolve p).2 = true) ∧
        step ∈ (taskSteps name' tdef' (some resolve)).2.1 ∧ IsTaskRef resolve step n ∧
        n ∈ stack') := by
  have hstep : ∀ (step : Step) (w : World σ) (index : Int), IsTaskRef resolve step child →
      runStep E invoke w taskName step mode index shell init resolve stack =
        (invoke (w.send (.StepStartedMsg (stepID taskName mode index))) child (resolve child).1
          (child :: stack)).map (finishStep E (stepID taskName mode index)) := by
    intro step w index href
    exact runStep_task_ref E invoke w taskName step mode index shell init resolve stack child
      href hoff
  refine ⟨hstep, ?_, ?_, ?_⟩
  · intro pre post step w w1 hclean href
    rw [seqLoop_append_of_clean E invoke taskName mode shell init resolve stack 0 pre
      (step :: post) w w1 hclean, seqLoop]
    simp only [Nat.zero_add]
    rw [hstep step w1 _ href]
  · intro steps w w' results hpar p hp
    rcases parLoop_results E invoke taskName mode shell init resolve stack _ _ w w' [] results
      hpar p hp with h | ⟨step, w0, w1, hin, hrun⟩
    · simp at h
    · rw [cloneStack] at hrun
      have hget : steps.get? p.1 = some step := by
        rw [List.get?_eq_getElem?]
        exact List.mk_mem_enum_iff_getElem?.mp hin
      refine ⟨step, w0, w1, hget, hrun, ?_⟩
      intro href
      rw [← hstep step w0 _ href]
      exact hrun
  · intro hE depth w w' tdef exitCode n hrun
    obtain ⟨name', tdef', stack', step, hpath, hmem, href, hon⟩ :=
      runTaskInternal_cycle E hE shell init resolve depth stack w w' taskName tdef exitCode n
        hrun
    obtain ⟨path, hst, hnd, hall, _, _⟩ :=
      InvokePath.stack_eq resolve taskName tdef stack name' tdef' stack' hpath
    exact ⟨name', tdef', stack', path, step, hpath, hst, hnd, hall, hmem, href, hon⟩

/-- Witness of `sibling_steps_keep_stack`. A task whose sequential list, and a
task whose parallel list, references `child` of the sample registry twice runs
both references and returns no error. And task `A`, which references `B`,
whose second step references `A` again, returns a cycle error that names a
task on the stack of the frame that raised it. -/
theorem sibling_steps_keep_stack_witness :
    (runTaskInternal sampleEnv 3 (World.init 0) "twice"
        ⟨"twice", "", false, [], [], [⟨"child", "", StepAuto⟩, ⟨"child", "", StepTask⟩]⟩
        "/bin/sh" [] (some sampleRegistry) ["twice"]).map (fun r => (r.1.launched.length, r.2)) =
      some (2, 0, none) ∧
    (runTaskInternal sampleEnv 3 (World.init 0) "twice"
        ⟨"twice", "", false, [], [⟨"child", "", StepAuto⟩, ⟨"child", "", StepTask⟩], []⟩
        "/bin/sh" [] (some sampleRegistry) ["twice"]).map (fun r => (r.1.launched.length, r.2)) =
      some (2, 0, none) ∧
    ∃ (name' : String) (tdef' : TaskDef) (stack' path : List String) (step : Step),
      InvokePath sampleRegistry "A" (sampleRegistry "A").1 ["A"] name' tdef' stack' ∧
      stack' = path ++ ["A"] ∧ path.Nodup ∧
      (∀ p ∈ path, p ∉ ["A"] ∧ (sampleRegistry p).2 = true) ∧
      step ∈ (taskSteps name' tdef' (some sampleRegistry)).2.1 ∧
      IsTaskRef sampleRegistry step "A" ∧ "A" ∈ stack' :=
  ⟨by decide, by decide,
    (sibling_steps_keep_stack sampleEnv (nested sampleEnv 0 "/bin/sh" [] sampleRegistry) "A"
      StepModeSeq "/bin/sh" [] sampleRegistry ["A"] "child" (by decide)).2.2.2 sampleEnv_honest 5
      (World.init 0) _ (sampleRegistry "A").1 _ "A" rfl⟩

end DudeSuite
